import Mathlib

/-! # lfa_lab: pushdown automaton and Turing machine simulators, pancake sorting

A shallow embedding of `src/pda.cpp` (class `PushdownAutomaton`),
`src/turing.cpp` (class `TuringMachine`) and
`src/documents/Pancake_sorting.cpp` (function `pancakeSort`).

Conventions of the embedding

* `std::vector` is a `List`; the back of a vector (the stack top) is the last
  element of the list.
* `operator[]` past the end of a vector and `unordered_map::at` on an absent
  key are faults: every function that can reach one returns in `Exec`.
* Recursion and loops whose termination the source does not guarantee take a
  `fuel` argument and fault with `Fault.outOfFuel` when it is exhausted.
* Console output is returned as a list of events, in print order.
* An `int` variable holds an integer from `-2^31` to `2^31 - 1`: an increment,
  a decrement or a conversion of a size to `int` is reduced into that range
  (`toInt32`, `PancakeSorting.toInt`).
-/

namespace LfaLab

/-- Ways in which an embedded function fails to return a value. -/
inductive Fault
  /-- Raised by `automaton.at(name)` when the section `name` is absent. -/
  | missingSection
  /-- Raised by `v[i]` with `i` outside the vector `v`. -/
  | badIndex
  /-- The recursion or loop budget of the embedding is exhausted. -/
  | outOfFuel
  deriving DecidableEq, Repr

deriving instance DecidableEq for Except

/-- Result of an embedded function: a value or a fault. -/
abbrev Exec (α : Type) := Except Fault α

/-- Vector access `v[i]`. -/
def idx {α : Type} (v : List α) (i : Nat) : Exec α :=
  match v[i]? with
  | some x => .ok x
  | none => .error Fault.badIndex

/-- The value of a 32-bit `int` after an operation whose result over the
integers is `z`: the result is reduced modulo `2^32` into the range from
`-2^31` to `2^31 - 1` (two's complement wraparound). -/
def toInt32 (z : Int) : Int := (z + 2147483648) % 4294967296 - 2147483648

/-- Membership in the set `" \t\n\r"` that both `trim` helpers strip. -/
def isTrimChar (c : Char) : Bool := c == ' ' || c == '\t' || c == '\n' || c == '\r'

/-- Whitespace as skipped by `operator>>` on a stream in the classic locale:
space, `\t`, `\n`, `\v`, `\f`, `\r`. -/
def isSpace (c : Char) : Bool :=
  c == ' ' || c == '\t' || c == '\n' || c == Char.ofNat 11 || c == Char.ofNat 12 || c == '\r'

/-- The loop `while (stream >> token) tokens.push_back(token);` that both
classes use to split a line, over the characters still to read; `cur` is the
token being read. -/
def extractTokens : List Char → List Char → List String
  | [], cur => if cur.isEmpty then [] else [String.mk cur]
  | c :: cs, cur =>
      if isSpace c then
        if cur.isEmpty then extractTokens cs [] else String.mk cur :: extractTokens cs []
      else extractTokens cs (cur ++ [c])

/-! ## Pushdown automaton (`src/pda.cpp`) -/

namespace PushdownAutomaton

/-- One parsed line: a vector of tokens. -/
abbrev Row := List String

/-- The rows stored under one section name. -/
abbrev Section := List Row

/-- The member `automaton`: section name to rows. -/
abbrev Automaton := List (String × Section)

/-- Source `trim`: the empty string when `find_first_not_of` finds nothing,
otherwise the substring from the first to the last character outside
`" \t\n\r"`. -/
def trim (str : String) : String :=
  match str.toList.dropWhile isTrimChar with
  | [] => ""
  | c :: cs => String.mk ((c :: cs).reverse.dropWhile isTrimChar).reverse

/-- Source `splitString`. -/
def splitString (str : String) : List String := extractTokens str.toList []

/-- The header test of `loadAutomaton` on a non-empty line:
`line[0] == '[' && line[line.length() - 1] == ']'`. -/
def isHeader (line : String) : Bool :=
  line.toList.head? == some '[' && line.toList.getLast? == some ']'

/-- Expression `line.substr(1, line.length() - 2)`. -/
def headerName (line : String) : String :=
  String.mk ((line.toList.drop 1).take (line.length - 2))

/-- Assignment `automaton[name] = rows`: the entry is replaced, or created
when the key is absent. -/
def setSection (a : Automaton) (name : String) (rows : Section) : Automaton :=
  match a with
  | [] => [(name, rows)]
  | (k, v) :: rest =>
      if k == name then (k, rows) :: rest else (k, v) :: setSection rest name rows

/-- The vector `automaton[name]`, empty when the key is absent. -/
def rowsOf (a : Automaton) (name : String) : Section := (a.lookup name).getD []

/-- The `exists` loop over `automaton[name]` followed by the guarded
`push_back`: `row` is appended to the section unless an equal row is stored
there. -/
def addRow (a : Automaton) (name : String) (row : Row) : Automaton :=
  if (rowsOf a name).contains row then a
  else setSection a name (rowsOf a name ++ [row])

/-- One iteration of the `while (std::getline ...)` loop of `loadAutomaton` on
the raw line `raw`: the member `automaton` and `currentSection` after it. -/
def loadAutomatonLine (a : Automaton) (currentSection : String) (raw : String) :
    Automaton × String :=
  let line := trim raw
  if line == "" || line.toList.head? == some '#' then
    (a, currentSection)
  else if isHeader line then
    (setSection a (headerName line) [], headerName line)
  else if currentSection == "sigma" then
    (addRow a currentSection [trim line], currentSection)
  else if currentSection != "" then
    (addRow a currentSection (splitString line), currentSection)
  else
    (a, currentSection)

/-- The `while (std::getline ...)` loop of `loadAutomaton` over the lines
still to read. -/
def loadAutomatonLines : List String → Automaton → String → Automaton
  | [], a, _ => a
  | raw :: rest, a, currentSection =>
      loadAutomatonLines rest (loadAutomatonLine a currentSection raw).1
        (loadAutomatonLine a currentSection raw).2

/-- Source `loadAutomaton` on a file that could be opened, given as the lines
`std::getline` yields: the member `automaton` when it returns true. -/
def loadAutomaton (lines : List String) : Automaton :=
  loadAutomatonLines lines [] ""

/-- Lookup `automaton.at(name)`. -/
def sectionAt (a : Automaton) (name : String) : Exec Section :=
  match a.lookup name with
  | some s => .ok s
  | none => .error Fault.missingSection

/-- Everything the pushdown program prints, one constructor per message. -/
inductive Out
  /-- Text "Enter input string (space-separated symbols): ". -/
  | askInput
  /-- Text "Nu e automat valid, verificati fisierul de input si incercati din nou!". -/
  | invalidAutomaton
  /-- Text "Input invalid!". -/
  | invalidInput
  /-- The start announcement "<state> -> " printed before the first closure. -/
  | start (state : String)
  /-- The line "<state> -> [<stack>]" printed by `applyRule`. -/
  | transition (state : String) (stack : List String)
  /-- Text "No valid transition for input symbol <value> from state <state>". -/
  | noTransition (value : String) (state : String)
  /-- Text "Input rejected!". -/
  | inputRejected
  /-- The line "Final stack: [<stack>]". -/
  | finalStack (stack : List String)
  /-- Text "Input accepted - reached final state!". -/
  | accepted
  /-- Text "Input rejected - not in a final state!". -/
  | notInFinalState
  deriving DecidableEq, Repr

/-- Loop of `isValidAutomaton`: every required section is present. -/
def isValidAutomaton (a : Automaton) : Bool :=
  ["states", "sigma", "rules"].all (fun s => (a.lookup s).isSome)

/-- The loops `for (row : sec) out.push_back(row[0]);` of `isValidRule` and
`isValidInput`. -/
def firstTokens : Section → Exec (List String)
  | [] => .ok []
  | row :: rest => do
      let t ← idx row 0
      let ts ← firstTokens rest
      return t :: ts

/-- Source `isValidRule`. -/
def isValidRule (a : Automaton) (rule : Row) : Exec Bool := do
  let states ← firstTokens (← sectionAt a "states")
  let sigmaValues ← firstTokens (← sectionAt a "sigma")
  if rule.length != 5 then
    return false
  let r0 ← idx rule 0
  if !states.contains r0 then
    return false
  let r4 ← idx rule 4
  if !states.contains r4 then
    return false
  let r1 ← idx rule 1
  if !sigmaValues.contains r1 then
    return false
  let r2 ← idx rule 2
  if !sigmaValues.contains r2 then
    return false
  let r3 ← idx rule 3
  if !sigmaValues.contains r3 then
    return false
  return true

/-- Loop of `allValidRules` over the rules still to check. -/
def allValidRulesFrom (a : Automaton) : List Row → Exec Bool
  | [] => .ok true
  | rule :: rest => do
      if !(← isValidRule a rule) then
        return false
      allValidRulesFrom a rest

/-- Source `allValidRules`. -/
def allValidRules (a : Automaton) : Exec Bool := do
  let rules ← sectionAt a "rules"
  allValidRulesFrom a rules

/-- The loop over the states rows in `isValidFirstRule`: `startState` is
overwritten by every row with more than one token whose token 1 is `S`. -/
def findStartState : Section → String → String
  | [], startState => startState
  | state :: rest, startState =>
      match state with
      | name :: tag :: _ => findStartState rest (if tag == "S" then name else startState)
      | _ => findStartState rest startState

/-- Source `isValidFirstRule`. -/
def isValidFirstRule (a : Automaton) : Exec Bool := do
  let rules ← sectionAt a "rules"
  if rules.isEmpty then
    return false
  let states ← sectionAt a "states"
  let startState := findStartState states ""
  let rule0 ← idx rules 0
  let from0 ← idx rule0 0
  return from0 == startState

/-- Source `isValidInput`. -/
def isValidInput (a : Automaton) (input : List String) : Exec Bool := do
  if input.isEmpty then
    return true
  let sigmaValues ← firstTokens (← sectionAt a "sigma")
  return input.all (fun value => sigmaValues.contains value)

/-- Source `applyRule`: the result is the returned flag, the new `currState`,
the new `stack` and what was printed. -/
def applyRule (rule : Row) (currState : String) (stack : List String) :
    Exec (Bool × String × List String × List Out) := do
  let pop ← idx rule 2
  if pop != "e" && (stack.isEmpty || stack.getLast? != some pop) then
    return (false, currState, stack, [])
  let stack1 := if pop != "e" then stack.dropLast else stack
  let push ← idx rule 3
  let stack2 := if push != "e" then stack1 ++ [push] else stack1
  let toState ← idx rule 4
  return (true, toState, stack2, [Out.transition toState stack2])

/-- What `applyRule`, `applyEpsilonTransitions` and the loops of `startPDA`
hand back: a flag, the variables `currState` and `stack`, and the printed
events. -/
abbrev Step := Bool × String × List String × List Out

/-- The `for` loop of `applyEpsilonTransitions` over the rules not yet
visited. `recurse` is the recursive call of `applyEpsilonTransitions`. The
flag `epsilonTransitionApplied` is still false whenever the loop is running,
because setting it is always followed by `return` or `break`. -/
def epsilonLoop (recurse : String → List String → Exec Step) :
    List Row → String → List String → Exec Step
  | [], currState, stack => .ok (false, currState, stack, [])
  | rule :: rest, currState, stack => do
      let r0 ← idx rule 0
      if currState == r0 then
        let r1 ← idx rule 1
        if r1 == "e" then
          let r2 ← idx rule 2
          if r2 == "e" || (!stack.isEmpty && stack.getLast? == some r2) then
            let (applied, currState1, stack1, out1) ← applyRule rule currState stack
            if applied then
              let (again, currState2, stack2, out2) ← recurse currState1 stack1
              if again then
                return (true, currState2, stack2, out1 ++ out2)
              else
                return (true, currState2, stack2, out1 ++ out2)
            else
              epsilonLoop recurse rest currState1 stack1
          else
            epsilonLoop recurse rest currState stack
        else
          epsilonLoop recurse rest currState stack
      else
        epsilonLoop recurse rest currState stack

/-- Source `applyEpsilonTransitions`; `fuel` bounds the recursion depth. -/
def applyEpsilonTransitions (a : Automaton) : Nat → String → List String → Exec Step
  | 0, _, _ => .error Fault.outOfFuel
  | fuel + 1, currState, stack => do
      let rules ← sectionAt a "rules"
      epsilonLoop (applyEpsilonTransitions a fuel) rules currState stack

/-- The inner `for` loop of `startPDA` (one input symbol `value`) over the
rules not yet visited; the flag is `processedInput`. -/
def inputLoop (a : Automaton) (fuel : Nat) (value : String) :
    List Row → String → List String → Exec Step
  | [], currState, stack => .ok (false, currState, stack, [])
  | rule :: rest, currState, stack => do
      let r0 ← idx rule 0
      if currState == r0 then
        let r1 ← idx rule 1
        if r1 == value then
          let (applied, currState1, stack1, out1) ← applyRule rule currState stack
          if applied then
            let (_, currState2, stack2, out2) ← applyEpsilonTransitions a fuel currState1 stack1
            return (true, currState2, stack2, out1 ++ out2)
          else
            inputLoop a fuel value rest currState1 stack1
        else
          inputLoop a fuel value rest currState stack
      else
        inputLoop a fuel value rest currState stack

/-- The outer `for` loop of `startPDA` over the input symbols still to read.
The flag is false when the loop left `startPDA` through the `return` after
"Input rejected!". -/
def inputSymbols (a : Automaton) (fuel : Nat) :
    List String → String → List String → Exec Step
  | [], currState, stack => .ok (true, currState, stack, [])
  | value :: rest, currState, stack => do
      let rules ← sectionAt a "rules"
      let (processedInput, currState1, stack1, out1) ←
        inputLoop a fuel value rules currState stack
      if !processedInput then
        return (false, currState1, stack1,
          out1 ++ [Out.noTransition value currState1, Out.inputRejected])
      else
        let (finished, currState2, stack2, out2) ← inputSymbols a fuel rest currState1 stack1
        return (finished, currState2, stack2, out1 ++ out2)

/-- The loop of `startPDA` that searches the start and final states: the
result is `(currState, finalStates)`. -/
def collectStates : Section → String → List String → String × List String
  | [], currState, finalStates => (currState, finalStates)
  | state :: rest, currState, finalStates =>
      match state with
      | name :: tag :: _ =>
          if tag == "S" then collectStates rest name finalStates
          else if tag == "F" then collectStates rest currState (finalStates ++ [name])
          else collectStates rest currState finalStates
      | _ => collectStates rest currState finalStates

/-- Source `startPDA`. `inputString` is the token vector
`splitString(inputLine)`; the result is everything printed on `std::cout`. -/
def startPDA (a : Automaton) (fuel : Nat) (inputString : List String) : Exec (List Out) := do
  if !isValidAutomaton a then
    return [Out.invalidAutomaton]
  if !(← allValidRules a) then
    return [Out.invalidAutomaton]
  if ← isValidInput a inputString then
    let (currState, finalStates) := collectStates (← sectionAt a "states") "" []
    if ← isValidFirstRule a then
      let (_, currState1, stack1, out1) ← applyEpsilonTransitions a fuel currState []
      let (finished, currState2, stack2, out2) ←
        inputSymbols a fuel inputString currState1 stack1
      if !finished then
        return [Out.askInput, Out.start currState] ++ out1 ++ out2
      let (_, currState3, stack3, out3) ← applyEpsilonTransitions a fuel currState2 stack2
      return [Out.askInput, Out.start currState] ++ out1 ++ out2 ++ out3 ++
        [Out.finalStack stack3,
         if finalStates.contains currState3 then Out.accepted else Out.notInFinalState]
    else
      return [Out.askInput, Out.invalidAutomaton]
  else
    return [Out.askInput, Out.invalidInput]

/-! ### Notions used to state the properties of the pushdown automaton -/

/-- The first token of some row of a section. -/
def declaredIn (sec : Section) (t : String) : Prop := ∃ row ∈ sec, row.head? = some t

/-- A 5-token rule can be applied for the token `value` at the configuration
`(currState, stack)`: its from-state is `currState`, its input-token is
`value`, and its pop-token is `e` or the stack top. -/
def applicable (value currState : String) (stack : List String) (rule : Row) : Bool :=
  match rule with
  | [f, i, p, _, _] => f == currState && i == value && (p == "e" || stack.getLast? == some p)
  | _ => false

/-- The state and the stack that applying a 5-token rule leaves behind: the
top is removed unless the pop-token is `e`, then the push-token is appended
unless it is `e`. -/
def fire (rule : Row) (stack : List String) : String × List String :=
  match rule with
  | [_, _, p, q, t] =>
      (t, (if p = "e" then stack else stack.dropLast) ++ (if q = "e" then [] else [q]))
  | _ => ("", stack)

/-- Exactly `n` times in a row, apply the first rule in declaration order that
is an applicable epsilon rule at the current configuration: the configuration
reached and the transition events, or `none` when some step finds no such
rule. -/
def chase (rules : Section) : Nat → String → List String →
    Option (String × List String × List Out)
  | 0, currState, stack => some (currState, stack, [])
  | n + 1, currState, stack =>
      match rules.find? (applicable "e" currState stack) with
      | none => none
      | some rule =>
          match chase rules n (fire rule stack).1 (fire rule stack).2 with
          | none => none
          | some (currState1, stack1, out) =>
              some (currState1, stack1,
                Out.transition (fire rule stack).1 (fire rule stack).2 :: out)

/-- The events that `startPDA` prints only from inside the simulation: the
start announcement, transitions, the final stack and the verdicts. -/
def Out.fromExecution : Out → Bool
  | Out.askInput => false
  | Out.invalidAutomaton => false
  | Out.invalidInput => false
  | _ => true

/-- First-occurrence deduplication: go through the rows in order and keep a
row exactly when no equal row has been kept before. -/
def keepFirst (rows : List Row) : List Row :=
  rows.foldl (fun kept row => if kept.contains row then kept else kept ++ [row]) []

/-- The row that a processed line contributes: in section `sigma` the whole
trimmed line as one token, elsewhere its whitespace-separated tokens. -/
def lineRow (currentSection line : String) : Row :=
  if currentSection == "sigma" then [trim line] else splitString line

/-- The rows that the lines of a definition text contribute to section `name`
after the last header `[name]`, in file order and with repetitions;
`currentSection` is the section the first line lies in and `rowsSoFar` what
has been contributed before. -/
def contributedRows (name : String) : List String → String → List Row → List Row
  | [], _, rowsSoFar => rowsSoFar
  | raw :: rest, currentSection, rowsSoFar =>
      if trim raw == "" || (trim raw).toList.head? == some '#' then
        contributedRows name rest currentSection rowsSoFar
      else if isHeader (trim raw) then
        contributedRows name rest (headerName (trim raw))
          (if headerName (trim raw) == name then [] else rowsSoFar)
      else if currentSection != "" && currentSection == name then
        contributedRows name rest currentSection
          (rowsSoFar ++ [lineRow currentSection (trim raw)])
      else
        contributedRows name rest currentSection rowsSoFar

/-- The rows of the lines that follow a header `[name]` up to the next header:
the lines that are neither empty after trimming nor comments, each split the
way its section is split, in file order. -/
def rowsFollowing (name : String) (post : List String) : List Row :=
  ((post.filter (fun raw => !(trim raw == "" || (trim raw).toList.head? == some '#'))).takeWhile
    (fun raw => !isHeader (trim raw))).map (fun raw => lineRow name (trim raw))

/-- The stack invariant: no element is the epsilon token `e`, and every
element is the push-token (token 3) of a rule and the first token of a row of
`sigma`. -/
def stackOk (rules sigma : Section) (stack : List String) : Prop :=
  ∀ x ∈ stack, x ≠ "e" ∧ (∃ r ∈ rules, r[3]? = some x) ∧ declaredIn sigma x

/-- The rules of `applied`, applied one after the other by `applyRule` from
the state `currState` and the stack `stack`: the state and the stack reached,
or `none` when `applyRule` does not apply one of them. -/
def applyRules : List Row → String → List String → Option (String × List String)
  | [], currState, stack => some (currState, stack)
  | rule :: rest, currState, stack =>
      match applyRule rule currState stack with
      | .ok (true, currState1, stack1, _) => applyRules rest currState1 stack1
      | _ => none

/-- The stack that an event shows: the snapshot of a transition line and the
final stack. -/
def Out.stack? : Out → Option (List String)
  | Out.transition _ stack => some stack
  | Out.finalStack stack => some stack
  | _ => none

/-! ### Example automata -/

/-- Two rules for state `q0` and symbol `a`: the first declared needs `x` on
top of the stack, the second pops nothing. -/
def twoRules : Automaton :=
  [("states", [["q0", "S"], ["q1", "0"], ["q2", "F"]]),
   ("sigma", [["a"], ["x"], ["y"], ["e"]]),
   ("rules", [["q0", "a", "x", "e", "q1"], ["q0", "a", "e", "y", "q2"]])]

/-- Two rows tagged `F`: `q1` first, `q2` last; the only rule leads to `q1`. -/
def twoFinals : Automaton :=
  [("states", [["q0", "S"], ["q1", "F"], ["q2", "F"]]),
   ("sigma", [["a"], ["e"]]),
   ("rules", [["q0", "a", "e", "e", "q1"]])]

/-- A chain of two epsilon rules: push `x` going to `q1`, pop it going to
`q2`; no rule reads `a` in `q2`. -/
def chain : Automaton :=
  [("states", [["q0", "S"], ["q1", "0"], ["q2", "F"]]),
   ("sigma", [["a"], ["x"], ["e"]]),
   ("rules", [["q0", "e", "e", "x", "q1"], ["q1", "e", "x", "e", "q2"]])]

/-- A definition text that repeats a states row, a sigma symbol and (with other
spacing) a rule. -/
def repeatsText : List String :=
  ["[states]", "q0 S", "q1 F", "q0 S", "[sigma]", "a", "e", "a", "[rules]", "q0 a e e q1",
   "q0  a e e   q1"]

/-- One epsilon rule from the start state `q0` to the final state `q1`, with
epsilon pop and epsilon push. -/
def oneEpsilon : Automaton :=
  [("states", [["q0", "S"], ["q1", "F"]]),
   ("sigma", [["e"]]),
   ("rules", [["q0", "e", "e", "e", "q1"]])]

/-- One epsilon rule from `q` to `q` that pops and pushes `x`. -/
def selfLoop : Automaton :=
  [("states", [["q", "S"], ["f", "F"]]),
   ("sigma", [["x"], ["e"]]),
   ("rules", [["q", "e", "x", "x", "q"]])]

/-- A definition text whose third line is a single vertical tab (character
11), between the two rows of `[states]`. -/
def vtabText : List String :=
  ["[states]", "q0 S", String.mk [Char.ofNat 11], "q1 F", "[sigma]", "a", "e", "[rules]",
   "q0 a e e q1"]

/-- The text `vtabText` with an empty line in place of the vertical tab. -/
def emptyLineText : List String :=
  ["[states]", "q0 S", "", "q1 F", "[sigma]", "a", "e", "[rules]", "q0 a e e q1"]

/-- A text that opens `[states]` twice: two rows under the first header, and
under the second one the row `q2 S` twice around a comment, then `q3 F`. -/
def reopenedText : List String :=
  ["[states]", "q0 S", "q1 F", "[sigma]", "a", "[states]", "q2 S", "# again", "q2 S", "q3 F",
   "[rules]", "q2 a e e q3"]

/-- Reading `a` pushes `x`; reading `b` pops an `x` and leads to the final
state `q1`. -/
def pushPop : Automaton :=
  [("states", [["q0", "S"], ["q1", "F"]]),
   ("sigma", [["a"], ["b"], ["x"], ["e"]]),
   ("rules",
    [["q0", "a", "e", "x", "q0"], ["q0", "b", "x", "e", "q1"], ["q1", "b", "x", "e", "q1"]])]

end PushdownAutomaton

/-! ## Turing machine (`src/turing.cpp`)

A `std::string` is a `String` whose characters stand for its `char`s, so
`length` and `s[0]` are those of the source. -/

/-- The data members of class `TuringMachine`. The map `states_` is kept as an
association list with one entry per key and the set `sigma_` as a list without
repetition; the source only asks them for membership and emptiness. -/
structure TuringMachine where
  /-- Member `states_`: state name to tag. -/
  states_ : List (String × String)
  /-- Member `sigma_`. -/
  sigma_ : List Char
  /-- Member `rules_`, in the order of `push_back`. -/
  rules_ : List (List String)
  /-- Member `start_state_`. -/
  start_state_ : String
  /-- Member `final_state_`. -/
  final_state_ : String
  deriving DecidableEq, Repr

namespace TuringMachine

/-- A freshly constructed `TuringMachine`: every member empty. -/
def empty : TuringMachine :=
  { states_ := [], sigma_ := [], rules_ := [], start_state_ := "", final_state_ := "" }

/-- Character `s[0]` of a `std::string`; for the empty string this is the
terminating null character. -/
def char0 (s : String) : Char := s.toList.headD (Char.ofNat 0)

/-- Source `trim`: when `find_first_not_of` finds nothing the argument itself
is returned; otherwise the substring from the first to the last character
outside `" \t\n\r"`. -/
def trim (s : String) : String :=
  match s.toList.dropWhile isTrimChar with
  | [] => s
  | c :: cs => String.mk ((c :: cs).reverse.dropWhile isTrimChar).reverse

/-- Source `split`. -/
def split (s : String) : List String := extractTokens s.toList []

/-- Source `isValidState`. -/
def isValidState (tm : TuringMachine) (state_name : String) : Bool :=
  (tm.states_.lookup state_name).isSome

/-- Source `isValidSymbol`. -/
def isValidSymbol (tm : TuringMachine) (symbol : Char) : Bool :=
  tm.sigma_.contains symbol

/-- Source `isValidDirection`. -/
def isValidDirection (dir : String) : Bool := dir == "R" || dir == "L"

/-- Assignment `states_[key] = value`. -/
def assign (m : List (String × String)) (key value : String) : List (String × String) :=
  match m with
  | [] => [(key, value)]
  | (k, v) :: rest => if k == key then (k, value) :: rest else (k, v) :: assign rest key value

/-- Call `sigma_.insert(c)`. -/
def insertSymbol (sigma : List Char) (c : Char) : List Char :=
  if sigma.contains c then sigma else sigma ++ [c]

/-- The header test of `loadFromFile` on a non-empty line: `line.rfind('[', 0)
== 0` holds exactly when the first character is `[`, and `line.rfind(']',
line.length() - 1) == line.length() - 1` exactly when the last one is `]`. -/
def isHeader (line : String) : Bool :=
  line.toList.head? == some '[' && line.toList.getLast? == some ']'

/-- Expression `line.substr(1, line.length() - 2)`. -/
def headerName (line : String) : String :=
  String.mk ((line.toList.drop 1).take (line.length - 2))

/-- One iteration of the `while (std::getline ...)` loop of `loadFromFile` on
the raw line `raw`: `none` is `return false`, otherwise the members and
`current_section` after the iteration. -/
def loadLine (tm : TuringMachine) (current_section : String) (raw : String) :
    Option (TuringMachine × String) :=
  let line := trim raw
  if line == "" || line.toList.head? == some '#' then
    some (tm, current_section)
  else if isHeader line then
    some (tm, trim (headerName line))
  else if current_section == "states" then
    match split line with
    | [name, tag] =>
        let tm1 := { tm with states_ := assign tm.states_ name tag }
        if tag == "S" then some ({ tm1 with start_state_ := name }, current_section)
        else if tag == "F" then some ({ tm1 with final_state_ := name }, current_section)
        else some (tm1, current_section)
    | _ => none
  else if current_section == "sigma" then
    if line.length == 1 then
      some ({ tm with sigma_ := insertSymbol tm.sigma_ (char0 line) }, current_section)
    else none
  else if current_section == "rules" then
    let parts := split line
    if parts.length == 5 then
      some ({ tm with rules_ := tm.rules_ ++ [parts] }, current_section)
    else none
  else
    some (tm, current_section)

/-- The `while (std::getline ...)` loop of `loadFromFile` over the lines still
to read. -/
def loadLines : List String → TuringMachine → String → Option TuringMachine
  | [], tm, _ => some tm
  | raw :: rest, tm, current_section =>
      match loadLine tm current_section raw with
      | none => none
      | some (tm1, section1) => loadLines rest tm1 section1

/-- Source `loadFromFile` on a file that could be opened, given as the lines
`std::getline` yields: `none` is `return false`, `some tm` is `return true`
with the members `tm`. -/
def loadFromFile (lines : List String) : Option TuringMachine :=
  loadLines lines empty ""

/-- The `for` loop of `isValidAutomaton` over the rules still to check. -/
def rulesValidFrom (tm : TuringMachine) : List (List String) → Exec Bool
  | [] => .ok true
  | rule :: rest => do
      let r0 ← idx rule 0
      if !isValidState tm r0 then
        return false
      let r2 ← idx rule 2
      if !isValidState tm r2 then
        return false
      let r1 ← idx rule 1
      if !isValidSymbol tm (char0 r1) then
        return false
      let r3 ← idx rule 3
      if !isValidSymbol tm (char0 r3) then
        return false
      let r4 ← idx rule 4
      if !isValidDirection r4 then
        return false
      rulesValidFrom tm rest

/-- Source `isValidAutomaton` (the messages on `std::cerr` are left out). -/
def isValidAutomaton (tm : TuringMachine) : Exec Bool := do
  if tm.states_.isEmpty || tm.sigma_.isEmpty || tm.rules_.isEmpty then
    return false
  if tm.start_state_ == "" then
    return false
  if tm.final_state_ == "" then
    return false
  if !(← rulesValidFrom tm tm.rules_) then
    return false
  if tm.rules_.isEmpty then
    return false
  let rule0 ← idx tm.rules_ 0
  let from0 ← idx rule0 0
  if from0 != tm.start_state_ then
    return false
  return true

/-- Source `isValidInput` (the message on `std::cerr` is left out). -/
def isValidInput (tm : TuringMachine) (input_string : List String) : Bool :=
  input_string.all (fun symbol_str =>
    !(symbol_str.length != 1 || !tm.sigma_.contains (char0 symbol_str)))

/-- What `run` prints on `std::cout`. -/
inductive Out
  /-- Text "Enter input string (symbols separated by spaces): ". -/
  | askInput
  /-- Text "The read/write head moved outside the tape.". -/
  | headOutside
  /-- Text "No rule found for state <state> and symbol <symbol>". -/
  | noRule (state : String) (symbol : Char)
  /-- The line "Result: <cells>". -/
  | result (cells : List Char)
  deriving DecidableEq, Repr

/-- The local variables of `run` that the `while` loop works on. The source
declares `head_position` as `int`: the field holds the value of that 32-bit
variable, and `head_position++` and `head_position--` wrap around in
`ruleLoop`. -/
structure Config where
  /-- Variable `current_state`. -/
  current_state : String
  /-- Variable `bandwidth`. -/
  bandwidth : List Char
  /-- Variable `head_position`. -/
  head_position : Int
  deriving DecidableEq, Repr

/-- Read access `bandwidth[head_position]`: a fault when the head is outside
the tape. -/
def cellAt (bandwidth : List Char) (head_position : Int) : Exec Char :=
  if head_position < 0 then .error Fault.badIndex else idx bandwidth head_position.toNat

/-- Write access `bandwidth[head_position] = symbol`: a fault when the head is
outside the tape. -/
def writeCell (bandwidth : List Char) (head_position : Int) (symbol : Char) :
    Exec (List Char) :=
  if head_position < 0 || head_position >= bandwidth.length then .error Fault.badIndex
  else .ok (bandwidth.set head_position.toNat symbol)

/-- The `for` loop inside the `while` loop of `run`, over the rules not yet
visited: the flag is `rule_found`. -/
def ruleLoop : List (List String) → Config → Exec (Bool × Config)
  | [], c => .ok (false, c)
  | rule :: rest, c => do
      let r0 ← idx rule 0
      if r0 == c.current_state then
        let r1 ← idx rule 1
        let cell ← cellAt c.bandwidth c.head_position
        if char0 r1 == cell then
          let r2 ← idx rule 2
          let r3 ← idx rule 3
          let bandwidth1 ← writeCell c.bandwidth c.head_position (char0 r3)
          let r4 ← idx rule 4
          return (true,
            { current_state := r2,
              bandwidth := bandwidth1,
              head_position :=
                if r4 == "R" then toInt32 (c.head_position + 1)
                else toInt32 (c.head_position - 1) })
        else
          ruleLoop rest c
      else
        ruleLoop rest c

/-- How one pass through the `while` loop of `run` ends. -/
inductive Pass
  /-- The loop condition `current_state != final_state_` is false. -/
  | atFinal
  /-- The `break` after "The read/write head moved outside the tape.". -/
  | headOutOfBounds
  /-- The `break` after "No rule found ...". -/
  | noApplicableRule
  /-- A rule was applied and the loop goes round again. -/
  | next
  deriving DecidableEq, Repr

/-- One evaluation of the loop condition of `run` followed, when it holds, by
one execution of the loop body: how the pass ended, the variables after it
and what was printed. -/
def step (tm : TuringMachine) (c : Config) : Exec (Pass × Config × List Out) := do
  if c.current_state == tm.final_state_ then
    return (Pass.atFinal, c, [])
  if c.head_position < 0 || c.head_position >= c.bandwidth.length then
    return (Pass.headOutOfBounds, c, [Out.headOutside])
  let (rule_found, c1) ← ruleLoop tm.rules_ c
  if !rule_found then
    let cell ← cellAt c1.bandwidth c1.head_position
    return (Pass.noApplicableRule, c1, [Out.noRule c1.current_state cell])
  return (Pass.next, c1, [])

/-- The `while` loop of `run`; `fuel` bounds the number of rule applications.
The result is how the loop was left, the variables at that point and what was
printed. -/
def runLoop (tm : TuringMachine) : Nat → Config → Exec (Pass × Config × List Out)
  | 0, c => do
      let (pass, c1, out) ← step tm c
      match pass with
      | Pass.next => .error Fault.outOfFuel
      | halted => return (halted, c1, out)
  | fuel + 1, c => do
      let (pass, c1, out) ← step tm c
      match pass with
      | Pass.next => runLoop tm fuel c1
      | halted => return (halted, c1, out)

/-- The loop `while (end >= 0 && bandwidth[end] == '*') end--;` of `run`
entered with `end >= 0`: the argument is `end + 1`, the result is the final
`end + 1`. -/
def resultLength (bandwidth : List Char) : Nat → Nat
  | 0 => 0
  | e + 1 => if bandwidth[e]? == some '*' then resultLength bandwidth e else e + 1

/-- The variable `end` of `run` when the printing starts. It is initialised by
`int end = bandwidth.size() - 1`, which reduces the size minus one into the
32-bit range; the `while` loop is not entered when that value is negative. -/
def resultEnd (bandwidth : List Char) : Int :=
  let end0 := toInt32 ((bandwidth.length : Int) - 1)
  if end0 < 0 then end0 else (resultLength bandwidth (end0.toNat + 1) : Int) - 1

/-- The loop `for (int i = 0; i <= end; ++i) std::cout << bandwidth[i];` of
`run` from the value `i` on: the cells printed. `++i` is a 32-bit increment
and `bandwidth[i]` faults outside the tape. The loop makes at most
`bandwidth.size()` iterations before it ends or faults; `budget` bounds the
number of evaluations of the loop condition. -/
def printLoop (bandwidth : List Char) (end_ : Int) : Nat → Int → Exec (List Char)
  | 0, _ => .error Fault.outOfFuel
  | budget + 1, i =>
      if i ≤ end_ then do
        let cell ← cellAt bandwidth i
        let rest ← printLoop bandwidth end_ budget (toInt32 (i + 1))
        return cell :: rest
      else
        .ok []

/-- The end of `run` from `int end = bandwidth.size() - 1` on: the cells
printed after "Result: ". -/
def printResult (bandwidth : List Char) : Exec (List Char) :=
  printLoop bandwidth (resultEnd bandwidth) (bandwidth.length + 1) 0

/-- Source `run`. `input_symbols` is the token vector `split(input_line)`;
the result is everything printed on `std::cout`. -/
def run (tm : TuringMachine) (fuel : Nat) (input_symbols : List String) : Exec (List Out) := do
  if !(← isValidAutomaton tm) then
    return []
  if !isValidInput tm input_symbols then
    return [Out.askInput]
  let bandwidth := input_symbols.map char0 ++ List.replicate 100 '*'
  let (_, c, out) ← runLoop tm fuel
    { current_state := tm.start_state_, bandwidth := bandwidth, head_position := 0 }
  let cells ← printResult c.bandwidth
  return [Out.askInput] ++ out ++ [Out.result cells]

/-! ### Notions used to state the properties of the Turing machine -/

/-- The tape cut after its last cell that is not `*`: the cells before the
trailing run of `*` cells. -/
def resultCells (bandwidth : List Char) : List Char :=
  bandwidth.take (resultLength bandwidth bandwidth.length)

/-- A 5-token rule matches the configuration `c`: its from-state is the
current state and the first character of its read token is the cell under the
head. -/
def matchesCell (c : Config) (rule : List String) : Bool :=
  match rule with
  | [f, rd, _, _, _] =>
      f == c.current_state && c.bandwidth[c.head_position.toNat]? == some (char0 rd)
  | _ => false

/-- The configuration after a 5-token rule is applied to `c`: the cell under
the head holds the first character of the write token, the state is the
to-state, and the head position is incremented for `R` and decremented
otherwise, as a 32-bit `int`. -/
def writeMove (rule : List String) (c : Config) : Config :=
  match rule with
  | [_, _, t, w, d] =>
      { current_state := t,
        bandwidth := c.bandwidth.set c.head_position.toNat (char0 w),
        head_position :=
          if d = "R" then toInt32 (c.head_position + 1) else toInt32 (c.head_position - 1) }
  | _ => c

/-- The per-rule test of `isValidAutomaton` on a 5-token rule: tokens 0 and 2
are declared states, the first characters of tokens 1 and 3 are in sigma, and
token 4 is `R` or `L`. -/
def ruleOk (tm : TuringMachine) (rule : List String) : Bool :=
  match rule with
  | [r0, r1, r2, r3, r4] =>
      isValidState tm r0 && isValidState tm r2 && isValidSymbol tm (char0 r1) &&
        isValidSymbol tm (char0 r3) && isValidDirection r4
  | _ => false

/-- The token rows that a definition text contributes to section `states`:
the lines that are neither skipped nor headers and lie in that section, each
split into tokens, in file order. `current_section` is the section the first
line lies in. -/
def stateRowsFrom : List String → String → List (List String)
  | [], _ => []
  | raw :: rest, current_section =>
      let line := trim raw
      if line == "" || line.toList.head? == some '#' then stateRowsFrom rest current_section
      else if isHeader line then stateRowsFrom rest (trim (headerName line))
      else if current_section == "states" then split line :: stateRowsFrom rest current_section
      else stateRowsFrom rest current_section

/-- The token rows of section `states` of a whole definition text. -/
def stateRows (lines : List String) : List (List String) := stateRowsFrom lines ""

/-- The test of `loadFromFile` for a line to skip: trimmed, the line is empty
or starts with `#`. -/
def isSkipped (raw : String) : Bool :=
  trim raw == "" || (trim raw).toList.head? == some '#'

/-- The value of `current_section` after a line has been read. -/
def sectionAfter (current_section raw : String) : String :=
  if isSkipped raw then current_section
  else if isHeader (trim raw) then trim (headerName (trim raw))
  else current_section

/-- The processed lines of a definition text: for every line that is neither
skipped nor a section header, the section it lies in and the trimmed line, in
file order. `current_section` is the section the first line lies in. -/
def processedFrom : List String → String → List (String × String)
  | [], _ => []
  | raw :: rest, current_section =>
      if isSkipped raw || isHeader (trim raw) then
        processedFrom rest (sectionAfter current_section raw)
      else (current_section, trim raw) :: processedFrom rest current_section

/-- The token rows of the processed lines of section `rules`, in file order,
every occurrence counted. -/
def ruleRowsFrom (lines : List String) (current_section : String) : List (List String) :=
  ((processedFrom lines current_section).filter (fun p => p.1 == "rules")).map
    (fun p => split p.2)

/-! ### Example machine -/

/-- A definition text: on reading `1` in `q0`, write `0`, move right and go
to the final state `q1`. -/
def flipText : List String :=
  ["# flip one cell", "[states]", "q0 S", "q1 F", "", "[sigma]", "0", "1", "[rules]",
   "q0 1 q1 0 R"]

/-- The text of `flip` with its rule written twice. -/
def twiceText : List String :=
  ["[states]", "q0 S", "q1 F", "[sigma]", "0", "1", "[rules]", "q0 1 q1 0 R", "q0 1 q1 0 R"]

/-- The text of `flip` with a line holding one space after the `[states]`
header. -/
def spaceInStatesText : List String :=
  ["[states]", " ", "q0 S", "q1 F", "[sigma]", "0", "1", "[rules]", "q0 1 q1 0 R"]

/-- The text of `flip` with a line holding one space after the `[sigma]`
header. -/
def spaceInSigmaText : List String :=
  ["[states]", "q0 S", "q1 F", "[sigma]", " ", "0", "1", "[rules]", "q0 1 q1 0 R"]

/-- The text of `flip` without comment and empty line. -/
def plainText : List String :=
  ["[states]", "q0 S", "q1 F", "[sigma]", "0", "1", "[rules]", "q0 1 q1 0 R"]

/-- The members that `loadFromFile` produces from `flipText`. -/
def flip : TuringMachine where
  states_ := [("q0", "S"), ("q1", "F")]
  sigma_ := ['0', '1']
  rules_ := [["q0", "1", "q1", "0", "R"]]
  start_state_ := "q0"
  final_state_ := "q1"

/-- A machine that moves right over `*` cells without changing them. -/
def rightMover : TuringMachine where
  states_ := [("q0", "S"), ("q1", "F")]
  sigma_ := ['*']
  rules_ := [["q0", "*", "q0", "*", "R"]]
  start_state_ := "q0"
  final_state_ := "q1"

/-- A tape of `2^31` cells `*`. -/
def hugeTape : List Char := List.replicate 2147483648 '*'

/-- A tape of `2^31 + 1` cells: `a`, then `2^31` cells `*`. -/
def markedTape : List Char := 'a' :: List.replicate 2147483648 '*'

end TuringMachine

/-! ## Pancake sorting (`src/documents/Pancake_sorting.cpp`)

The elements of the array are `int`s that the program only compares and moves,
so they are integers here. Positions and sizes are `int`s in the source:
`pancakeSort` converts the size of the vector to `int`, and the positions
handed to `flip` are integers.
-/

namespace PancakeSorting

/-- The conversion of `int n = arr.size()`: a size is reduced modulo `2^32`
into the range of a 32-bit `int`. -/
def toInt (size : Nat) : Int := ((size + 2147483648) % 4294967296 : Nat) - 2147483648

/-- Source `flip`, `std::reverse(arr.begin(), arr.begin() + i + 1)`: the first
`i + 1` elements are reversed. A range end before the begin or past the end of
the vector is a fault. -/
def flip (arr : List Int) (i : Int) : Exec (List Int) :=
  if i + 1 < 0 ∨ (arr.length : Int) < i + 1 then .error Fault.badIndex
  else .ok ((arr.take (i + 1).toNat).reverse ++ arr.drop (i + 1).toNat)

/-- The loop of `std::max_element` after its first element: `first` is the
position of the element looked at, `largest` the position of the largest one
so far and `value` that element; a later element replaces it only when it is
strictly larger. -/
def maxElementLoop : List Int → Nat → Nat → Int → Nat
  | [], _, largest, _ => largest
  | x :: rest, first, largest, value =>
      if value < x then maxElementLoop rest (first + 1) first x
      else maxElementLoop rest (first + 1) largest value

/-- Source `findMaxIndex`: the distance from the begin to
`std::max_element(arr.begin(), arr.begin() + n)`, which is `n` itself (zero)
for the empty range. -/
def findMaxIndex (arr : List Int) (n : Int) : Exec Int :=
  if n < 0 ∨ (arr.length : Int) < n then .error Fault.badIndex
  else
    match arr.take n.toNat with
    | [] => .ok 0
    | x :: rest => .ok (maxElementLoop rest 1 0 x)

/-- The `for` loop of `pancakeSort` from the value of `current_size` given as
a natural number; it runs while `current_size > 1`. The result is the array
together with `flips`, the arguments `i` of the calls `flip(arr, i)` made so
far, in call order. -/
def pancakeLoop : Nat → List Int → List Int → Exec (List Int × List Int)
  | 0, arr, flips => .ok (arr, flips)
  | 1, arr, flips => .ok (arr, flips)
  | k + 2, arr, flips => do
      let current_size : Int := ((k + 2 : Nat) : Int)
      let max_index ← findMaxIndex arr current_size
      if max_index != current_size - 1 then
        let (arr1, flips1) ←
          if max_index != 0 then do
            let flipped ← flip arr max_index
            pure (flipped, flips ++ [max_index])
          else
            pure (arr, flips)
        let arr2 ← flip arr1 (current_size - 1)
        pancakeLoop (k + 1) arr2 (flips1 ++ [current_size - 1])
      else
        pancakeLoop (k + 1) arr flips

/-- Source `pancakeSort`: the array it leaves in `arr`, which it prints, and
the arguments of its calls of `flip`. A negative `n` runs the loop as little
as `n = 0` does. -/
def pancakeSort (arr : List Int) : Exec (List Int × List Int) :=
  pancakeLoop (toInt arr.length).toNat arr []

/-! ### Notions used to state the properties of pancake sorting -/

/-- Reversal of the first `k` elements of a list. -/
def reversePrefix (arr : List Int) (k : Nat) : List Int :=
  (arr.take k).reverse ++ arr.drop k

/-- The prefix reversals `flip(arr, i)` for the indices of `flips`, one after
the other. -/
def applyFlips (flips : List Int) (arr : List Int) : List Int :=
  flips.foldl (fun a i => reversePrefix a (i + 1).toNat) arr

/-- An array of `2^31` elements: zeros, then `1`, then `0`. -/
def hugeArray : List Int := List.replicate 2147483646 0 ++ [1, 0]

end PancakeSorting

/-! ## Notions shared by the properties of both machines -/

/-- The rows of a states section tagged `tag`: more than one token, token 1
equal to `tag`. -/
def taggedRows (tag : String) (states : List (List String)) : List (List String) :=
  states.filter (fun row => row[1]? == some tag)

/-- The name (token 0) of the last row of a states section tagged `tag`. -/
def lastTagged (tag : String) (states : List (List String)) : Option String :=
  match (taggedRows tag states).getLast? with
  | some row => row.head?
  | none => none

/-! ## Lemmas on lists, tagging and the pushdown automaton -/

theorem find?_first {α : Type} (p : α → Bool) (pre post : List α) (x : α)
    (hpre : ∀ y ∈ pre, p y = false) (hx : p x = true) :
    (pre ++ x :: post).find? p = some x := by
  induction pre with
  | nil => simp [hx]
  | cons y ys ih =>
      have hy : p y = false := hpre y (List.mem_cons_self _ _)
      simp [List.find?_cons, hy, ih (fun z hz => hpre z (List.mem_cons_of_mem _ hz))]

theorem find?_none_of_all {α : Type} (p : α → Bool) (l : List α)
    (h : ∀ y ∈ l, p y = false) : l.find? p = none := by
  rw [List.find?_eq_none]
  intro y hy
  simp [h y hy]

theorem taggedRows_head (tag : String) (states : List (List String)) (row : List String)
    (h : row ∈ taggedRows tag states) : ∃ name, row.head? = some name := by
  simp only [taggedRows, List.mem_filter, beq_iff_eq] at h
  rcases row with _ | ⟨name, more⟩
  · simp at h
  · exact ⟨name, rfl⟩

theorem lastTagged_eq_none (tag : String) (states : List (List String)) :
    lastTagged tag states = none ↔ taggedRows tag states = [] := by
  unfold lastTagged
  cases hl : (taggedRows tag states).getLast? with
  | none => simpa using hl
  | some row =>
      obtain ⟨name, hname⟩ := taggedRows_head tag states row (List.mem_of_getLast?_eq_some hl)
      have hne : taggedRows tag states ≠ [] := by
        intro h
        simp [h] at hl
      simp [hname, hne]

theorem lastTagged_append (tag : String) (l m : List (List String)) :
    lastTagged tag (l ++ m) =
      match lastTagged tag m with
      | some name => some name
      | none => lastTagged tag l := by
  cases hm : lastTagged tag m with
  | none =>
      have hnil := (lastTagged_eq_none tag m).1 hm
      simp only []
      unfold lastTagged
      have : taggedRows tag (l ++ m) = taggedRows tag l := by
        unfold taggedRows at hnil ⊢
        rw [List.filter_append, hnil, List.append_nil]
      rw [this]
  | some name =>
      simp only []
      have hne : taggedRows tag m ≠ [] := fun h => by
        rw [(lastTagged_eq_none tag m).2 h] at hm
        cases hm
      have hlast : (taggedRows tag (l ++ m)).getLast? = (taggedRows tag m).getLast? := by
        unfold taggedRows at hne ⊢
        rw [List.filter_append, List.getLast?_append_of_ne_nil _ hne]
      unfold lastTagged at hm ⊢
      rw [hlast, hm]

theorem extractTokens_ne_empty (cs cur : List Char) :
    ∀ t ∈ extractTokens cs cur, t ≠ "" := by
  induction cs generalizing cur with
  | nil =>
      intro t ht
      by_cases hc : cur = []
      · simp [extractTokens, hc] at ht
      · simp [extractTokens, hc] at ht
        subst ht
        intro h
        exact hc (congrArg String.data h)
  | cons c cs ih =>
      intro t ht
      rw [extractTokens] at ht
      by_cases hs : isSpace c = true
      · by_cases hc : cur = []
        · simp [hs, hc] at ht
          exact ih [] t ht
        · simp [hs, hc] at ht
          rcases ht with rfl | ht
          · intro h
            exact hc (congrArg String.data h)
          · exact ih [] t ht
      · simp [hs] at ht
        exact ih _ t ht

namespace PushdownAutomaton

theorem splitString_ne_empty (str : String) : ∀ t ∈ splitString str, t ≠ "" :=
  extractTokens_ne_empty str.toList []

theorem findStartState_append (l m : Section) (s : String) :
    findStartState (l ++ m) s = findStartState m (findStartState l s) := by
  induction l generalizing s with
  | nil => rfl
  | cons row rest ih =>
      rcases row with _ | ⟨n, _ | ⟨tag, more⟩⟩ <;> simp [findStartState, ih]

theorem lastTagged_concat (tag : String) (l : Section) (row : Row) :
    lastTagged tag (l ++ [row]) =
      if row[1]? = some tag then row.head? else lastTagged tag l := by
  unfold lastTagged taggedRows
  by_cases h : row[1]? = some tag
  · simp [List.filter_append, h]
  · simp [List.filter_append, h]

theorem findStartState_eq (states : Section) (s : String) :
    findStartState states s = (lastTagged "S" states).getD s := by
  induction states using List.reverseRecOn with
  | nil => rfl
  | append_singleton l row ih =>
      rw [findStartState_append, lastTagged_concat, ih]
      rcases row with _ | ⟨n, _ | ⟨tag, more⟩⟩
      · simp [findStartState]
      · simp [findStartState]
      · by_cases ht : tag = "S" <;> simp [findStartState, ht]

theorem firstTokens_ok (sec : Section) (h : ∀ row ∈ sec, row ≠ []) :
    ∃ ts, firstTokens sec = .ok ts ∧ ∀ t, t ∈ ts ↔ declaredIn sec t := by
  induction sec with
  | nil => exact ⟨[], rfl, by simp [declaredIn]⟩
  | cons row rest ih =>
      obtain ⟨ts, hts, hmem⟩ := ih (fun r hr => h r (List.mem_cons_of_mem _ hr))
      cases row with
      | nil => exact absurd rfl (h [] (List.mem_cons_self _ _))
      | cons t0 more =>
          refine ⟨t0 :: ts, ?_, ?_⟩
          · simp [firstTokens, idx, hts, bind, Except.bind, pure, Except.pure]
          · intro t
            simp only [List.mem_cons, hmem, declaredIn]
            constructor
            · rintro (rfl | ⟨r, hr, hrt⟩)
              · exact ⟨t :: more, Or.inl rfl, rfl⟩
              · exact ⟨r, Or.inr hr, hrt⟩
            · rintro ⟨r, (rfl | hr), hrt⟩
              · left
                simpa using hrt.symm
              · exact Or.inr ⟨r, hr, hrt⟩


theorem applyRule_eval (f i p q t currState : String) (stack : List String) :
    applyRule [f, i, p, q, t] currState stack =
      if p ≠ "e" ∧ (stack = [] ∨ stack.getLast? ≠ some p) then
        .ok (false, currState, stack, [])
      else
        .ok (true, (fire [f, i, p, q, t] stack).1, (fire [f, i, p, q, t] stack).2,
          [Out.transition (fire [f, i, p, q, t] stack).1 (fire [f, i, p, q, t] stack).2]) := by
  unfold applyRule
  simp [idx, bind, Except.bind, pure, Except.pure, fire]
  by_cases hq : q = "e" <;> simp [hq]

theorem five_tokens (rule : Row) (h : rule.length = 5) :
    ∃ f i p q t, rule = [f, i, p, q, t] := by
  rcases rule with _ | ⟨r0, _ | ⟨r1, _ | ⟨r2, _ | ⟨r3, _ | ⟨r4, _ | ⟨r5, more⟩⟩⟩⟩⟩⟩ <;>
    simp at h
  exact ⟨r0, r1, r2, r3, r4, rfl⟩

theorem epsilonLoop_eq (recurse : String → List String → Exec Step) (l : List Row)
    (h5 : ∀ r ∈ l, r.length = 5) (currState : String) (stack : List String) :
    epsilonLoop recurse l currState stack =
      match l.find? (applicable "e" currState stack) with
      | none => .ok (false, currState, stack, [])
      | some rule =>
          match recurse (fire rule stack).1 (fire rule stack).2 with
          | .error e => .error e
          | .ok (_, currState2, stack2, out2) =>
              .ok (true, currState2, stack2,
                Out.transition (fire rule stack).1 (fire rule stack).2 :: out2) := by
  induction l with
  | nil => rfl
  | cons rule rest ih =>
      obtain ⟨f, i, p, q, t, rfl⟩ := five_tokens rule (h5 rule (List.mem_cons_self _ _))
      have ih1 := ih (fun r hr => h5 r (List.mem_cons_of_mem _ hr))
      rw [List.find?_cons]
      by_cases happ : applicable "e" currState stack [f, i, p, q, t] = true
      · simp only [happ]
        simp only [applicable, Bool.and_eq_true, beq_iff_eq, Bool.or_eq_true] at happ
        obtain ⟨⟨rfl, rfl⟩, hp⟩ := happ
        have hcond : ¬ (p ≠ "e" ∧ (stack = [] ∨ stack.getLast? ≠ some p)) := by
          rintro ⟨h1, h2⟩
          rcases hp with hp | hp
          · exact h1 hp
          · rcases h2 with h2 | h2
            · simp [h2] at hp
            · exact h2 hp
        have hguard : (p == "e" || (!stack.isEmpty && stack.getLast? == some p)) = true := by
          rcases hp with hp | hp
          · simp [hp]
          · have hne : stack ≠ [] := by
              rintro rfl
              simp at hp
            simp [hp, hne]
        rw [epsilonLoop]
        simp only [idx, List.getElem?_cons_zero, List.getElem?_cons_succ, bind, Except.bind,
          beq_self_eq_true, if_true, hguard, applyRule_eval, hcond, if_false, pure, Except.pure]
        generalize fire [f, "e", p, q, t] stack = fr
        cases recurse fr.1 fr.2 with
        | error e => rfl
        | ok r =>
            obtain ⟨again, st2, stk2, out2⟩ := r
            cases again <;> rfl
      · simp only [happ]
        rw [← ih1, epsilonLoop]
        simp only [applicable, Bool.and_eq_true, beq_iff_eq, Bool.or_eq_true, not_and] at happ
        simp only [idx, List.getElem?_cons_zero, List.getElem?_cons_succ, bind, Except.bind]
        by_cases h1 : currState = f
        · subst h1
          by_cases h2 : i = "e"
          · subst h2
            have hno := happ ⟨rfl, rfl⟩
            push_neg at hno
            have hng : (p == "e" || (!stack.isEmpty && stack.getLast? == some p)) = false := by
              simp [hno.1, hno.2]
            simp [hng]
          · simp [h2]
        · simp [h1]

theorem inputLoop_eq (a : Automaton) (fuel : Nat) (value : String) (l : List Row)
    (h5 : ∀ r ∈ l, r.length = 5) (currState : String) (stack : List String) :
    inputLoop a fuel value l currState stack =
      match l.find? (applicable value currState stack) with
      | none => .ok (false, currState, stack, [])
      | some rule =>
          match applyEpsilonTransitions a fuel (fire rule stack).1 (fire rule stack).2 with
          | .error e => .error e
          | .ok (_, currState2, stack2, out2) =>
              .ok (true, currState2, stack2,
                Out.transition (fire rule stack).1 (fire rule stack).2 :: out2) := by
  induction l with
  | nil => rfl
  | cons rule rest ih =>
      obtain ⟨f, i, p, q, t, rfl⟩ := five_tokens rule (h5 rule (List.mem_cons_self _ _))
      have ih1 := ih (fun r hr => h5 r (List.mem_cons_of_mem _ hr))
      rw [List.find?_cons]
      by_cases happ : applicable value currState stack [f, i, p, q, t] = true
      · simp only [happ]
        simp only [applicable, Bool.and_eq_true, beq_iff_eq, Bool.or_eq_true] at happ
        obtain ⟨⟨rfl, rfl⟩, hp⟩ := happ
        have hcond : ¬ (p ≠ "e" ∧ (stack = [] ∨ stack.getLast? ≠ some p)) := by
          rintro ⟨h1, h2⟩
          rcases hp with hp | hp
          · exact h1 hp
          · rcases h2 with h2 | h2
            · simp [h2] at hp
            · exact h2 hp
        rw [inputLoop]
        simp only [idx, List.getElem?_cons_zero, List.getElem?_cons_succ, bind, Except.bind,
          beq_self_eq_true, if_true, applyRule_eval, hcond, if_false, pure, Except.pure]
        generalize fire [f, i, p, q, t] stack = fr
        cases applyEpsilonTransitions a fuel fr.1 fr.2 with
        | error e => rfl
        | ok r =>
            obtain ⟨again, st2, stk2, out2⟩ := r
            rfl
      · simp only [happ]
        rw [← ih1, inputLoop]
        simp only [applicable, Bool.and_eq_true, beq_iff_eq, Bool.or_eq_true, not_and] at happ
        simp only [idx, List.getElem?_cons_zero, List.getElem?_cons_succ, bind, Except.bind]
        by_cases h1 : currState = f
        · subst h1
          by_cases h2 : i = value
          · subst h2
            have hno := happ ⟨rfl, rfl⟩
            push_neg at hno
            have hcond : p ≠ "e" ∧ (stack = [] ∨ stack.getLast? ≠ some p) :=
              ⟨hno.1, Or.inr hno.2⟩
            simp [applyRule_eval, hcond]
          · simp [h2]
        · simp [h1]

theorem applyEpsilonTransitions_chase (a : Automaton) (rules : Section)
    (hrules : a.lookup "rules" = some rules) (h5 : ∀ r ∈ rules, r.length = 5)
    (fuel : Nat) (currState : String) (stack : List String)
    (flag : Bool) (currState1 : String) (stack1 : List String) (out : List Out) :
    applyEpsilonTransitions a fuel currState stack = .ok (flag, currState1, stack1, out) ↔
      ∃ n, n < fuel ∧ chase rules n currState stack = some (currState1, stack1, out) ∧
        rules.find? (applicable "e" currState1 stack1) = none ∧ flag = decide (0 < n) := by
  induction fuel generalizing currState stack flag currState1 stack1 out with
  | zero => simp [applyEpsilonTransitions]
  | succ fuel ih =>
      rw [applyEpsilonTransitions]
      simp only [sectionAt, hrules, bind, Except.bind]
      rw [epsilonLoop_eq _ _ h5]
      cases hfind : rules.find? (applicable "e" currState stack) with
      | none =>
          simp only []
          constructor
          · intro h
            simp only [Except.ok.injEq, Prod.mk.injEq] at h
            obtain ⟨rfl, rfl, rfl, rfl⟩ := h
            exact ⟨0, Nat.succ_pos _, rfl, hfind, rfl⟩
          · rintro ⟨n, -, hchase, -, hflag⟩
            cases n with
            | zero =>
                simp only [chase, Option.some.injEq, Prod.mk.injEq] at hchase
                obtain ⟨rfl, rfl, rfl⟩ := hchase
                simp [hflag]
            | succ n => simp [chase, hfind] at hchase
      | some rule =>
          simp only []
          constructor
          · intro h
            cases hrec : applyEpsilonTransitions a fuel (fire rule stack).1 (fire rule stack).2 with
            | error e => simp [hrec] at h
            | ok r =>
                obtain ⟨again, st2, stk2, out2⟩ := r
                rw [hrec] at h
                simp only [Except.ok.injEq, Prod.mk.injEq] at h
                obtain ⟨rfl, rfl, rfl, rfl⟩ := h
                obtain ⟨n, hn, hchase, hnone, -⟩ := (ih _ _ _ _ _ _).1 hrec
                exact ⟨n + 1, Nat.succ_lt_succ hn, by simp [chase, hfind, hchase], hnone, by simp⟩
          · rintro ⟨n, hn, hchase, hnone, hflag⟩
            cases n with
            | zero =>
                simp only [chase, Option.some.injEq, Prod.mk.injEq] at hchase
                obtain ⟨rfl, rfl, rfl⟩ := hchase
                rw [hfind] at hnone
                cases hnone
            | succ n =>
                simp only [chase, hfind] at hchase
                cases hc : chase rules n (fire rule stack).1 (fire rule stack).2 with
                | none => simp [hc] at hchase
                | some r =>
                    obtain ⟨st2, stk2, out2⟩ := r
                    rw [hc] at hchase
                    simp only [Option.some.injEq, Prod.mk.injEq] at hchase
                    obtain ⟨rfl, rfl, rfl⟩ := hchase
                    have hrec := (ih (fire rule stack).1 (fire rule stack).2 (decide (0 < n))
                      st2 stk2 out2).2 ⟨n, Nat.lt_of_succ_lt_succ hn, hc, hnone, rfl⟩
                    rw [hrec]
                    simp [hflag]

theorem inputSymbols_cons (a : Automaton) (rules : Section)
    (hrules : a.lookup "rules" = some rules) (h5 : ∀ r ∈ rules, r.length = 5)
    (fuel : Nat) (value : String) (rest : List String) (currState : String)
    (stack : List String) :
    inputSymbols a fuel (value :: rest) currState stack =
      match rules.find? (applicable value currState stack) with
      | none =>
          .ok (false, currState, stack, [Out.noTransition value currState, Out.inputRejected])
      | some rule =>
          match applyEpsilonTransitions a fuel (fire rule stack).1 (fire rule stack).2 with
          | .error e => .error e
          | .ok (_, currState2, stack2, out2) =>
              match inputSymbols a fuel rest currState2 stack2 with
              | .error e => .error e
              | .ok (finished, currState3, stack3, out3) =>
                  .ok (finished, currState3, stack3,
                    Out.transition (fire rule stack).1 (fire rule stack).2 :: (out2 ++ out3)) := by
  rw [inputSymbols]
  simp only [sectionAt, hrules, bind, Except.bind]
  rw [inputLoop_eq _ _ _ _ h5]
  cases rules.find? (applicable value currState stack) with
  | none => simp [pure, Except.pure]
  | some rule =>
      simp only []
      cases applyEpsilonTransitions a fuel (fire rule stack).1 (fire rule stack).2 with
      | error e => rfl
      | ok r =>
          obtain ⟨again, st2, stk2, out2⟩ := r
          simp only [Bool.not_true, Bool.false_eq_true, if_false]
          cases inputSymbols a fuel rest st2 stk2 with
          | error e => rfl
          | ok r3 =>
              obtain ⟨fin, st3, stk3, out3⟩ := r3
              simp [pure, Except.pure]

theorem inputSymbols_append (a : Automaton) (rules : Section)
    (hrules : a.lookup "rules" = some rules) (h5 : ∀ r ∈ rules, r.length = 5)
    (fuel : Nat) (more : List String) (pre : List String) (currState0 : String)
    (stack0 : List String) (currState : String) (stack : List String) (out : List Out)
    (hpre : inputSymbols a fuel pre currState0 stack0 = .ok (true, currState, stack, out)) :
    inputSymbols a fuel (pre ++ more) currState0 stack0 =
      match inputSymbols a fuel more currState stack with
      | .error e => .error e
      | .ok (finished, currState1, stack1, out1) =>
          .ok (finished, currState1, stack1, out ++ out1) := by
  induction pre generalizing currState0 stack0 out with
  | nil =>
      simp only [inputSymbols, Except.ok.injEq, Prod.mk.injEq] at hpre
      obtain ⟨-, rfl, rfl, rfl⟩ := hpre
      rw [List.nil_append]
      cases inputSymbols a fuel more currState0 stack0 with
      | error e => rfl
      | ok r =>
          obtain ⟨fin, st1, stk1, out1⟩ := r
          simp
  | cons value rest ih =>
      rw [inputSymbols_cons a rules hrules h5] at hpre
      rw [List.cons_append, inputSymbols_cons a rules hrules h5]
      cases hfind : rules.find? (applicable value currState0 stack0) with
      | none => simp [hfind] at hpre
      | some rule =>
          rw [hfind] at hpre
          simp only [] at hpre ⊢
          cases hcl : applyEpsilonTransitions a fuel (fire rule stack0).1 (fire rule stack0).2 with
          | error e => simp [hcl] at hpre
          | ok r =>
              obtain ⟨again, st2, stk2, out2⟩ := r
              rw [hcl] at hpre
              simp only [] at hpre ⊢
              cases hrest : inputSymbols a fuel rest st2 stk2 with
              | error e => simp [hrest] at hpre
              | ok r3 =>
                  obtain ⟨fin, st3, stk3, out3⟩ := r3
                  rw [hrest] at hpre
                  simp only [Except.ok.injEq, Prod.mk.injEq] at hpre
                  obtain ⟨rfl, rfl, rfl, rfl⟩ := hpre
                  rw [ih st2 stk2 out3 hrest]
                  cases inputSymbols a fuel more st3 stk3 with
                  | error e => rfl
                  | ok r4 =>
                      obtain ⟨fin4, st4, stk4, out4⟩ := r4
                      simp

theorem firstTokens_mem (sec : Section) (ts : List String)
    (h : firstTokens sec = .ok ts) (t : String) : t ∈ ts ↔ declaredIn sec t := by
  induction sec generalizing ts with
  | nil =>
      simp only [firstTokens, Except.ok.injEq] at h
      subst h
      simp [declaredIn]
  | cons row rest ih =>
      rcases row with _ | ⟨t0, more⟩
      · simp [firstTokens, idx, bind, Except.bind] at h
      · cases hrest : firstTokens rest with
        | error e => simp [firstTokens, idx, bind, Except.bind, hrest] at h
        | ok ts1 =>
            simp only [firstTokens, idx, List.getElem?_cons_zero, bind, Except.bind, hrest, pure,
              Except.pure, Except.ok.injEq] at h
            subst h
            simp only [List.mem_cons, ih ts1 hrest, declaredIn]
            constructor
            · rintro (rfl | ⟨r, hr, hrt⟩)
              · exact ⟨t :: more, Or.inl rfl, rfl⟩
              · exact ⟨r, Or.inr hr, hrt⟩
            · rintro ⟨r, (rfl | hr), hrt⟩
              · left
                simpa using hrt.symm
              · exact Or.inr ⟨r, hr, hrt⟩

theorem isValidRule_length (a : Automaton) (rule : Row) (h : isValidRule a rule = .ok true) :
    rule.length = 5 := by
  by_contra hlen
  unfold isValidRule at h
  cases h1 : sectionAt a "states" with
  | error e => simp [h1, bind, Except.bind] at h
  | ok sts =>
      cases h2 : firstTokens sts with
      | error e => simp [h1, h2, bind, Except.bind] at h
      | ok ts =>
          cases h3 : sectionAt a "sigma" with
          | error e => simp [h1, h2, h3, bind, Except.bind] at h
          | ok sg =>
              cases h4 : firstTokens sg with
              | error e => simp [h1, h2, h3, h4, bind, Except.bind] at h
              | ok gs => simp [h1, h2, h3, h4, bind, Except.bind, hlen, pure, Except.pure] at h

theorem allValidRulesFrom_true (a : Automaton) (l : List Row)
    (h : allValidRulesFrom a l = .ok true) : ∀ r ∈ l, isValidRule a r = .ok true := by
  induction l with
  | nil => simp
  | cons rule rest ih =>
      rw [allValidRulesFrom] at h
      cases hr : isValidRule a rule with
      | error e => simp [hr, bind, Except.bind] at h
      | ok b =>
          cases b with
          | false => simp [hr, bind, Except.bind, pure, Except.pure] at h
          | true =>
              simp only [hr, bind, Except.bind, Bool.not_true, Bool.false_eq_true, if_false, pure,
                Except.pure] at h
              intro r hmem
              rcases List.mem_cons.1 hmem with rfl | hmem
              · exact hr
              · exact ih h r hmem

theorem allValidRules_true (a : Automaton) (h : allValidRules a = .ok true) :
    ∃ rules, a.lookup "rules" = some rules ∧ (∀ r ∈ rules, isValidRule a r = .ok true) ∧
      ∀ r ∈ rules, r.length = 5 := by
  unfold allValidRules sectionAt at h
  cases hl : a.lookup "rules" with
  | none => simp [hl, bind, Except.bind] at h
  | some rules =>
      simp only [hl, bind, Except.bind] at h
      have hall := allValidRulesFrom_true a rules h
      exact ⟨rules, rfl, hall, fun r hr => isValidRule_length a r (hall r hr)⟩

theorem startPDA_eval (a : Automaton) (fuel : Nat) (inputString : List String)
    (states : Section) (hstates : a.lookup "states" = some states)
    (hvalid : isValidAutomaton a = true) (hall : allValidRules a = .ok true)
    (hinput : isValidInput a inputString = .ok true)
    (hfirst : isValidFirstRule a = .ok true) :
    startPDA a fuel inputString =
      match applyEpsilonTransitions a fuel (collectStates states "" []).1 [] with
      | .error e => .error e
      | .ok (_, currState1, stack1, out1) =>
          match inputSymbols a fuel inputString currState1 stack1 with
          | .error e => .error e
          | .ok (false, _, _, out2) =>
              .ok ([Out.askInput, Out.start (collectStates states "" []).1] ++ out1 ++ out2)
          | .ok (true, currState2, stack2, out2) =>
              match applyEpsilonTransitions a fuel currState2 stack2 with
              | .error e => .error e
              | .ok (_, currState3, stack3, out3) =>
                  .ok ([Out.askInput, Out.start (collectStates states "" []).1] ++ out1 ++ out2 ++
                    out3 ++ [Out.finalStack stack3,
                      if (collectStates states "" []).2.contains currState3 then Out.accepted
                      else Out.notInFinalState]) := by
  unfold startPDA
  simp only [hvalid, hall, hinput, hfirst, sectionAt, hstates, bind, Except.bind, Bool.not_true,
    Bool.false_eq_true, if_false, if_true, pure, Except.pure]
  cases applyEpsilonTransitions a fuel (collectStates states "" []).1 [] with
  | error e => rfl
  | ok r1 =>
      obtain ⟨b1, st1, stk1, out1⟩ := r1
      simp only []
      cases inputSymbols a fuel inputString st1 stk1 with
      | error e => rfl
      | ok r2 =>
          obtain ⟨fin, st2, stk2, out2⟩ := r2
          cases fin with
          | false => rfl
          | true =>
              simp only [Bool.not_true, Bool.false_eq_true, if_false]
              cases applyEpsilonTransitions a fuel st2 stk2 with
              | error e => rfl
              | ok r3 =>
                  obtain ⟨b3, st3, stk3, out3⟩ := r3
                  rfl

theorem isValidInput_declared (a : Automaton) (inputString : List String)
    (h : isValidInput a inputString = .ok true) :
    ∀ tok ∈ inputString, ∃ sigma, a.lookup "sigma" = some sigma ∧ declaredIn sigma tok := by
  intro tok htok
  unfold isValidInput at h
  have hne : inputString.isEmpty = false := by
    cases inputString with
    | nil => cases htok
    | cons x xs => rfl
  simp only [hne, Bool.false_eq_true, if_false, sectionAt, bind, Except.bind, pure,
    Except.pure] at h
  cases hl : a.lookup "sigma" with
  | none => simp [hl] at h
  | some sigma =>
      simp only [hl] at h
      cases hft : firstTokens sigma with
      | error e => simp [hft] at h
      | ok ts =>
          simp only [hft, Except.ok.injEq, List.all_eq_true] at h
          exact ⟨sigma, rfl, (firstTokens_mem sigma ts hft tok).1 (by simpa using h tok htok)⟩

theorem startPDA_invalid (a : Automaton) (fuel : Nat) (inputString : List String) :
    (isValidAutomaton a = false → startPDA a fuel inputString = .ok [Out.invalidAutomaton]) ∧
    (isValidAutomaton a = true → allValidRules a = .ok false →
      startPDA a fuel inputString = .ok [Out.invalidAutomaton]) ∧
    (isValidAutomaton a = true → allValidRules a = .ok true →
      isValidInput a inputString = .ok false →
      startPDA a fuel inputString = .ok [Out.askInput, Out.invalidInput]) ∧
    (isValidAutomaton a = true → allValidRules a = .ok true →
      isValidInput a inputString = .ok true → isValidFirstRule a = .ok false →
      startPDA a fuel inputString = .ok [Out.askInput, Out.invalidAutomaton]) := by
  refine ⟨?_, ?_, ?_, ?_⟩
  · intro hv
    simp [startPDA, hv, pure, Except.pure]
  · intro hv hall
    simp [startPDA, hv, hall, bind, Except.bind, pure, Except.pure]
  · intro hv hall hin
    simp [startPDA, hv, hall, hin, bind, Except.bind, pure, Except.pure]
  · intro hv hall hin hfirst
    have hst : ∃ states, a.lookup "states" = some states := by
      simp only [isValidAutomaton, List.all_cons, List.all_nil, Bool.and_true,
        Bool.and_eq_true] at hv
      exact Option.isSome_iff_exists.1 hv.1
    obtain ⟨states, hstates⟩ := hst
    simp [startPDA, hv, hall, hin, hfirst, sectionAt, hstates, bind, Except.bind, pure,
      Except.pure]

theorem startPDA_gate (a : Automaton) (fuel : Nat) (inputString : List String)
    (out : List Out) (h : startPDA a fuel inputString = .ok out)
    (hev : ∃ e ∈ out, e.fromExecution = true) :
    isValidAutomaton a = true ∧ allValidRules a = .ok true ∧
      isValidInput a inputString = .ok true ∧ isValidFirstRule a = .ok true := by
  obtain ⟨e, he, hex⟩ := hev
  unfold startPDA at h
  cases hv : isValidAutomaton a with
  | false =>
      simp [hv, pure, Except.pure] at h
      subst h
      simp at he
      subst he
      simp [Out.fromExecution] at hex
  | true =>
      simp only [hv, Bool.not_true, Bool.false_eq_true, if_false, bind, Except.bind] at h
      cases hall : allValidRules a with
      | error err => simp [hall, pure, Except.pure] at h
      | ok b =>
          cases b with
          | false =>
              simp [hall, pure, Except.pure] at h
              subst h
              simp at he
              subst he
              simp [Out.fromExecution] at hex
          | true =>
              simp only [hall, pure, Except.pure, Bool.not_true, Bool.false_eq_true, if_false] at h
              cases hin : isValidInput a inputString with
              | error err => simp [hin] at h
              | ok b =>
                  cases b with
                  | false =>
                      simp [hin] at h
                      subst h
                      simp at he
                      rcases he with rfl | rfl <;> simp [Out.fromExecution] at hex
                  | true =>
                      simp only [hin, if_true] at h
                      cases hst : sectionAt a "states" with
                      | error err => simp [hst] at h
                      | ok states =>
                          simp only [hst] at h
                          cases hf : isValidFirstRule a with
                          | error err => simp [hf] at h
                          | ok b =>
                              cases b with
                              | false =>
                                  simp [hf] at h
                                  subst h
                                  simp at he
                                  rcases he with rfl | rfl <;> simp [Out.fromExecution] at hex
                              | true => exact ⟨rfl, rfl, rfl, rfl⟩

end PushdownAutomaton

/-! ## Lemmas on the Turing machine -/

namespace TuringMachine

theorem toInt32_eq (z : Int) (hlo : -2147483648 ≤ z) (hhi : z < 2147483648) :
    toInt32 z = z := by
  unfold toInt32
  omega

theorem toInt32_range (z : Int) : -2147483648 ≤ toInt32 z ∧ toInt32 z < 2147483648 := by
  unfold toInt32
  omega

theorem five_tokens_rule (rule : List String) (h : rule.length = 5) :
    ∃ f rd t w d, rule = [f, rd, t, w, d] := by
  rcases rule with _ | ⟨r0, _ | ⟨r1, _ | ⟨r2, _ | ⟨r3, _ | ⟨r4, _ | ⟨r5, more⟩⟩⟩⟩⟩⟩ <;>
    simp at h
  exact ⟨r0, r1, r2, r3, r4, rfl⟩

theorem cellAt_eq (bandwidth : List Char) (head_position : Int) (cell : Char)
    (hlo : 0 ≤ head_position) (hcell : bandwidth[head_position.toNat]? = some cell) :
    cellAt bandwidth head_position = .ok cell := by
  have hb : ¬ (head_position < 0) := by omega
  simp [cellAt, hb, idx, hcell]

theorem writeCell_eq (bandwidth : List Char) (head_position : Int) (cell symbol : Char)
    (hlo : 0 ≤ head_position) (hcell : bandwidth[head_position.toNat]? = some cell) :
    writeCell bandwidth head_position symbol =
      .ok (bandwidth.set head_position.toNat symbol) := by
  have hlt : head_position.toNat < bandwidth.length := by
    by_contra hge
    rw [List.getElem?_eq_none (by omega)] at hcell
    cases hcell
  have hb : ¬ (head_position < 0) := by omega
  have hb2 : ¬ ((bandwidth.length : Int) ≤ head_position) := by omega
  simp [writeCell, hb, hb2]

theorem ruleLoop_eq (l : List (List String)) (h5 : ∀ r ∈ l, r.length = 5) (c : Config)
    (cell : Char) (hlo : 0 ≤ c.head_position)
    (hcell : c.bandwidth[c.head_position.toNat]? = some cell) :
    ruleLoop l c =
      match l.find? (matchesCell c) with
      | none => .ok (false, c)
      | some rule => .ok (true, writeMove rule c) := by
  induction l with
  | nil => rfl
  | cons rule rest ih =>
      obtain ⟨f, rd, t, w, d, rfl⟩ := five_tokens_rule rule (h5 rule (List.mem_cons_self _ _))
      have ih1 := ih (fun r hr => h5 r (List.mem_cons_of_mem _ hr))
      rw [List.find?_cons]
      by_cases hm : matchesCell c [f, rd, t, w, d] = true
      · simp only [hm]
        simp only [matchesCell, hcell, Bool.and_eq_true, beq_iff_eq, Option.some.injEq] at hm
        obtain ⟨rfl, rfl⟩ := hm
        simp [ruleLoop, idx, cellAt_eq _ _ _ hlo hcell, writeCell_eq _ _ _ _ hlo hcell, writeMove,
          bind, Except.bind, pure, Except.pure]
      · simp only [hm]
        rw [← ih1, ruleLoop]
        simp only [matchesCell, hcell, Bool.and_eq_true, beq_iff_eq, Option.some.injEq,
          not_and] at hm
        simp only [idx, List.getElem?_cons_zero, List.getElem?_cons_succ,
          cellAt_eq _ _ _ hlo hcell, bind, Except.bind]
        by_cases h1 : f = c.current_state
        · have h2 : ¬ char0 rd = cell := fun h => hm h1 h.symm
          simp [h1, h2]
        · simp [h1]

theorem step_eval (tm : TuringMachine) (c : Config)
    (h5 : ∀ r ∈ tm.rules_, r.length = 5) (hstate : c.current_state ≠ tm.final_state_)
    (hlo : 0 ≤ c.head_position) (hhi : c.head_position < c.bandwidth.length) :
    ∃ cell, c.bandwidth[c.head_position.toNat]? = some cell ∧
      step tm c =
        match tm.rules_.find? (matchesCell c) with
        | none => .ok (Pass.noApplicableRule, c, [Out.noRule c.current_state cell])
        | some rule => .ok (Pass.next, writeMove rule c, []) := by
  have hlt : c.head_position.toNat < c.bandwidth.length := by omega
  refine ⟨c.bandwidth[c.head_position.toNat], by simp [hlt], ?_⟩
  have hcell : c.bandwidth[c.head_position.toNat]? = some c.bandwidth[c.head_position.toNat] := by
    simp [hlt]
  have hb : ¬ (c.head_position < 0) := by omega
  have hb2 : ¬ ((c.bandwidth.length : Int) ≤ c.head_position) := by omega
  unfold step
  simp only [beq_iff_eq, hstate, if_false, bind, Except.bind, pure, Except.pure,
    Bool.or_eq_true, decide_eq_true_eq, hb, hb2, or_self, ge_iff_le,
    ruleLoop_eq tm.rules_ h5 c _ hlo hcell]
  cases tm.rules_.find? (matchesCell c) with
  | none => simp [cellAt_eq _ _ _ hlo hcell]
  | some rule => simp

theorem lastTagged_single (tag name t : String) :
    lastTagged tag [[name, t]] = if t = tag then some name else none := by
  by_cases h : t = tag <;> simp [lastTagged, taggedRows, h]

theorem loadLine_inv (tm0 : TuringMachine) (sec raw : String) (tm1 : TuringMachine)
    (sec1 : String) (h : loadLine tm0 sec raw = some (tm1, sec1)) :
    ∃ rows : List (List String),
      (∀ rest, stateRowsFrom (raw :: rest) sec = rows ++ stateRowsFrom rest sec1) ∧
      tm1.start_state_ = (lastTagged "S" rows).getD tm0.start_state_ ∧
      tm1.final_state_ = (lastTagged "F" rows).getD tm0.final_state_ ∧
      (∀ row ∈ rows, ∀ t ∈ row, t ≠ "") ∧
      ((∀ r ∈ tm0.rules_, r.length = 5) → ∀ r ∈ tm1.rules_, r.length = 5) := by
  unfold loadLine at h
  simp only [] at h
  by_cases hskip : (trim raw == "" || (trim raw).toList.head? == some '#') = true
  · rw [if_pos hskip] at h
    simp only [Option.some.injEq, Prod.mk.injEq] at h
    obtain ⟨rfl, rfl⟩ := h
    refine ⟨[], ?_, rfl, rfl, by simp, fun h => h⟩
    intro rest
    rw [stateRowsFrom]
    simp only [hskip, if_true, List.nil_append]
  · rw [if_neg hskip] at h
    by_cases hhead : isHeader (trim raw) = true
    · rw [if_pos hhead] at h
      simp only [Option.some.injEq, Prod.mk.injEq] at h
      obtain ⟨rfl, rfl⟩ := h
      refine ⟨[], ?_, rfl, rfl, by simp, fun h => h⟩
      intro rest
      rw [stateRowsFrom]
      simp only [hskip, hhead, Bool.false_eq_true, if_true, if_false, List.nil_append]
    · rw [if_neg hhead] at h
      by_cases hsec : (sec == "states") = true
      · rw [if_pos hsec] at h
        have htok := extractTokens_ne_empty (trim raw).toList []
        have hrows : ∀ rest, stateRowsFrom (raw :: rest) sec =
            [split (trim raw)] ++ stateRowsFrom rest sec := by
          intro rest
          rw [stateRowsFrom]
          simp only [hskip, hhead, hsec, Bool.false_eq_true, if_true, if_false, List.nil_append,
            List.singleton_append]
        rcases hsp : split (trim raw) with _ | ⟨name, _ | ⟨tag, _ | ⟨x, more⟩⟩⟩
        · simp [hsp] at h
        · simp [hsp] at h
        · rw [hsp] at h hrows
          have hne : ∀ t ∈ [name, tag], t ≠ "" := by
            intro t ht
            apply htok t
            unfold split at hsp
            rw [hsp]
            exact ht
          simp only [] at h
          by_cases hS : tag = "S"
          · subst hS
            simp only [beq_self_eq_true, if_true, Option.some.injEq, Prod.mk.injEq] at h
            obtain ⟨rfl, rfl⟩ := h
            refine ⟨[[name, "S"]], hrows, ?_, ?_, ?_, fun h => h⟩
            · simp [lastTagged_single]
            · simp [lastTagged_single]
            · intro row hrow
              simp only [List.mem_singleton] at hrow
              subst hrow
              exact hne
          · by_cases hF : tag = "F"
            · subst hF
              simp only [beq_iff_eq, hS, if_false, if_true, Option.some.injEq,
                Prod.mk.injEq] at h
              obtain ⟨rfl, rfl⟩ := h
              refine ⟨[[name, "F"]], hrows, ?_, ?_, ?_, fun h => h⟩
              · simp [lastTagged_single]
              · simp [lastTagged_single]
              · intro row hrow
                simp only [List.mem_singleton] at hrow
                subst hrow
                exact hne
            · simp only [beq_iff_eq, hS, hF, if_false, Option.some.injEq, Prod.mk.injEq] at h
              obtain ⟨rfl, rfl⟩ := h
              refine ⟨[[name, tag]], hrows, ?_, ?_, ?_, fun h => h⟩
              · simp [lastTagged_single, hS]
              · simp [lastTagged_single, hF]
              · intro row hrow
                simp only [List.mem_singleton] at hrow
                subst hrow
                exact hne
        · simp [hsp] at h
      · rw [if_neg hsec] at h
        have hrows : ∀ rest, stateRowsFrom (raw :: rest) sec = [] ++ stateRowsFrom rest sec := by
          intro rest
          rw [stateRowsFrom]
          simp only [hskip, hhead, hsec, Bool.false_eq_true, if_true, if_false, List.nil_append,
            List.singleton_append]
        by_cases hsig : (sec == "sigma") = true
        · rw [if_pos hsig] at h
          by_cases hlen : (trim raw).length = 1
          · simp only [hlen, beq_self_eq_true, if_true, Option.some.injEq, Prod.mk.injEq] at h
            obtain ⟨rfl, rfl⟩ := h
            exact ⟨[], hrows, rfl, rfl, by simp, fun h => h⟩
          · simp [hlen] at h
        · rw [if_neg hsig] at h
          by_cases hrul : (sec == "rules") = true
          · rw [if_pos hrul] at h
            by_cases hlen : (split (trim raw)).length = 5
            · simp only [hlen, beq_self_eq_true, if_true, Option.some.injEq,
                Prod.mk.injEq] at h
              obtain ⟨rfl, rfl⟩ := h
              refine ⟨[], hrows, rfl, rfl, by simp, ?_⟩
              intro h0 r hr
              simp only [List.mem_append, List.mem_singleton] at hr
              rcases hr with hr | rfl
              · exact h0 r hr
              · exact hlen
            · simp [hlen] at h
          · rw [if_neg hrul] at h
            simp only [Option.some.injEq, Prod.mk.injEq] at h
            obtain ⟨rfl, rfl⟩ := h
            exact ⟨[], hrows, rfl, rfl, by simp, fun h => h⟩

theorem loadLines_inv (lines : List String) (tm0 : TuringMachine) (sec : String)
    (tm : TuringMachine) (h : loadLines lines tm0 sec = some tm) :
    tm.start_state_ = (lastTagged "S" (stateRowsFrom lines sec)).getD tm0.start_state_ ∧
    tm.final_state_ = (lastTagged "F" (stateRowsFrom lines sec)).getD tm0.final_state_ ∧
    (∀ row ∈ stateRowsFrom lines sec, ∀ t ∈ row, t ≠ "") ∧
    ((∀ r ∈ tm0.rules_, r.length = 5) → ∀ r ∈ tm.rules_, r.length = 5) := by
  induction lines generalizing tm0 sec with
  | nil =>
      simp only [loadLines, Option.some.injEq] at h
      subst h
      simp [stateRowsFrom, lastTagged, taggedRows]
  | cons raw rest ih =>
      rw [loadLines] at h
      cases hl : loadLine tm0 sec raw with
      | none => simp [hl] at h
      | some r =>
          obtain ⟨tm1, sec1⟩ := r
          rw [hl] at h
          simp only [] at h
          obtain ⟨rows, hrows, hs, hf, htok, hrul⟩ := loadLine_inv tm0 sec raw tm1 sec1 hl
          obtain ⟨ihs, ihf, ihtok, ihrul⟩ := ih tm1 sec1 h
          rw [hrows rest]
          refine ⟨?_, ?_, ?_, fun h0 => ihrul (hrul h0)⟩
          · rw [ihs, lastTagged_append, hs]
            cases lastTagged "S" (stateRowsFrom rest sec1) <;> rfl
          · rw [ihf, lastTagged_append, hf]
            cases lastTagged "F" (stateRowsFrom rest sec1) <;> rfl
          · intro row hrow
            rcases List.mem_append.1 hrow with hrow | hrow
            · exact htok row hrow
            · exact ihtok row hrow

theorem lastTagged_ne_empty (tag : String) (rows : List (List String))
    (htok : ∀ row ∈ rows, ∀ t ∈ row, t ≠ "") (name : String)
    (h : lastTagged tag rows = some name) : name ≠ "" := by
  unfold lastTagged at h
  cases hl : (taggedRows tag rows).getLast? with
  | none => simp [hl] at h
  | some row =>
      rw [hl] at h
      simp only [] at h
      have hmem : row ∈ taggedRows tag rows := List.mem_of_getLast?_eq_some hl
      have hrow : row ∈ rows := (List.mem_filter.1 hmem).1
      exact htok row hrow name (List.mem_of_mem_head? h)

theorem rulesValidFrom_eq (tm : TuringMachine) (l : List (List String))
    (h5 : ∀ r ∈ l, r.length = 5) : rulesValidFrom tm l = .ok (l.all (ruleOk tm)) := by
  induction l with
  | nil => rfl
  | cons rule rest ih =>
      obtain ⟨r0, r1, r2, r3, r4, rfl⟩ := five_tokens_rule rule (h5 rule (List.mem_cons_self _ _))
      have ih1 := ih (fun r hr => h5 r (List.mem_cons_of_mem _ hr))
      rw [rulesValidFrom]
      simp only [idx, List.getElem?_cons_zero, List.getElem?_cons_succ, bind, Except.bind,
        pure, Except.pure, ih1, List.all_cons, ruleOk]
      cases isValidState tm r0 <;> cases isValidState tm r2 <;>
        cases isValidSymbol tm (char0 r1) <;> cases isValidSymbol tm (char0 r3) <;>
        cases isValidDirection r4 <;> simp

theorem isValidAutomaton_eq (tm : TuringMachine) (h5 : ∀ r ∈ tm.rules_, r.length = 5) :
    isValidAutomaton tm = .ok (!tm.states_.isEmpty && !tm.sigma_.isEmpty &&
      !tm.rules_.isEmpty && tm.start_state_ != "" && tm.final_state_ != "" &&
      tm.rules_.all (ruleOk tm) &&
      (tm.rules_.head?.bind List.head? == some tm.start_state_)) := by
  unfold isValidAutomaton
  rw [rulesValidFrom_eq tm tm.rules_ h5]
  rcases hr : tm.rules_ with _ | ⟨rule0, more⟩
  · simp [bind, Except.bind, pure, Except.pure]
  · obtain ⟨r0, r1, r2, r3, r4, rfl⟩ :=
      five_tokens_rule rule0 (h5 rule0 (by rw [hr]; exact List.mem_cons_self _ _))
    simp only [bind, Except.bind, pure, Except.pure, idx, List.getElem?_cons_zero,
      List.isEmpty_cons, Bool.or_false, Bool.not_false, Bool.and_true, List.head?_cons,
      Option.bind_some]
    cases tm.states_.isEmpty <;> cases tm.sigma_.isEmpty <;>
      cases hs : (tm.start_state_ == "") <;> cases hf : (tm.final_state_ == "") <;>
      cases ((([r0, r1, r2, r3, r4] :: more).all (ruleOk tm))) <;>
      by_cases h0 : r0 = tm.start_state_ <;> simp [hs, hf, h0, bne]

theorem ruleOk_iff (tm : TuringMachine) (rule : List String) :
    ruleOk tm rule = true ↔
      ∃ r0 r1 r2 r3 r4, rule = [r0, r1, r2, r3, r4] ∧
        isValidState tm r0 = true ∧ isValidState tm r2 = true ∧
        isValidSymbol tm (char0 r1) = true ∧ isValidSymbol tm (char0 r3) = true ∧
        (r4 = "L" ∨ r4 = "R") := by
  constructor
  · intro h
    rcases rule with _ | ⟨r0, _ | ⟨r1, _ | ⟨r2, _ | ⟨r3, _ | ⟨r4, _ | ⟨r5, more⟩⟩⟩⟩⟩⟩ <;>
      simp [ruleOk] at h
    obtain ⟨⟨⟨⟨h0, h2⟩, h1⟩, h3⟩, h4⟩ := h
    refine ⟨r0, r1, r2, r3, r4, rfl, h0, h2, h1, h3, ?_⟩
    simp only [isValidDirection, Bool.or_eq_true, beq_iff_eq] at h4
    exact h4.symm
  · rintro ⟨r0, r1, r2, r3, r4, rfl, h0, h2, h1, h3, h4⟩
    have h4b : isValidDirection r4 = true := by
      simp only [isValidDirection, Bool.or_eq_true, beq_iff_eq]
      exact h4.symm
    simp [ruleOk, h0, h1, h2, h3, h4b]

theorem isValidInput_iff (tm : TuringMachine) (input_symbols : List String) :
    isValidInput tm input_symbols = true ↔
      ∀ s ∈ input_symbols, s.length = 1 ∧ char0 s ∈ tm.sigma_ := by
  simp [isValidInput]

theorem run_gate (tm : TuringMachine) (fuel : Nat) (input_symbols : List String)
    (out : List Out) (h : run tm fuel input_symbols = .ok out)
    (hev : ∃ e ∈ out, e ≠ Out.askInput) :
    isValidAutomaton tm = .ok true ∧ isValidInput tm input_symbols = true := by
  obtain ⟨e, he, hne⟩ := hev
  unfold run at h
  cases hv : isValidAutomaton tm with
  | error err => simp [hv, bind, Except.bind] at h
  | ok b =>
      cases b with
      | false =>
          simp [hv, bind, Except.bind, pure, Except.pure] at h
          subst h
          simp at he
      | true =>
          cases hi : isValidInput tm input_symbols with
          | false =>
              simp [hv, hi, bind, Except.bind, pure, Except.pure] at h
              subst h
              simp at he
              exact absurd he hne
          | true => exact ⟨rfl, rfl⟩

theorem run_invalid (tm : TuringMachine) (fuel : Nat) (input_symbols : List String) :
    (isValidAutomaton tm = .ok false → run tm fuel input_symbols = .ok []) ∧
    (isValidAutomaton tm = .ok true → isValidInput tm input_symbols = false →
      run tm fuel input_symbols = .ok [Out.askInput]) := by
  constructor
  · intro hv
    simp [run, hv, bind, Except.bind, pure, Except.pure]
  · intro hv hi
    simp [run, hv, hi, bind, Except.bind, pure, Except.pure]

end TuringMachine

/-! ## Lemmas on the reported result and on bounded tape runs -/

namespace TuringMachine

theorem resultLength_le (t : List Char) (n : Nat) : resultLength t n ≤ n := by
  induction n with
  | zero => simp [resultLength]
  | succ e ih =>
      rw [resultLength]
      split
      · omega
      · omega

theorem resultLength_stars (t : List Char) (n : Nat) :
    ∀ i, resultLength t n ≤ i → i < n → t[i]? = some '*' := by
  induction n with
  | zero =>
      intro i _ hi
      omega
  | succ e ih =>
      intro i hle hlt
      rw [resultLength] at hle
      by_cases hstar : t[e]? = some '*'
      · simp only [hstar, beq_self_eq_true, if_true] at hle
        by_cases hie : i = e
        · rw [hie]
          exact hstar
        · exact ih i hle (by omega)
      · have hfalse : (t[e]? == some '*') = false := by simpa using hstar
        simp only [hfalse, Bool.false_eq_true, if_false] at hle
        omega

theorem resultLength_last (t : List Char) (n : Nat) :
    resultLength t n = 0 ∨ t[resultLength t n - 1]? ≠ some '*' := by
  induction n with
  | zero => simp [resultLength]
  | succ e ih =>
      rw [resultLength]
      by_cases hstar : t[e]? = some '*'
      · simpa [hstar] using ih
      · have hfalse : (t[e]? == some '*') = false := by simpa using hstar
        simp only [hfalse, Bool.false_eq_true, if_false]
        right
        simpa using hstar

theorem resultCells_length (t : List Char) :
    (resultCells t).length = resultLength t t.length := by
  simp [resultCells, resultLength_le t t.length]

theorem resultCells_append_stars (t : List Char) :
    t = resultCells t ++ List.replicate (t.length - (resultCells t).length) '*' := by
  have hdrop : t.drop (resultLength t t.length) =
      List.replicate (t.length - resultLength t t.length) '*' := by
    rw [List.eq_replicate_iff]
    refine ⟨by simp, ?_⟩
    intro b hb
    obtain ⟨i, hi⟩ := List.getElem?_of_mem hb
    rw [List.getElem?_drop] at hi
    have hlt : resultLength t t.length + i < t.length := by
      by_contra hge
      rw [List.getElem?_eq_none (by omega)] at hi
      cases hi
    have hstar := resultLength_stars t t.length (resultLength t t.length + i) (by omega) hlt
    rw [hstar] at hi
    exact (Option.some.inj hi).symm
  rw [resultCells_length]
  conv_lhs => rw [← List.take_append_drop (resultLength t t.length) t]
  rw [hdrop]
  rfl

theorem resultCells_getLast (t : List Char) : (resultCells t).getLast? ≠ some '*' := by
  unfold resultCells
  rw [List.getLast?_take]
  rcases resultLength_last t t.length with h0 | hne
  · simp [h0]
  · by_cases h0 : resultLength t t.length = 0
    · simp [h0]
    · simp only [h0, if_false]
      have hlt : resultLength t t.length - 1 < t.length := by
        have := resultLength_le t t.length
        omega
      rw [List.getElem?_eq_getElem hlt] at hne ⊢
      simpa using hne

theorem resultLength_all_stars (t : List Char) (h : ∀ c ∈ t, c = '*') (n : Nat)
    (hn : n ≤ t.length) : resultLength t n = 0 := by
  induction n with
  | zero => rfl
  | succ e ih =>
      rw [resultLength]
      have hlt : e < t.length := by omega
      have hstar : t[e]? = some '*' := by
        rw [List.getElem?_eq_getElem hlt]
        exact congrArg some (h _ (List.getElem_mem _))
      simp [hstar, ih (by omega)]

/-- For a tape of fewer than `2^31` cells no 32-bit operation of the printing
wraps around, and the loop prints the cells from `i` up to `end`. -/
theorem printLoop_eq (bandwidth : List Char) (end_ : Int)
    (hend : end_ < bandwidth.length) (hsize : bandwidth.length < 2147483648) :
    ∀ (budget : Nat) (i : Int), 0 ≤ i → i ≤ end_ + 1 → (end_ + 1 - i).toNat < budget →
      printLoop bandwidth end_ budget i =
        .ok ((bandwidth.take (end_ + 1).toNat).drop i.toNat) := by
  intro budget
  induction budget with
  | zero =>
      intro i _ _ hb
      omega
  | succ budget ih =>
      intro i hi0 hi1 hb
      rw [printLoop]
      by_cases hle : i ≤ end_
      · rw [if_pos hle]
        have hlt : i.toNat < bandwidth.length := by omega
        have hcell : bandwidth[i.toNat]? = some bandwidth[i.toNat] :=
          List.getElem?_eq_getElem hlt
        have hnext : toInt32 (i + 1) = i + 1 := toInt32_eq _ (by omega) (by omega)
        have hrec := ih (i + 1) (by omega) (by omega) (by omega)
        simp only [cellAt_eq _ _ _ hi0 hcell, hnext, hrec, bind, Except.bind, pure,
          Except.pure, Except.ok.injEq]
        have hlt2 : i.toNat < (bandwidth.take (end_ + 1).toNat).length := by
          rw [List.length_take]
          omega
        have hsucc : (i + 1).toNat = i.toNat + 1 := by omega
        rw [hsucc, List.drop_eq_getElem_cons hlt2, List.getElem_take]
      · rw [if_neg hle]
        have hi : i.toNat = (end_ + 1).toNat := by omega
        rw [hi, List.drop_eq_nil_of_le (by simp)]

/-- On a tape of fewer than `2^31` cells the printed result is the tape cut
after its last cell that is not `*`. -/
theorem printResult_eq (t : List Char) (hsize : t.length < 2147483648) :
    printResult t = .ok (resultCells t) := by
  unfold printResult resultEnd resultCells
  have h0 : toInt32 ((t.length : Int) - 1) = (t.length : Int) - 1 :=
    toInt32_eq _ (by omega) (by omega)
  simp only [h0]
  by_cases hlen : t.length = 0
  · have hneg : ((t.length : Int) - 1) < 0 := by omega
    rw [if_pos hneg, printLoop, if_neg (by omega), hlen]
    rfl
  · have hpos : ¬ ((t.length : Int) - 1) < 0 := by omega
    have hnat : ((t.length : Int) - 1).toNat + 1 = t.length := by omega
    rw [if_neg hpos, hnat]
    have hle := resultLength_le t t.length
    rw [printLoop_eq t _ (by omega) hsize (t.length + 1) 0 (le_refl _) (by omega) (by omega)]
    have hk : ((resultLength t t.length : Int) - 1 + 1).toNat = resultLength t t.length := by
      omega
    rw [hk]
    rfl

theorem run_eval (tm : TuringMachine) (fuel : Nat) (input_symbols : List String)
    (hvalid : isValidAutomaton tm = .ok true) (hinput : isValidInput tm input_symbols = true) :
    run tm fuel input_symbols =
      match runLoop tm fuel
          { current_state := tm.start_state_,
            bandwidth := input_symbols.map char0 ++ List.replicate 100 '*',
            head_position := 0 } with
      | .error e => .error e
      | .ok (_, c, out) =>
          match printResult c.bandwidth with
          | .error e => .error e
          | .ok cells => .ok ([Out.askInput] ++ out ++ [Out.result cells]) := by
  unfold run
  simp only [hvalid, hinput, bind, Except.bind, pure, Except.pure, Bool.not_true,
    Bool.false_eq_true, if_false]
  cases runLoop tm fuel
      { current_state := tm.start_state_,
        bandwidth := input_symbols.map char0 ++ List.replicate 100 '*',
        head_position := 0 } with
  | error e => rfl
  | ok r =>
      obtain ⟨pass, c, out⟩ := r
      simp only []
      cases printResult c.bandwidth with
      | error e => rfl
      | ok cells => rfl

end TuringMachine

/-! ## Lemmas on particular runs of the pushdown automaton -/

namespace PushdownAutomaton

theorem fire_same (f i p t : String) (stack : List String)
    (h : applicable "e" f stack [f, i, p, p, t] = true) :
    (fire [f, i, p, p, t] stack).2 = stack := by
  simp only [applicable, Bool.and_eq_true, beq_iff_eq, Bool.or_eq_true] at h
  by_cases hp : p = "e"
  · simp [fire, hp]
  · rcases h.2 with h2 | h2
    · exact absurd h2 hp
    · simp only [fire, hp, if_false]
      exact List.dropLast_append_getLast? p h2

theorem collectStates_fst (states : Section) (currState : String) (finalStates : List String) :
    (collectStates states currState finalStates).1 = findStartState states currState := by
  induction states generalizing currState finalStates with
  | nil => rfl
  | cons row rest ih =>
      rcases row with _ | ⟨name, _ | ⟨tag, more⟩⟩
      · simp [collectStates, findStartState, ih]
      · simp [collectStates, findStartState, ih]
      · by_cases hS : tag = "S"
        · simp [collectStates, findStartState, hS, ih]
        · by_cases hF : tag = "F"
          · simp [collectStates, findStartState, hS, hF, ih]
          · simp [collectStates, findStartState, hS, hF, ih]

theorem collectStates_keeps (states : Section) (currState : String) (finalStates : List String)
    (x : String) (hx : x ∈ finalStates) : x ∈ (collectStates states currState finalStates).2 := by
  induction states generalizing currState finalStates with
  | nil => exact hx
  | cons row rest ih =>
      rcases row with _ | ⟨name, _ | ⟨tag, more⟩⟩
      · simpa [collectStates] using ih currState finalStates hx
      · simpa [collectStates] using ih currState finalStates hx
      · by_cases hS : tag = "S"
        · simpa [collectStates, hS] using ih name finalStates hx
        · by_cases hF : tag = "F"
          · simpa [collectStates, hS, hF] using
              ih currState (finalStates ++ [name]) (List.mem_append_left _ hx)
          · simpa [collectStates, hS, hF] using ih currState finalStates hx

theorem collectStates_tagged (states : Section) (currState : String) (finalStates : List String)
    (row : Row) (name : String) (hrow : row ∈ taggedRows "F" states)
    (hname : row.head? = some name) : name ∈ (collectStates states currState finalStates).2 := by
  induction states generalizing currState finalStates with
  | nil => simp [taggedRows] at hrow
  | cons r rest ih =>
      simp only [taggedRows, List.mem_filter, List.mem_cons, beq_iff_eq] at hrow
      obtain ⟨hmem, htag⟩ := hrow
      rcases hmem with rfl | hmem
      · rcases row with _ | ⟨n, _ | ⟨tag, more⟩⟩
        · simp at htag
        · simp at htag
        · simp only [List.getElem?_cons_succ, List.getElem?_cons_zero, Option.some.injEq] at htag
          simp only [List.head?_cons, Option.some.injEq] at hname
          subst htag hname
          have hS : ("F" == "S") = false := by decide
          simp only [collectStates, hS, Bool.false_eq_true, if_false, beq_self_eq_true, if_true]
          exact collectStates_keeps rest currState _ n (by simp)
      · have hin : row ∈ taggedRows "F" rest := by
          simp only [taggedRows, List.mem_filter, beq_iff_eq]
          exact ⟨hmem, htag⟩
        rcases r with _ | ⟨n, _ | ⟨tag, more⟩⟩
        · simpa [collectStates] using ih currState finalStates hin
        · simpa [collectStates] using ih currState finalStates hin
        · by_cases hS : tag = "S"
          · simpa [collectStates, hS] using ih n finalStates hin
          · by_cases hF : tag = "F"
            · simpa [collectStates, hS, hF] using ih currState (finalStates ++ [n]) hin
            · simpa [collectStates, hS, hF] using ih currState finalStates hin

theorem lastTagged_mem (tag : String) (states : List (List String)) (name : String)
    (h : lastTagged tag states = some name) :
    ∃ row ∈ taggedRows tag states, row.head? = some name := by
  unfold lastTagged at h
  cases hl : (taggedRows tag states).getLast? with
  | none => simp [hl] at h
  | some row =>
      rw [hl] at h
      exact ⟨row, List.mem_of_getLast?_eq_some hl, h⟩

theorem isValidFirstRule_start (a : Automaton) (states rules : Section)
    (hstates : a.lookup "states" = some states) (hrules : a.lookup "rules" = some rules)
    (h : isValidFirstRule a = .ok true) :
    ∃ rule0 more from0 toks, rules = rule0 :: more ∧ rule0 = from0 :: toks ∧
      from0 = findStartState states "" := by
  rcases rules with _ | ⟨rule0, more⟩
  · simp [isValidFirstRule, sectionAt, hrules, bind, Except.bind, pure, Except.pure] at h
  · rcases rule0 with _ | ⟨from0, toks⟩
    · simp [isValidFirstRule, sectionAt, hrules, hstates, idx, bind, Except.bind, pure,
        Except.pure] at h
    · simp only [isValidFirstRule, sectionAt, hrules, hstates, idx, bind, Except.bind, pure,
        Except.pure, List.isEmpty_cons, Bool.false_eq_true, if_false, List.getElem?_cons_zero,
        Except.ok.injEq, beq_iff_eq] at h
      exact ⟨_, _, _, _, rfl, rfl, h⟩

theorem isValidRule_sigma (a : Automaton) (sigma : Section) (rule : Row)
    (hsigma : a.lookup "sigma" = some sigma) (h : isValidRule a rule = .ok true) :
    ∃ ts, firstTokens sigma = .ok ts := by
  unfold isValidRule at h
  cases h1 : sectionAt a "states" with
  | error e => simp [h1, bind, Except.bind] at h
  | ok sts =>
      cases h2 : firstTokens sts with
      | error e => simp [h1, h2, bind, Except.bind] at h
      | ok ts =>
          have h3 : sectionAt a "sigma" = .ok sigma := by simp [sectionAt, hsigma]
          cases h4 : firstTokens sigma with
          | error e => simp [h1, h2, h3, h4, bind, Except.bind] at h
          | ok gs => exact ⟨gs, rfl⟩

theorem isValidInput_of_declared (a : Automaton) (sigma : Section) (ts : List String)
    (hsigma : a.lookup "sigma" = some sigma) (hts : firstTokens sigma = .ok ts)
    (input : List String) (h : ∀ tok ∈ input, declaredIn sigma tok) :
    isValidInput a input = .ok true := by
  unfold isValidInput
  by_cases hemp : input.isEmpty = true
  · simp [hemp, pure, Except.pure]
  · simp only [hemp, Bool.false_eq_true, if_false, sectionAt, hsigma, hts, bind, Except.bind,
      pure, Except.pure, Except.ok.injEq, List.all_eq_true]
    intro tok htok
    simpa using (firstTokens_mem sigma ts hts tok).2 (h tok htok)

theorem inputSymbols_closed (a : Automaton) (rules : Section)
    (hrules : a.lookup "rules" = some rules) (h5 : ∀ r ∈ rules, r.length = 5) (fuel : Nat)
    (pre : List String) (currState0 : String) (stack0 : List String) (currState : String)
    (stack : List String) (out : List Out)
    (h0 : rules.find? (applicable "e" currState0 stack0) = none)
    (hpre : inputSymbols a fuel pre currState0 stack0 = .ok (true, currState, stack, out)) :
    rules.find? (applicable "e" currState stack) = none := by
  induction pre generalizing currState0 stack0 out with
  | nil =>
      simp only [inputSymbols, Except.ok.injEq, Prod.mk.injEq] at hpre
      obtain ⟨-, rfl, rfl, -⟩ := hpre
      exact h0
  | cons value rest ih =>
      rw [inputSymbols_cons a rules hrules h5] at hpre
      cases hfind : rules.find? (applicable value currState0 stack0) with
      | none => simp [hfind] at hpre
      | some rule =>
          rw [hfind] at hpre
          simp only [] at hpre
          cases hcl : applyEpsilonTransitions a fuel (fire rule stack0).1 (fire rule stack0).2 with
          | error e => simp [hcl] at hpre
          | ok r =>
              obtain ⟨again, st2, stk2, out2⟩ := r
              rw [hcl] at hpre
              simp only [] at hpre
              obtain ⟨n, -, -, hnone, -⟩ :=
                (applyEpsilonTransitions_chase a rules hrules h5 fuel _ _ again st2 stk2 out2).1 hcl
              cases hrest : inputSymbols a fuel rest st2 stk2 with
              | error e => simp [hrest] at hpre
              | ok r3 =>
                  obtain ⟨fin, st3, stk3, out3⟩ := r3
                  rw [hrest] at hpre
                  simp only [Except.ok.injEq, Prod.mk.injEq] at hpre
                  obtain ⟨rfl, rfl, rfl, -⟩ := hpre
                  exact ih st2 stk2 out3 hnone hrest

end PushdownAutomaton

/-! ## Lemmas on the head and the tape length -/

namespace TuringMachine

theorem cellAt_ok (bandwidth : List Char) (head_position : Int) (cell : Char)
    (h : cellAt bandwidth head_position = .ok cell) :
    0 ≤ head_position ∧ head_position < bandwidth.length := by
  unfold cellAt at h
  by_cases hneg : head_position < 0
  · simp [hneg] at h
  · simp only [hneg, if_false, idx] at h
    cases hget : bandwidth[head_position.toNat]? with
    | none => simp [hget] at h
    | some x =>
        have hlt : head_position.toNat < bandwidth.length := by
          by_contra hge
          rw [List.getElem?_eq_none (by omega)] at hget
          cases hget
        omega

end TuringMachine

/-! ## Lemmas on the tape-model parser -/

namespace TuringMachine

theorem loadLine_skip (tm : TuringMachine) (sec raw : String)
    (h : (isSkipped raw || isHeader (trim raw)) = true) :
    loadLine tm sec raw = some (tm, sectionAfter sec raw) := by
  unfold loadLine sectionAfter
  simp only []
  by_cases hskip : isSkipped raw = true
  · have hs : (trim raw == "" || (trim raw).toList.head? == some '#') = true := hskip
    simp only [hs, hskip, if_true]
  · have hs : ¬ (trim raw == "" || (trim raw).toList.head? == some '#') = true := hskip
    have hhead : isHeader (trim raw) = true := by
      simp only [Bool.or_eq_true] at h
      rcases h with h | h
      · exact absurd h hskip
      · exact h
    rw [if_neg hs, if_pos hhead, if_neg hskip, if_pos hhead]

theorem loadLine_processed (tm : TuringMachine) (sec raw : String)
    (h : (isSkipped raw || isHeader (trim raw)) = false) :
    (loadLine tm sec raw = none ↔
      (sec = "states" ∧ (split (trim raw)).length ≠ 2) ∨
      (sec = "rules" ∧ (split (trim raw)).length ≠ 5) ∨
      (sec = "sigma" ∧ (trim raw).length ≠ 1)) ∧
    ∀ tm1 sec1, loadLine tm sec raw = some (tm1, sec1) →
      sec1 = sec ∧
      tm1.rules_ = tm.rules_ ++ (if sec = "rules" then [split (trim raw)] else []) := by
  simp only [Bool.or_eq_false_iff] at h
  obtain ⟨hskip, hhead⟩ := h
  have hs : ¬ (trim raw == "" || (trim raw).toList.head? == some '#') = true := by
    have : isSkipped raw = (trim raw == "" || (trim raw).toList.head? == some '#') := rfl
    rw [← this, hskip]
    simp
  have hh : ¬ isHeader (trim raw) = true := by simp [hhead]
  unfold loadLine
  simp only []
  rw [if_neg hs, if_neg hh]
  by_cases hstates : sec = "states"
  · subst hstates
    simp only [beq_self_eq_true, if_true]
    rcases hsp : split (trim raw) with _ | ⟨name, _ | ⟨tag, _ | ⟨x, more⟩⟩⟩
    · simp
    · simp
    · simp only [List.length_cons, List.length_nil]
      refine ⟨by split_ifs <;> simp, ?_⟩
      intro tm1 sec1 hload
      split_ifs at hload <;>
        · simp only [Option.some.injEq, Prod.mk.injEq] at hload
          obtain ⟨rfl, rfl⟩ := hload
          simp
    · simp
  · have hst : (sec == "states") = false := by simpa using hstates
    simp only [hst, Bool.false_eq_true, if_false]
    by_cases hsigma : sec = "sigma"
    · subst hsigma
      simp only [beq_self_eq_true, if_true]
      by_cases hlen : (trim raw).length = 1
      · simp [hlen]
      · simp [hlen]
    · have hsg : (sec == "sigma") = false := by simpa using hsigma
      simp only [hsg, Bool.false_eq_true, if_false]
      by_cases hrules : sec = "rules"
      · subst hrules
        simp only [beq_self_eq_true, if_true]
        by_cases hlen : (split (trim raw)).length = 5
        · simp [hlen]
        · simp [hlen]
      · have hrl : (sec == "rules") = false := by simpa using hrules
        simp [hrl, hstates, hsigma, hrules]

theorem loadLines_none_iff (lines : List String) (tm : TuringMachine) (sec : String) :
    loadLines lines tm sec = none ↔
      ∃ p ∈ processedFrom lines sec,
        (p.1 = "states" ∧ (split p.2).length ≠ 2) ∨
        (p.1 = "rules" ∧ (split p.2).length ≠ 5) ∨
        (p.1 = "sigma" ∧ p.2.length ≠ 1) := by
  induction lines generalizing tm sec with
  | nil => simp [loadLines, processedFrom]
  | cons raw rest ih =>
      rw [loadLines, processedFrom]
      cases hk : (isSkipped raw || isHeader (trim raw)) with
      | true =>
          rw [loadLine_skip tm sec raw hk]
          simp only [if_true]
          exact ih tm (sectionAfter sec raw)
      | false =>
          obtain ⟨hnone, hsome⟩ := loadLine_processed tm sec raw hk
          simp only [Bool.false_eq_true, if_false, List.mem_cons, exists_eq_or_imp]
          cases hl : loadLine tm sec raw with
          | none =>
              simp only [true_iff]
              exact Or.inl (hnone.1 hl)
          | some r =>
              obtain ⟨tm1, sec1⟩ := r
              obtain ⟨hsec, -⟩ := hsome tm1 sec1 hl
              subst hsec
              simp only []
              have hnot : ¬ ((sec1 = "states" ∧ (split (trim raw)).length ≠ 2) ∨
                  (sec1 = "rules" ∧ (split (trim raw)).length ≠ 5) ∨
                  (sec1 = "sigma" ∧ (trim raw).length ≠ 1)) := by
                intro hv
                rw [hnone.2 hv] at hl
                cases hl
              rw [ih tm1 sec1]
              constructor
              · intro h
                exact Or.inr h
              · rintro (h | h)
                · exact absurd h hnot
                · exact h

theorem loadLines_rules (lines : List String) (tm0 : TuringMachine) (sec : String)
    (tm : TuringMachine) (h : loadLines lines tm0 sec = some tm) :
    tm.rules_ = tm0.rules_ ++ ruleRowsFrom lines sec := by
  induction lines generalizing tm0 sec with
  | nil =>
      simp only [loadLines, Option.some.injEq] at h
      subst h
      simp [ruleRowsFrom, processedFrom]
  | cons raw rest ih =>
      rw [loadLines] at h
      unfold ruleRowsFrom
      rw [processedFrom]
      cases hk : (isSkipped raw || isHeader (trim raw)) with
      | true =>
          rw [loadLine_skip tm0 sec raw hk] at h
          simp only [] at h
          simp only [if_true]
          exact ih tm0 (sectionAfter sec raw) h
      | false =>
          obtain ⟨-, hsome⟩ := loadLine_processed tm0 sec raw hk
          cases hl : loadLine tm0 sec raw with
          | none => simp [hl] at h
          | some r =>
              obtain ⟨tm1, sec1⟩ := r
              rw [hl] at h
              simp only [] at h
              obtain ⟨hsec, hrules⟩ := hsome tm1 sec1 hl
              subst hsec
              have hrest := ih tm1 sec1 h
              rw [hrest, hrules]
              simp only [Bool.false_eq_true, if_false, List.filter_cons]
              by_cases hr : sec1 = "rules"
              · simp [hr, ruleRowsFrom]
              · simp [hr, ruleRowsFrom]

theorem loadLines_empty_line (pre post : List String) (tm : TuringMachine) (sec : String) :
    loadLines (pre ++ "" :: post) tm sec = loadLines (pre ++ post) tm sec := by
  induction pre generalizing tm sec with
  | nil =>
      have hk : (isSkipped "" || isHeader (trim "")) = true := by decide
      have hs : sectionAfter sec "" = sec := by
        have hskip : isSkipped "" = true := by decide
        simp [sectionAfter, hskip]
      rw [List.nil_append, List.nil_append, loadLines, loadLine_skip tm sec "" hk, hs]
  | cons raw rest ih =>
      rw [List.cons_append, List.cons_append, loadLines, loadLines]
      cases loadLine tm sec raw with
      | none => rfl
      | some r =>
          obtain ⟨tm1, sec1⟩ := r
          exact ih tm1 sec1

end TuringMachine

/-! ## Lemmas on the pushdown parser -/

namespace PushdownAutomaton

theorem lookup_setSection (a : Automaton) (key name : String) (rows : Section) :
    (setSection a key rows).lookup name = if name = key then some rows else a.lookup name := by
  induction a with
  | nil =>
      by_cases h : name = key
      · simp [setSection, List.lookup, h]
      · have hb : (name == key) = false := by simpa using h
        simp [setSection, List.lookup, h, hb]
  | cons kv rest ih =>
      obtain ⟨k, v⟩ := kv
      by_cases hk : k = key
      · subst hk
        by_cases h : name = k
        · simp [setSection, List.lookup, h]
        · have hb : (name == k) = false := by simpa using h
          simp [setSection, List.lookup, h, hb]
      · by_cases h : name = k
        · subst h
          have hne : ¬ name = key := hk
          simp [setSection, List.lookup, hk, hne]
        · have hb : (name == k) = false := by simpa using h
          simp [setSection, List.lookup, hk, h, hb, ih]

theorem rowsOf_setSection (a : Automaton) (key name : String) (rows : Section) :
    rowsOf (setSection a key rows) name = if name = key then rows else rowsOf a name := by
  unfold rowsOf
  rw [lookup_setSection]
  by_cases h : name = key <;> simp [h]

theorem rowsOf_addRow (a : Automaton) (key name : String) (row : Row) :
    rowsOf (addRow a key row) name =
      if name = key then
        (if row ∈ rowsOf a key then rowsOf a key else rowsOf a key ++ [row])
      else rowsOf a name := by
  unfold addRow
  by_cases hmem : row ∈ rowsOf a key
  · by_cases h : name = key
    · simp [hmem, h]
    · simp [hmem, h]
  · by_cases h : name = key
    · simp [hmem, h, rowsOf_setSection]
    · simp [hmem, h, rowsOf_setSection]

theorem keepFirst_concat (rows : List Row) (row : Row) :
    keepFirst (rows ++ [row]) =
      if row ∈ keepFirst rows then keepFirst rows else keepFirst rows ++ [row] := by
  unfold keepFirst
  rw [List.foldl_append]
  simp

theorem keepFirst_mem (rows : List Row) (r : Row) : r ∈ keepFirst rows ↔ r ∈ rows := by
  induction rows using List.reverseRecOn with
  | nil => simp [keepFirst]
  | append_singleton l row ih =>
      rw [keepFirst_concat]
      by_cases hmem : row ∈ keepFirst l
      · simp only [hmem, if_true, List.mem_append, List.mem_singleton]
        constructor
        · intro h
          exact Or.inl (ih.1 h)
        · rintro (h | rfl)
          · exact ih.2 h
          · exact hmem
      · simp only [hmem, if_false, List.mem_append, List.mem_singleton, ih]

theorem keepFirst_nodup (rows : List Row) : (keepFirst rows).Nodup := by
  induction rows using List.reverseRecOn with
  | nil => simp [keepFirst]
  | append_singleton l row ih =>
      rw [keepFirst_concat]
      by_cases hmem : row ∈ keepFirst l
      · simpa [hmem] using ih
      · simp only [hmem, if_false]
        rw [List.nodup_append]
        refine ⟨ih, List.nodup_singleton _, ?_⟩
        intro x hx hy
        simp only [List.mem_singleton] at hy
        subst hy
        exact hmem hx

theorem loadAutomatonLines_rows (name : String) (lines : List String) (a : Automaton)
    (currentSection : String) (rowsSoFar : List Row)
    (h : rowsOf a name = keepFirst rowsSoFar) :
    rowsOf (loadAutomatonLines lines a currentSection) name =
      keepFirst (contributedRows name lines currentSection rowsSoFar) := by
  induction lines generalizing a currentSection rowsSoFar with
  | nil => simpa [loadAutomatonLines, contributedRows] using h
  | cons raw rest ih =>
      rw [loadAutomatonLines, contributedRows]
      unfold loadAutomatonLine
      simp only []
      by_cases hskip : (trim raw == "" || (trim raw).toList.head? == some '#') = true
      · rw [if_pos hskip, if_pos hskip]
        exact ih a currentSection rowsSoFar h
      · rw [if_neg hskip, if_neg hskip]
        by_cases hhead : isHeader (trim raw) = true
        · rw [if_pos hhead, if_pos hhead]
          apply ih
          rw [rowsOf_setSection]
          by_cases hn : name = headerName (trim raw)
          · have hb : (headerName (trim raw) == name) = true := by simp [hn]
            simp [hn, keepFirst]
          · have hb : (headerName (trim raw) == name) = false := by
              simpa using fun h : headerName (trim raw) = name => hn h.symm
            simp [hn, hb, h]
        · rw [if_neg hhead, if_neg hhead]
          by_cases hsig : currentSection = "sigma"
          · subst hsig
            have hne : ("sigma" != "") = true := by decide
            simp only [beq_self_eq_true, if_true, hne, Bool.true_and]
            by_cases hn : name = "sigma"
            · subst hn
              simp only [beq_self_eq_true, if_true]
              apply ih
              rw [rowsOf_addRow, keepFirst_concat, h]
              simp [lineRow]
            · have hb : ("sigma" == name) = false := by
                simpa using fun h : "sigma" = name => hn h.symm
              simp only [hb, Bool.false_eq_true, if_false]
              apply ih
              rw [rowsOf_addRow]
              simp [hn, h]
          · have hsg : (currentSection == "sigma") = false := by simpa using hsig
            simp only [hsg, Bool.false_eq_true, if_false]
            by_cases hemp : currentSection = ""
            · subst hemp
              have hne : (("" : String) != "") = false := by decide
              simp only [hne, Bool.false_eq_true, if_false, Bool.false_and]
              exact ih a "" rowsSoFar h
            · have hne : (currentSection != "") = true := by simpa using hemp
              simp only [hne, if_true, Bool.true_and]
              by_cases hn : name = currentSection
              · subst hn
                simp only [beq_self_eq_true, if_true]
                apply ih
                rw [rowsOf_addRow, keepFirst_concat, h]
                simp [lineRow, hsg]
              · have hb : (currentSection == name) = false := by
                  simpa using fun h : currentSection = name => hn h.symm
                simp only [hb, Bool.false_eq_true, if_false]
                apply ih
                rw [rowsOf_addRow]
                simp [hn, h]

end PushdownAutomaton

/-! ## Lemmas on the tokens of stored rows -/

namespace PushdownAutomaton

theorem dropWhile_concat_of_neg {α : Type} (p : α → Bool) (l : List α) (c : α)
    (hc : p c = false) : (l ++ [c]).dropWhile p = l.dropWhile p ++ [c] := by
  induction l with
  | nil => simp [List.dropWhile, hc]
  | cons x xs ih =>
      by_cases hx : p x = true
      · simp [List.dropWhile, hx, ih]
      · simp [List.dropWhile, hx]

theorem dropWhile_head_neg {α : Type} (p : α → Bool) (l : List α) (c : α) (cs : List α)
    (h : l.dropWhile p = c :: cs) : p c = false ∧ c ∈ l := by
  induction l with
  | nil => simp at h
  | cons x xs ih =>
      by_cases hx : p x = true
      · simp only [List.dropWhile, hx] at h
        exact ⟨(ih h).1, List.mem_cons_of_mem _ (ih h).2⟩
      · simp only [List.dropWhile, hx] at h
        obtain ⟨rfl, -⟩ := List.cons.inj h
        exact ⟨by simpa using hx, List.mem_cons_self _ _⟩

/-- A non-empty trimmed line starts with a character of the line that `trim`
does not strip. -/
theorem trim_head (str : String) (h : trim str ≠ "") :
    ∃ c cs, (trim str).toList = c :: cs ∧ isTrimChar c = false ∧ c ∈ str.toList := by
  have hhead := dropWhile_head_neg isTrimChar str.toList
  unfold trim at h ⊢
  revert h hhead
  generalize List.dropWhile isTrimChar str.toList = d
  intro h hhead
  cases d with
  | nil => exact absurd rfl h
  | cons c cs =>
      obtain ⟨hc, hmem⟩ := hhead c cs rfl
      simp only []
      rw [List.reverse_cons, dropWhile_concat_of_neg _ _ _ hc, List.reverse_append]
      exact ⟨c, _, rfl, hc, hmem⟩

theorem extractTokens_ne_nil (cs cur : List Char) (h : cur ≠ []) :
    extractTokens cs cur ≠ [] := by
  induction cs generalizing cur with
  | nil => simp [extractTokens, h]
  | cons c cs ih =>
      by_cases hs : isSpace c = true
      · simp [extractTokens, hs, h]
      · simp only [extractTokens, hs]
        exact ih _ (by simp)

/-- A string that starts with a character that is no whitespace has a token. -/
theorem splitString_ne_nil (str : String) (c : Char) (cs : List Char)
    (hstr : str.toList = c :: cs) (hc : isSpace c = false) : splitString str ≠ [] := by
  unfold splitString
  rw [hstr]
  simp only [extractTokens, hc]
  exact extractTokens_ne_nil _ _ (by simp)

/-- A property of the row of every non-empty trimmed line holds for every row
that a text contributes to a section. -/
theorem contributedRows_forall (P : Row → Prop) (name : String) (lines : List String)
    (hP : ∀ raw ∈ lines, trim raw ≠ "" → P (lineRow name (trim raw)))
    (currentSection : String) (rowsSoFar : List Row) (h0 : ∀ r ∈ rowsSoFar, P r) :
    ∀ r ∈ contributedRows name lines currentSection rowsSoFar, P r := by
  induction lines generalizing currentSection rowsSoFar with
  | nil => simpa [contributedRows] using h0
  | cons raw rest ih =>
      have hrest : ∀ raw ∈ rest, trim raw ≠ "" → P (lineRow name (trim raw)) :=
        fun x hx => hP x (List.mem_cons_of_mem _ hx)
      rw [contributedRows]
      by_cases hskip : (trim raw == "" || (trim raw).toList.head? == some '#') = true
      · rw [if_pos hskip]
        exact ih hrest _ _ h0
      · rw [if_neg hskip]
        have hne : trim raw ≠ "" := by
          intro he
          exact hskip (by simp [he])
        by_cases hh : isHeader (trim raw) = true
        · rw [if_pos hh]
          refine ih hrest _ _ ?_
          by_cases hn : (headerName (trim raw) == name) = true
          · simp [hn]
          · simpa [hn] using h0
        · rw [if_neg hh]
          by_cases hcur : (currentSection != "" && currentSection == name) = true
          · rw [if_pos hcur]
            refine ih hrest _ _ ?_
            have heq : currentSection = name := by
              simp only [Bool.and_eq_true, beq_iff_eq] at hcur
              exact hcur.2
            intro r hr
            rcases List.mem_append.1 hr with hr | hr
            · exact h0 r hr
            · rw [List.mem_singleton] at hr
              subst hr
              rw [heq]
              exact hP raw (List.mem_cons_self _ _) hne
          · rw [if_neg hcur]
            exact ih hrest _ _ h0

/-- The rows stored under a name are the first occurrences of the rows that
the text contributes to it. -/
theorem loadAutomaton_rows (lines : List String) (name : String) :
    rowsOf (loadAutomaton lines) name = keepFirst (contributedRows name lines "" []) :=
  loadAutomatonLines_rows name lines [] "" [] (by simp [rowsOf, keepFirst])

theorem sigma_rows_single (lines : List String) :
    ∀ row ∈ rowsOf (loadAutomaton lines) "sigma", row.length = 1 := by
  intro row hrow
  rw [loadAutomaton_rows, keepFirst_mem] at hrow
  refine contributedRows_forall (fun r => r.length = 1) "sigma" lines ?_ "" [] (by simp) row hrow
  intro raw _ _
  simp [lineRow]

theorem rows_ne_nil (lines : List String)
    (hplain : ∀ raw ∈ lines, ∀ c ∈ raw.toList, c ≠ Char.ofNat 11 ∧ c ≠ Char.ofNat 12)
    (name : String) : ∀ row ∈ rowsOf (loadAutomaton lines) name, row ≠ [] := by
  intro row hrow
  rw [loadAutomaton_rows, keepFirst_mem] at hrow
  refine contributedRows_forall (fun r => r ≠ []) name lines ?_ "" [] (by simp) row hrow
  intro raw hraw hne
  obtain ⟨c, cs, hcs, hc, hmem⟩ := trim_head raw hne
  by_cases hs : (name == "sigma") = true
  · simp [lineRow, hs]
  · simp only [lineRow, hs]
    refine splitString_ne_nil _ c cs hcs ?_
    have h11 := (hplain raw hraw c hmem).1
    have h12 := (hplain raw hraw c hmem).2
    simp only [isTrimChar, Bool.or_eq_false_iff, beq_eq_false_iff_ne, ne_eq] at hc
    simp [isSpace, hc, h11, h12]

end PushdownAutomaton

/-! ## Lemmas on repeated section headers -/

namespace PushdownAutomaton

theorem isHeader_not_skipped (line : String) (h : isHeader line = true) :
    (line == "" || line.toList.head? == some '#') = false := by
  unfold isHeader at h
  simp only [Bool.and_eq_true, beq_iff_eq] at h
  have h1 := h.1
  have hne : line ≠ "" := by
    rintro rfl
    simp at h1
  rw [Bool.or_eq_false_iff]
  refine ⟨by simpa using hne, ?_⟩
  rw [h1]
  decide

theorem rowsFollowing_skip (name raw : String) (rest : List String)
    (h : (trim raw == "" || (trim raw).toList.head? == some '#') = true) :
    rowsFollowing name (raw :: rest) = rowsFollowing name rest := by
  unfold rowsFollowing
  rw [List.filter_cons_of_neg (by simp only [h]; decide)]

theorem rowsFollowing_header (name raw : String) (rest : List String)
    (h : ¬ (trim raw == "" || (trim raw).toList.head? == some '#') = true)
    (hh : isHeader (trim raw) = true) :
    rowsFollowing name (raw :: rest) = [] := by
  unfold rowsFollowing
  rw [List.filter_cons_of_pos (by simpa using h),
    List.takeWhile_cons_of_neg (by simp only [hh]; decide)]
  rfl

theorem rowsFollowing_row (name raw : String) (rest : List String)
    (h : ¬ (trim raw == "" || (trim raw).toList.head? == some '#') = true)
    (hh : ¬ isHeader (trim raw) = true) :
    rowsFollowing name (raw :: rest) = lineRow name (trim raw) :: rowsFollowing name rest := by
  unfold rowsFollowing
  rw [List.filter_cons_of_pos (by simpa using h),
    List.takeWhile_cons_of_pos (by simpa using hh)]
  rfl

theorem contributedRows_other (name : String) (post : List String)
    (hlast : ∀ raw ∈ post, isHeader (trim raw) = true → headerName (trim raw) ≠ name)
    (currentSection : String) (rowsSoFar : List Row)
    (hcur : currentSection ≠ name ∨ name = "") :
    contributedRows name post currentSection rowsSoFar = rowsSoFar := by
  induction post generalizing currentSection with
  | nil => rfl
  | cons raw rest ih =>
      have hrest : ∀ raw ∈ rest, isHeader (trim raw) = true → headerName (trim raw) ≠ name :=
        fun x hx => hlast x (List.mem_cons_of_mem _ hx)
      rw [contributedRows]
      by_cases hskip : (trim raw == "" || (trim raw).toList.head? == some '#') = true
      · rw [if_pos hskip]
        exact ih hrest _ hcur
      · rw [if_neg hskip]
        by_cases hh : isHeader (trim raw) = true
        · rw [if_pos hh]
          have hn := hlast raw (List.mem_cons_self _ _) hh
          have hb : (headerName (trim raw) == name) = false := by simpa using hn
          rw [hb]
          exact ih hrest _ (Or.inl hn)
        · rw [if_neg hh]
          have hc : (currentSection != "" && currentSection == name) = false := by
            rcases hcur with h | h
            · simp [h]
            · subst h
              by_cases hc0 : currentSection = ""
              · simp [hc0]
              · simp [hc0]
          rw [hc]
          exact ih hrest _ hcur

theorem contributedRows_following (name : String) (hname : name ≠ "") (post : List String)
    (hlast : ∀ raw ∈ post, isHeader (trim raw) = true → headerName (trim raw) ≠ name)
    (rowsSoFar : List Row) :
    contributedRows name post name rowsSoFar = rowsSoFar ++ rowsFollowing name post := by
  induction post generalizing rowsSoFar with
  | nil => simp [contributedRows, rowsFollowing]
  | cons raw rest ih =>
      have hrest : ∀ raw ∈ rest, isHeader (trim raw) = true → headerName (trim raw) ≠ name :=
        fun x hx => hlast x (List.mem_cons_of_mem _ hx)
      rw [contributedRows]
      by_cases hskip : (trim raw == "" || (trim raw).toList.head? == some '#') = true
      · rw [if_pos hskip, ih hrest, rowsFollowing_skip _ _ _ hskip]
      · rw [if_neg hskip]
        by_cases hh : isHeader (trim raw) = true
        · rw [if_pos hh]
          have hn := hlast raw (List.mem_cons_self _ _) hh
          have hb : (headerName (trim raw) == name) = false := by simpa using hn
          rw [hb, contributedRows_other name rest hrest _ _ (Or.inl hn),
            rowsFollowing_header _ _ _ hskip hh]
          simp
        · rw [if_neg hh]
          have hc : (name != "" && name == name) = true := by simp [hname]
          rw [if_pos hc, ih hrest, rowsFollowing_row _ _ _ hskip hh]
          simp

theorem contributedRows_reset (name : String) (pre post : List String) (hdr : String)
    (hhdr : isHeader (trim hdr) = true) (hname : headerName (trim hdr) = name)
    (currentSection : String) (rowsSoFar : List Row) :
    contributedRows name (pre ++ hdr :: post) currentSection rowsSoFar =
      contributedRows name post name [] := by
  induction pre generalizing currentSection rowsSoFar with
  | nil =>
      rw [List.nil_append, contributedRows, isHeader_not_skipped _ hhdr, hhdr, hname]
      simp
  | cons raw rest ih =>
      rw [List.cons_append, contributedRows]
      split_ifs <;> exact ih _ _

theorem lookup_addRow_isSome (a : Automaton) (key name : String) (row : Row)
    (h : (a.lookup name).isSome = true) : ((addRow a key row).lookup name).isSome = true := by
  unfold addRow
  split_ifs
  · exact h
  · rw [lookup_setSection]
    split_ifs
    · rfl
    · exact h

theorem loadAutomatonLines_isSome (name : String) (lines : List String) (a : Automaton)
    (currentSection : String) (h : (a.lookup name).isSome = true) :
    ((loadAutomatonLines lines a currentSection).lookup name).isSome = true := by
  induction lines generalizing a currentSection with
  | nil => exact h
  | cons raw rest ih =>
      rw [loadAutomatonLines]
      apply ih
      unfold loadAutomatonLine
      simp only []
      split_ifs
      · exact h
      · rw [lookup_setSection]
        split_ifs
        · rfl
        · exact h
      · exact lookup_addRow_isSome _ _ _ _ h
      · exact lookup_addRow_isSome _ _ _ _ h
      · exact h

theorem loadAutomatonLines_header_isSome (pre post : List String) (hdr : String)
    (hhdr : isHeader (trim hdr) = true) (a : Automaton) (currentSection : String) :
    ((loadAutomatonLines (pre ++ hdr :: post) a currentSection).lookup
      (headerName (trim hdr))).isSome = true := by
  induction pre generalizing a currentSection with
  | nil =>
      rw [List.nil_append, loadAutomatonLines]
      apply loadAutomatonLines_isSome
      unfold loadAutomatonLine
      simp only []
      rw [if_neg (by rw [isHeader_not_skipped _ hhdr]; exact Bool.false_ne_true), if_pos hhdr,
        lookup_setSection]
      simp
  | cons raw rest ih =>
      rw [List.cons_append, loadAutomatonLines]
      exact ih _ _

end PushdownAutomaton

/-! ## Lemmas on pancake sorting -/

namespace PancakeSorting

theorem toInt_eq (n : Nat) (h : n < 2147483648) : toInt n = (n : Int) := by
  unfold toInt
  rw [Nat.mod_eq_of_lt (by omega)]
  push_cast
  omega

theorem flip_eq (arr : List Int) (m : Nat) (h : m < arr.length) :
    flip arr (m : Int) = .ok (reversePrefix arr (m + 1)) := by
  unfold flip
  rw [if_neg (by omega)]
  have : ((m : Int) + 1).toNat = m + 1 := by omega
  rw [this]
  rfl

theorem reversePrefix_length (arr : List Int) (k : Nat) :
    (reversePrefix arr k).length = arr.length := by
  unfold reversePrefix
  rw [List.length_append, List.length_reverse, ← List.length_append, List.take_append_drop]

theorem reversePrefix_append (p s : List Int) (k : Nat) (h : k ≤ p.length) :
    reversePrefix (p ++ s) k = reversePrefix p k ++ s := by
  unfold reversePrefix
  rw [List.take_append_of_le_length h, List.drop_append_of_le_length h, List.append_assoc]

theorem reversePrefix_all (p : List Int) : reversePrefix p p.length = p.reverse := by
  simp [reversePrefix]

theorem maxElementLoop_spec (rest : List Int) :
    ∀ (pre : List Int) (first largest : Nat) (value : Int),
      pre.length = first → pre[largest]? = some value → (∀ x ∈ pre, x ≤ value) →
      ∃ v, (pre ++ rest)[maxElementLoop rest first largest value]? = some v ∧
        ∀ x ∈ pre ++ rest, x ≤ v := by
  induction rest with
  | nil =>
      intro pre first largest value _ hl hmax
      exact ⟨value, by simpa [maxElementLoop] using hl, by simpa using hmax⟩
  | cons x rest ih =>
      intro pre first largest value hfirst hl hmax
      have happ : pre ++ x :: rest = (pre ++ [x]) ++ rest := by simp
      rw [maxElementLoop, happ]
      by_cases hlt : value < x
      · rw [if_pos hlt]
        refine ih (pre ++ [x]) (first + 1) first x (by simp [hfirst]) ?_ ?_
        · rw [← hfirst]
          exact List.getElem?_concat_length pre x
        · intro y hy
          rcases List.mem_append.1 hy with hy | hy
          · exact le_of_lt (lt_of_le_of_lt (hmax y hy) hlt)
          · rw [List.mem_singleton] at hy
            rw [hy]
      · rw [if_neg hlt]
        refine ih (pre ++ [x]) (first + 1) largest value (by simp [hfirst]) ?_ ?_
        · obtain ⟨hlen, _⟩ := List.getElem?_eq_some.1 hl
          rw [List.getElem?_append_left hlen]
          exact hl
        · intro y hy
          rcases List.mem_append.1 hy with hy | hy
          · exact hmax y hy
          · rw [List.mem_singleton] at hy
            rw [hy]
            exact not_lt.1 hlt

theorem split_at_index (p : List Int) (m : Nat) (v : Int) (h : p[m]? = some v) :
    ∃ a b, p = a ++ v :: b ∧ a.length = m := by
  obtain ⟨hlen, hv⟩ := List.getElem?_eq_some.1 h
  refine ⟨p.take m, p.drop (m + 1), ?_, by simp [List.length_take, Nat.min_eq_left (le_of_lt hlen)]⟩
  rw [← hv, List.getElem_cons_drop, List.take_append_drop]

/-- On a non-empty prefix `p` of the array, `findMaxIndex` returns the position
of an element of `p` that no element of `p` exceeds. -/
theorem findMaxIndex_spec (p s : List Int) (hp : p ≠ []) :
    ∃ a v b, p = a ++ v :: b ∧ (∀ x ∈ p, x ≤ v) ∧
      findMaxIndex (p ++ s) (p.length : Int) = .ok (a.length : Int) := by
  cases p with
  | nil => exact absurd rfl hp
  | cons x rest =>
      obtain ⟨v, hv, hmax⟩ := maxElementLoop_spec rest [x] 1 0 x rfl rfl (by simp)
      obtain ⟨a, b, hab, hlen⟩ := split_at_index _ _ _ hv
      refine ⟨a, v, b, hab, hmax, ?_⟩
      unfold findMaxIndex
      rw [if_neg (by simp; omega)]
      simp only [Int.toNat_ofNat, List.take_left, hlen]

/-- One iteration of the loop of `pancakeSort`, when `findMaxIndex` has found
the element `v` between `a` and `b` in the unsorted part `a ++ v :: b`: nothing
is flipped when `v` is last there; otherwise `v` is brought to the front,
unless it is there, and then to the end of the unsorted part. -/
theorem pancakeLoop_step (k : Nat) (a b s : List Int) (v : Int) (flips : List Int)
    (hp : (a ++ v :: b).length = k + 2)
    (hfind : findMaxIndex ((a ++ v :: b) ++ s) ((k + 2 : Nat) : Int) = .ok (a.length : Int)) :
    pancakeLoop (k + 2) ((a ++ v :: b) ++ s) flips =
      if b = [] then pancakeLoop (k + 1) (a ++ v :: s) flips
      else pancakeLoop (k + 1) ((a.reverse ++ b).reverse ++ v :: s)
        (flips ++ (if a = [] then [] else [(a.length : Int)]) ++ [((k + 2 : Nat) : Int) - 1]) := by
  rw [pancakeLoop]
  simp only [hfind, bind, Except.bind]
  have hlen : a.length + b.length = k + 1 := by
    simp only [List.length_append, List.length_cons] at hp
    omega
  by_cases hb : b = []
  · subst hb
    have hk : a.length = k + 1 := by simpa using hlen
    have hidx : (a.length : Int) = ((k + 2 : Nat) : Int) - 1 := by
      rw [hk]
      push_cast
      omega
    have hcond : ((a.length : Int) != ((k + 2 : Nat) : Int) - 1) = false := by
      rw [hidx]
      exact bne_self_eq_false _
    rw [if_pos rfl]
    simp only [hcond, Bool.false_eq_true, if_false]
    simp
  · have hbpos : 0 < b.length := List.length_pos.2 hb
    have hcond : ((a.length : Int) != ((k + 2 : Nat) : Int) - 1) = true := by
      simp only [bne_iff_ne, ne_eq]
      push_cast
      omega
    rw [if_neg hb]
    simp only [hcond, if_true]
    have hflip2 : ∀ q : List Int, q.length = k + 2 →
        flip (q ++ s) (((k + 2 : Nat) : Int) - 1) = .ok (q.reverse ++ s) := by
      intro q hq
      have h1 : ((k + 2 : Nat) : Int) - 1 = ((k + 1 : Nat) : Int) := by push_cast; omega
      rw [h1, flip_eq _ _ (by rw [List.length_append, hq]; omega), reversePrefix_append _ _ _ (by omega), ← hq,
        reversePrefix_all]
    by_cases ha : a = []
    · subst ha
      simp only [List.length_nil, Nat.cast_zero, bne_self_eq_false, Bool.false_eq_true, if_false,
        pure, Except.pure, List.nil_append, if_true, List.append_nil, List.reverse_nil]
      have := hflip2 (v :: b) (by simpa using hp)
      simp only [this, List.reverse_cons, List.append_assoc, List.singleton_append]
    · have hapos : 0 < a.length := List.length_pos.2 ha
      have hcond0 : ((a.length : Int) != 0) = true := by
        simp only [bne_iff_ne, ne_eq]
        omega
      have hflip1 : flip ((a ++ v :: b) ++ s) (a.length : Int) =
          .ok ((v :: (a.reverse ++ b)) ++ s) := by
        have hsplit : a ++ v :: b = (a ++ [v]) ++ b := by simp
        have hl : (a ++ [v]).length = a.length + 1 := by simp
        rw [flip_eq _ _ (by simp), reversePrefix_append _ _ _ (by simp)]
        unfold reversePrefix
        rw [hsplit, ← hl, List.take_left, List.drop_left]
        simp
      simp only [hcond0, if_true, hflip1, pure, Except.pure, if_neg ha]
      have := hflip2 (v :: (a.reverse ++ b)) (by simp; omega)
      simp only [this, List.reverse_cons, List.append_assoc, List.singleton_append]

theorem applyFlips_append (f g : List Int) (arr : List Int) :
    applyFlips (f ++ g) arr = applyFlips g (applyFlips f arr) := by
  simp [applyFlips, List.foldl_append]

theorem applyFlips_length (f : List Int) (arr : List Int) :
    (applyFlips f arr).length = arr.length := by
  induction f generalizing arr with
  | nil => rfl
  | cons i f ih =>
      show (applyFlips f (reversePrefix arr (i + 1).toNat)).length = arr.length
      rw [ih, reversePrefix_length]

/-- The loop of `pancakeSort` entered with `current_size = k`, an unsorted part
`p` of `k` elements and a sorted part `s` that no element of `p` exceeds:
it ends, and leaves a sorted permutation reached by in-range flips. -/
theorem pancakeLoop_spec (k : Nat) :
    ∀ (p s : List Int) (flips : List Int), p.length = k → s.Sorted (· ≤ ·) →
      (∀ x ∈ p, ∀ y ∈ s, x ≤ y) →
      ∃ out more, pancakeLoop k (p ++ s) flips = .ok (out, flips ++ more) ∧
        out.Sorted (· ≤ ·) ∧ out.Perm (p ++ s) ∧
        (∀ i ∈ more, 0 ≤ i ∧ i < ((p ++ s).length : Int)) ∧
        out = applyFlips more (p ++ s) := by
  induction k with
  | zero =>
      intro p s flips hp hs _
      have hnil : p = [] := List.length_eq_zero.1 hp
      subst hnil
      exact ⟨s, [], by simp [pancakeLoop], hs, List.Perm.refl _, by simp, rfl⟩
  | succ k ih =>
      intro p s flips hp hs hle
      cases k with
      | zero =>
          obtain ⟨x, rfl⟩ := List.length_eq_one.1 hp
          refine ⟨[x] ++ s, [], by simp [pancakeLoop], ?_, List.Perm.refl _, by simp, rfl⟩
          exact List.sorted_cons.2 ⟨fun y hy => hle x (List.mem_singleton_self x) y hy, hs⟩
      | succ k =>
          have hne : p ≠ [] := by
            intro h
            simp [h] at hp
          obtain ⟨a, v, b, rfl, hmax, hfind⟩ := findMaxIndex_spec p s hne
          rw [hp] at hfind
          have hvs : (v :: s).Sorted (· ≤ ·) :=
            List.sorted_cons.2 ⟨fun y hy => hle v (by simp) y hy, hs⟩
          rw [pancakeLoop_step k a b s v flips hp hfind]
          by_cases hb : b = []
          · subst hb
            rw [if_pos rfl]
            have hq : a.length = k + 1 := by simpa using hp
            have hqle : ∀ x ∈ a, ∀ y ∈ v :: s, x ≤ y := by
              intro x hx y hy
              rcases List.mem_cons.1 hy with rfl | hy
              · exact hmax x (by simp [hx])
              · exact hle x (by simp [hx]) y hy
            obtain ⟨out, more, hrun, hsorted, hperm, hrange, hout⟩ := ih a (v :: s) flips hq hvs hqle
            refine ⟨out, more, hrun, hsorted, ?_, ?_, ?_⟩
            · simpa using hperm
            · simpa using hrange
            · simpa using hout
          · rw [if_neg hb]
            have hlen : a.length + b.length = k + 1 := by
              simp only [List.length_append, List.length_cons] at hp
              omega
            have hq : ((a.reverse ++ b).reverse).length = k + 1 := by
              simp only [List.length_reverse, List.length_append]
              exact hlen
            have hqle : ∀ x ∈ (a.reverse ++ b).reverse, ∀ y ∈ v :: s, x ≤ y := by
              intro x hx y hy
              have hxp : x ∈ a ++ v :: b := by
                simp only [List.mem_reverse, List.mem_append] at hx
                simp only [List.mem_append, List.mem_cons]
                tauto
              rcases List.mem_cons.1 hy with rfl | hy
              · exact hmax x hxp
              · exact hle x hxp y hy
            obtain ⟨out, more, hrun, hsorted, hperm, hrange, hout⟩ :=
              ih ((a.reverse ++ b).reverse) (v :: s)
                (flips ++ (if a = [] then [] else [(a.length : Int)]) ++
                  [((k + 2 : Nat) : Int) - 1]) hq hvs hqle
            have hlenq : ((a.reverse ++ b).reverse ++ v :: s).length =
                ((a ++ v :: b) ++ s).length := by
              simp only [List.length_append, List.length_reverse, List.length_cons]
              omega
            have happly : applyFlips ((if a = [] then [] else [(a.length : Int)]) ++
                [((k + 2 : Nat) : Int) - 1]) ((a ++ v :: b) ++ s) =
                (a.reverse ++ b).reverse ++ v :: s := by
              have h1 : (((k + 2 : Nat) : Int) - 1 + 1).toNat = k + 2 := by
                push_cast
                omega
              have hlast : ∀ q : List Int, q.length = k + 2 →
                  applyFlips [((k + 2 : Nat) : Int) - 1] (q ++ s) = q.reverse ++ s := by
                intro q hq2
                show reversePrefix (q ++ s) ((((k + 2 : Nat) : Int) - 1 + 1).toNat) = _
                rw [h1, reversePrefix_append _ _ _ (by omega), ← hq2, reversePrefix_all]
              by_cases ha : a = []
              · subst ha
                rw [if_pos rfl, List.nil_append, List.nil_append,
                  hlast (v :: b) (by simpa using hp)]
                simp
              · rw [if_neg ha, applyFlips_append]
                have hfirst : applyFlips [(a.length : Int)] ((a ++ v :: b) ++ s) =
                    (v :: (a.reverse ++ b)) ++ s := by
                  show reversePrefix ((a ++ v :: b) ++ s) (((a.length : Int) + 1).toNat) = _
                  have h2 : ((a.length : Int) + 1).toNat = a.length + 1 := by omega
                  have hsplit : a ++ v :: b = (a ++ [v]) ++ b := by simp
                  have hl : (a ++ [v]).length = a.length + 1 := by simp
                  rw [h2, reversePrefix_append _ _ _ (by simp)]
                  unfold reversePrefix
                  rw [hsplit, ← hl, List.take_left, List.drop_left]
                  simp
                rw [hfirst, hlast _ (by simp; omega)]
                simp
            refine ⟨out, (if a = [] then [] else [(a.length : Int)]) ++
              [((k + 2 : Nat) : Int) - 1] ++ more, ?_, hsorted, ?_, ?_, ?_⟩
            · rw [hrun]
              simp only [List.append_assoc]
            · refine hperm.trans ?_
              have h1 : ((a.reverse ++ b).reverse).Perm (a ++ b) :=
                (List.reverse_perm _).trans ((List.reverse_perm a).append_right b)
              have h2 : ((a.reverse ++ b).reverse ++ v :: s).Perm ((a ++ b) ++ v :: s) :=
                h1.append_right _
              refine h2.trans ?_
              have h3 : ((a ++ b) ++ v :: s).Perm (v :: ((a ++ b) ++ s)) := List.perm_middle
              have h4 : ((a ++ v :: b) ++ s).Perm (v :: ((a ++ b) ++ s)) := by
                rw [List.append_assoc, List.cons_append, List.append_assoc]
                exact List.perm_middle
              exact h3.trans h4.symm
            · intro i hi
              rcases List.mem_append.1 hi with hi | hi
              · rcases List.mem_append.1 hi with hi | hi
                · by_cases ha : a = []
                  · simp [ha] at hi
                  · rw [if_neg ha, List.mem_singleton] at hi
                    subst hi
                    simp only [List.length_append, List.length_cons]
                    push_cast
                    omega
                · rw [List.mem_singleton] at hi
                  subst hi
                  simp only [List.length_append, List.length_cons]
                  push_cast
                  omega
              · rw [← hlenq]
                exact hrange i hi
            · rw [applyFlips_append, happly]
              exact hout

theorem hugeArray_length : hugeArray.length = 2147483648 := by
  rw [hugeArray, List.length_append, List.length_replicate]
  rfl

end PancakeSorting

/-! ## Lemmas on the stack of the pushdown automaton -/

namespace PushdownAutomaton

theorem isValidRule_push (a : Automaton) (sigma : Section) (f i p q t : String)
    (hsigma : a.lookup "sigma" = some sigma)
    (h : isValidRule a [f, i, p, q, t] = .ok true) : declaredIn sigma q := by
  unfold isValidRule at h
  cases h1 : sectionAt a "states" with
  | error e => simp [h1, bind, Except.bind] at h
  | ok sts =>
      cases h2 : firstTokens sts with
      | error e => simp [h1, h2, bind, Except.bind] at h
      | ok ts =>
          have h3 : sectionAt a "sigma" = .ok sigma := by simp [sectionAt, hsigma]
          cases h4 : firstTokens sigma with
          | error e => simp [h1, h2, h3, h4, bind, Except.bind] at h
          | ok gs =>
              rw [← firstTokens_mem sigma gs h4]
              simp only [h1, h2, h3, h4, idx, bind, Except.bind, pure, Except.pure] at h
              by_contra hq
              simp [hq] at h

/-- Every rule of a validated automaton has five tokens, and its push-token is
declared in `sigma`. -/
theorem valid_rules_shape (a : Automaton) (rules sigma : Section)
    (hrules : a.lookup "rules" = some rules) (hsigma : a.lookup "sigma" = some sigma)
    (hall : allValidRules a = .ok true) :
    ∀ r ∈ rules, ∃ f i p q t, r = [f, i, p, q, t] ∧ declaredIn sigma q := by
  obtain ⟨rules1, hrules1, hvalid, h5⟩ := allValidRules_true a hall
  rw [hrules] at hrules1
  obtain rfl := Option.some.inj hrules1
  intro r hr
  obtain ⟨f, i, p, q, t, rfl⟩ := five_tokens r (h5 r hr)
  exact ⟨f, i, p, q, t, rfl, isValidRule_push a sigma f i p q t hsigma (hvalid _ hr)⟩

theorem fire_stackOk (rules sigma : Section)
    (hshape : ∀ r ∈ rules, ∃ f i p q t, r = [f, i, p, q, t] ∧ declaredIn sigma q)
    (rule : Row) (hrule : rule ∈ rules) (stack : List String)
    (h : stackOk rules sigma stack) : stackOk rules sigma (fire rule stack).2 := by
  obtain ⟨f, i, p, q, t, rfl, hq⟩ := hshape rule hrule
  intro x hx
  simp only [fire, List.mem_append] at hx
  rcases hx with hx | hx
  · by_cases hp : p = "e"
    · rw [if_pos hp] at hx
      exact h x hx
    · rw [if_neg hp] at hx
      exact h x (List.mem_of_mem_dropLast hx)
  · by_cases hqe : q = "e"
    · simp [hqe] at hx
    · rw [if_neg hqe, List.mem_singleton] at hx
      subst hx
      exact ⟨hqe, ⟨_, hrule, rfl⟩, hq⟩

theorem fire_length (f i p q t : String) (stack : List String)
    (h : ¬ (p ≠ "e" ∧ (stack = [] ∨ stack.getLast? ≠ some p))) :
    (fire [f, i, p, q, t] stack).2.length + 1 = stack.length ∨
      (fire [f, i, p, q, t] stack).2.length = stack.length ∨
      (fire [f, i, p, q, t] stack).2.length = stack.length + 1 := by
  simp only [fire]
  by_cases hp : p = "e" <;> by_cases hq : q = "e"
  · simp [hp, hq]
  · simp [hp, hq]
  · have hne : stack ≠ [] := by
      intro hs
      exact h ⟨hp, Or.inl hs⟩
    have hpos : 0 < stack.length := List.length_pos.2 hne
    simp only [hp, hq, if_false, if_true, List.append_nil, List.length_dropLast]
    omega
  · have hne : stack ≠ [] := by
      intro hs
      exact h ⟨hp, Or.inl hs⟩
    have hpos : 0 < stack.length := List.length_pos.2 hne
    simp only [hp, hq, if_false, List.length_append, List.length_dropLast, List.length_singleton]
    omega

theorem applyRules_stackOk (rules sigma : Section)
    (hshape : ∀ r ∈ rules, ∃ f i p q t, r = [f, i, p, q, t] ∧ declaredIn sigma q)
    (applied : List Row) (happlied : ∀ r ∈ applied, r ∈ rules) (currState : String)
    (stack : List String) (currState1 : String) (stack1 : List String)
    (hrun : applyRules applied currState stack = some (currState1, stack1))
    (h : stackOk rules sigma stack) : stackOk rules sigma stack1 := by
  induction applied generalizing currState stack with
  | nil =>
      simp only [applyRules, Option.some.injEq, Prod.mk.injEq] at hrun
      rw [← hrun.2]
      exact h
  | cons rule rest ih =>
      have hmem : rule ∈ rules := happlied rule (List.mem_cons_self _ _)
      obtain ⟨f, i, p, q, t, rfl, hq⟩ := hshape rule hmem
      rw [applyRules, applyRule_eval] at hrun
      by_cases hc : p ≠ "e" ∧ (stack = [] ∨ stack.getLast? ≠ some p)
      · rw [if_pos hc] at hrun
        simp at hrun
      · rw [if_neg hc] at hrun
        exact ih (fun r hr => happlied r (List.mem_cons_of_mem _ hr)) _ _ hrun
          (fire_stackOk rules sigma hshape _ hmem stack h)

theorem chase_stackOk (rules sigma : Section)
    (hshape : ∀ r ∈ rules, ∃ f i p q t, r = [f, i, p, q, t] ∧ declaredIn sigma q)
    (n : Nat) (currState : String) (stack : List String) (currState1 : String)
    (stack1 : List String) (out : List Out)
    (hrun : chase rules n currState stack = some (currState1, stack1, out))
    (h : stackOk rules sigma stack) :
    stackOk rules sigma stack1 ∧ ∀ e ∈ out, ∀ st, e.stack? = some st → stackOk rules sigma st := by
  induction n generalizing currState stack out with
  | zero =>
      simp only [chase, Option.some.injEq, Prod.mk.injEq] at hrun
      obtain ⟨-, rfl, rfl⟩ := hrun
      exact ⟨h, by simp⟩
  | succ n ih =>
      rw [chase] at hrun
      cases hfind : rules.find? (applicable "e" currState stack) with
      | none => simp [hfind] at hrun
      | some rule =>
          have hmem : rule ∈ rules := List.mem_of_find?_eq_some hfind
          have hfire := fire_stackOk rules sigma hshape rule hmem stack h
          simp only [hfind] at hrun
          cases hrest : chase rules n (fire rule stack).1 (fire rule stack).2 with
          | none => simp [hrest] at hrun
          | some r =>
              obtain ⟨s2, st2, out2⟩ := r
              simp only [hrest, Option.some.injEq, Prod.mk.injEq] at hrun
              obtain ⟨rfl, rfl, rfl⟩ := hrun
              obtain ⟨h1, h2⟩ := ih _ _ _ hrest hfire
              refine ⟨h1, ?_⟩
              intro e he st hst
              rcases List.mem_cons.1 he with rfl | he
              · simp only [Out.stack?, Option.some.injEq] at hst
                rw [← hst]
                exact hfire
              · exact h2 e he st hst

theorem applyEpsilonTransitions_stackOk (a : Automaton) (rules sigma : Section)
    (hrules : a.lookup "rules" = some rules)
    (hshape : ∀ r ∈ rules, ∃ f i p q t, r = [f, i, p, q, t] ∧ declaredIn sigma q)
    (fuel : Nat) (currState : String) (stack : List String) (flag : Bool)
    (currState1 : String) (stack1 : List String) (out : List Out)
    (hrun : applyEpsilonTransitions a fuel currState stack = .ok (flag, currState1, stack1, out))
    (h : stackOk rules sigma stack) :
    stackOk rules sigma stack1 ∧ ∀ e ∈ out, ∀ st, e.stack? = some st → stackOk rules sigma st := by
  have h5 : ∀ r ∈ rules, r.length = 5 := by
    intro r hr
    obtain ⟨f, i, p, q, t, rfl, -⟩ := hshape r hr
    rfl
  obtain ⟨n, -, hchase, -, -⟩ :=
    (applyEpsilonTransitions_chase a rules hrules h5 fuel currState stack flag currState1 stack1
      out).1 hrun
  exact chase_stackOk rules sigma hshape n _ _ _ _ _ hchase h

theorem inputSymbols_stackOk (a : Automaton) (rules sigma : Section)
    (hrules : a.lookup "rules" = some rules)
    (hshape : ∀ r ∈ rules, ∃ f i p q t, r = [f, i, p, q, t] ∧ declaredIn sigma q)
    (fuel : Nat) (input : List String) (currState : String) (stack : List String)
    (flag : Bool) (currState1 : String) (stack1 : List String) (out : List Out)
    (hrun : inputSymbols a fuel input currState stack = .ok (flag, currState1, stack1, out))
    (h : stackOk rules sigma stack) :
    stackOk rules sigma stack1 ∧ ∀ e ∈ out, ∀ st, e.stack? = some st → stackOk rules sigma st := by
  have h5 : ∀ r ∈ rules, r.length = 5 := by
    intro r hr
    obtain ⟨f, i, p, q, t, rfl, -⟩ := hshape r hr
    rfl
  induction input generalizing currState stack flag currState1 stack1 out with
  | nil =>
      simp only [inputSymbols, Except.ok.injEq, Prod.mk.injEq] at hrun
      obtain ⟨-, -, rfl, rfl⟩ := hrun
      exact ⟨h, by simp⟩
  | cons value rest ih =>
      rw [inputSymbols_cons a rules hrules h5] at hrun
      cases hfind : rules.find? (applicable value currState stack) with
      | none =>
          simp only [hfind, Except.ok.injEq, Prod.mk.injEq] at hrun
          obtain ⟨-, -, rfl, rfl⟩ := hrun
          refine ⟨h, ?_⟩
          intro e he st hst
          simp only [List.mem_cons, List.mem_singleton, List.not_mem_nil, or_false] at he
          rcases he with rfl | rfl <;> simp [Out.stack?] at hst
      | some rule =>
          have hmem : rule ∈ rules := List.mem_of_find?_eq_some hfind
          have hfire := fire_stackOk rules sigma hshape rule hmem stack h
          simp only [hfind] at hrun
          cases heps : applyEpsilonTransitions a fuel (fire rule stack).1 (fire rule stack).2 with
          | error e => simp [heps] at hrun
          | ok r =>
              obtain ⟨fl2, s2, st2, out2⟩ := r
              obtain ⟨hst2, hout2⟩ := applyEpsilonTransitions_stackOk a rules sigma hrules hshape
                fuel _ _ _ _ _ _ heps hfire
              simp only [heps] at hrun
              cases hrest : inputSymbols a fuel rest s2 st2 with
              | error e => simp [hrest] at hrun
              | ok r3 =>
                  obtain ⟨fl3, s3, st3, out3⟩ := r3
                  obtain ⟨hst3, hout3⟩ := ih _ _ _ _ _ _ hrest hst2
                  simp only [hrest, Except.ok.injEq, Prod.mk.injEq] at hrun
                  obtain ⟨-, -, rfl, rfl⟩ := hrun
                  refine ⟨hst3, ?_⟩
                  intro e he st hst
                  rcases List.mem_cons.1 he with rfl | he
                  · simp only [Out.stack?, Option.some.injEq] at hst
                    rw [← hst]
                    exact hfire
                  · rcases List.mem_append.1 he with he | he
                    · exact hout2 e he st hst
                    · exact hout3 e he st hst

theorem stackOk_nil (rules sigma : Section) : stackOk rules sigma [] := by
  intro x hx
  cases hx

theorem startPDA_stackOk (a : Automaton) (rules sigma : Section)
    (hrules : a.lookup "rules" = some rules)
    (hshape : ∀ r ∈ rules, ∃ f i p q t, r = [f, i, p, q, t] ∧ declaredIn sigma q)
    (fuel : Nat) (input : List String) (out : List Out)
    (hrun : startPDA a fuel input = .ok out) :
    ∀ e ∈ out, ∀ st, e.stack? = some st → stackOk rules sigma st := by
  intro e he st hst
  have hex : e.fromExecution = true := by
    cases e <;> simp [Out.stack?] at hst <;> rfl
  obtain ⟨hvalid, hall, hinput, hfirst⟩ := startPDA_gate a fuel input out hrun ⟨e, he, hex⟩
  have hstates : ∃ states, a.lookup "states" = some states := by
    simp only [isValidAutomaton, List.all_cons, Bool.and_eq_true] at hvalid
    exact Option.isSome_iff_exists.1 hvalid.1
  obtain ⟨states, hstates⟩ := hstates
  rw [startPDA_eval a fuel input states hstates hvalid hall hinput hfirst] at hrun
  cases h1 : applyEpsilonTransitions a fuel (collectStates states "" []).1 [] with
  | error err => simp [h1] at hrun
  | ok r1 =>
      obtain ⟨fl1, s1, st1, out1⟩ := r1
      obtain ⟨hst1, hout1⟩ := applyEpsilonTransitions_stackOk a rules sigma hrules hshape
        fuel _ _ _ _ _ _ h1 (stackOk_nil rules sigma)
      simp only [h1] at hrun
      cases h2 : inputSymbols a fuel input s1 st1 with
      | error err => simp [h2] at hrun
      | ok r2 =>
          obtain ⟨fl2, s2, st2, out2⟩ := r2
          obtain ⟨hst2, hout2⟩ := inputSymbols_stackOk a rules sigma hrules hshape
            fuel _ _ _ _ _ _ _ h2 hst1
          simp only [h2] at hrun
          cases fl2 with
          | false =>
              simp only [Except.ok.injEq] at hrun
              subst hrun
              simp only [List.mem_append, List.mem_cons, List.mem_singleton, List.not_mem_nil,
                or_false] at he
              rcases he with ((rfl | rfl) | he) | he
              · simp [Out.stack?] at hst
              · simp [Out.stack?] at hst
              · exact hout1 e he st hst
              · exact hout2 e he st hst
          | true =>
              simp only [] at hrun
              cases h3 : applyEpsilonTransitions a fuel s2 st2 with
              | error err => simp [h3] at hrun
              | ok r3 =>
                  obtain ⟨fl3, s3, st3, out3⟩ := r3
                  obtain ⟨hst3, hout3⟩ := applyEpsilonTransitions_stackOk a rules sigma hrules
                    hshape fuel _ _ _ _ _ _ h3 hst2
                  simp only [h3, Except.ok.injEq] at hrun
                  subst hrun
                  simp only [List.mem_append, List.mem_cons, List.mem_singleton,
                    List.not_mem_nil, or_false] at he
                  rcases he with ((((rfl | rfl) | he) | he) | he) | rfl | rfl
                  · simp [Out.stack?] at hst
                  · simp [Out.stack?] at hst
                  · exact hout1 e he st hst
                  · exact hout2 e he st hst
                  · exact hout3 e he st hst
                  · simp only [Out.stack?, Option.some.injEq] at hst
                    rw [← hst]
                    exact hst3
                  · split_ifs at hst <;> simp [Out.stack?] at hst

end PushdownAutomaton

/-! ## Lemmas on the printing loop and on tapes of `2^31` cells and more -/

namespace TuringMachine

theorem hugeTape_length : hugeTape.length = 2147483648 := by
  rw [hugeTape, List.length_replicate]

theorem markedTape_length : markedTape.length = 2147483649 := by
  rw [markedTape, List.length_cons, List.length_replicate]

/-- The cell at position `2^31 - 1` of `hugeTape`. -/
theorem hugeTape_last : hugeTape[(2147483647 : Int).toNat]? = some '*' := by
  have h : (2147483647 : Int).toNat = 2147483647 := by decide
  rw [h, hugeTape, List.getElem?_replicate_of_lt (by decide)]

theorem printLoop_done (bandwidth : List Char) (end_ : Int) (budget : Nat) (i : Int)
    (h : ¬ i ≤ end_) : printLoop bandwidth end_ (budget + 1) i = .ok [] := by
  rw [printLoop, if_neg h]

theorem printResult_neg (bandwidth : List Char) (h : resultEnd bandwidth < 0) :
    printResult bandwidth = .ok [] := by
  unfold printResult
  exact printLoop_done _ _ _ _ (by omega)

theorem resultLength_marked (n k : Nat) (hk : k ≤ n) :
    resultLength ('a' :: List.replicate n '*') (k + 1) = 1 := by
  induction k with
  | zero =>
      rw [resultLength, List.getElem?_cons_zero]
      rfl
  | succ k ih =>
      rw [resultLength]
      have hstar : ('a' :: List.replicate n '*')[k + 1]? = some '*' := by
        rw [List.getElem?_cons_succ, List.getElem?_replicate_of_lt (by omega)]
      rw [hstar]
      simp only [beq_self_eq_true, if_true]
      exact ih (by omega)

theorem resultCells_marked : resultCells markedTape = ['a'] := by
  unfold resultCells
  rw [markedTape_length]
  have h := resultLength_marked 2147483648 2147483648 (le_refl _)
  rw [markedTape, h]
  rfl

/-- The budget that `printResult` gives to `printLoop` is never used up:
the loop ends or faults on a cell access first. -/
theorem printLoop_budget (bandwidth : List Char) (end_ : Int) :
    ∀ (budget : Nat) (i : Int), 0 < budget → i < 2147483648 →
      (0 ≤ i → ((bandwidth.length : Int) - i).toNat < budget) →
      printLoop bandwidth end_ budget i ≠ .error Fault.outOfFuel := by
  intro budget
  induction budget with
  | zero =>
      intro i h
      omega
  | succ budget ih =>
      intro i _ himax hb
      rw [printLoop]
      by_cases hle : i ≤ end_
      · rw [if_pos hle]
        cases hcell : cellAt bandwidth i with
        | error e =>
            have he : e = Fault.badIndex := by
              unfold cellAt at hcell
              by_cases hneg : i < 0
              · rw [if_pos hneg] at hcell
                exact (Except.error.inj hcell).symm
              · rw [if_neg hneg] at hcell
                unfold idx at hcell
                cases hget : bandwidth[i.toNat]? with
                | none =>
                    rw [hget] at hcell
                    exact (Except.error.inj hcell).symm
                | some x =>
                    rw [hget] at hcell
                    cases hcell
            subst he
            simp [bind, Except.bind]
        | ok cell =>
            obtain ⟨hi0, hi1⟩ := cellAt_ok _ _ _ hcell
            have hpos : 0 < budget := by
              have := hb hi0
              omega
            have hrec := ih (toInt32 (i + 1)) hpos (toInt32_range (i + 1)).2 (by
              intro hnext
              by_cases hsmall : i + 1 < 2147483648
              · rw [toInt32_eq _ (by omega) hsmall]
                have := hb hi0
                omega
              · exfalso
                have hi : i + 1 = 2147483648 := by omega
                rw [hi] at hnext
                unfold toInt32 at hnext
                omega)
            simp only [bind, Except.bind, pure, Except.pure]
            cases hp : printLoop bandwidth end_ budget (toInt32 (i + 1)) with
            | error e =>
                simp only [ne_eq, Except.error.injEq]
                intro he
                rw [hp, he] at hrec
                exact hrec rfl
            | ok rest => simp
      · rw [if_neg hle]
        simp

theorem printResult_budget (bandwidth : List Char) :
    printResult bandwidth ≠ .error Fault.outOfFuel := by
  unfold printResult
  exact printLoop_budget _ _ _ _ (by omega) (by omega) (by intro _; omega)

end TuringMachine

/-! ## Main results -/

namespace PushdownAutomaton

/-- C1 (counterexample). In the validated automaton `twoRules`, at the initial
configuration (state `q0`, empty stack) and for the input symbol `a`, rules 0
and 1 both have from-state `q0` and input-token `a`. Rule 0 cannot be applied
(it pops `x` from an empty stack); the scan then goes on to rule 1 and applies
it: the run on `a` prints the transition to `q2` with stack `[y]` and
accepts. -/
theorem later_rule_applied :
    isValidAutomaton twoRules = true ∧ allValidRules twoRules = .ok true ∧
    isValidFirstRule twoRules = .ok true ∧ isValidInput twoRules ["a"] = .ok true ∧
    sectionAt twoRules "rules" =
      .ok [["q0", "a", "x", "e", "q1"], ["q0", "a", "e", "y", "q2"]] ∧
    applyRule ["q0", "a", "x", "e", "q1"] "q0" [] = .ok (false, "q0", [], []) ∧
    inputLoop twoRules 1 "a" [["q0", "a", "x", "e", "q1"], ["q0", "a", "e", "y", "q2"]] "q0" [] =
      .ok (true, "q2", ["y"], [Out.transition "q2" ["y"]]) ∧
    startPDA twoRules 1 ["a"] =
      .ok [Out.askInput, Out.start "q0", Out.transition "q2" ["y"], Out.finalStack ["y"],
        Out.accepted] := by
  decide

/-- C1 (amended). In a validated automaton, for every state, stack and input
symbol: when `rule` is the first rule in declaration order that is applicable
(from-state the current state, input-token the symbol, pop-token `e` or the
stack top), the scan for that symbol applies exactly `rule` and then runs the
epsilon closure, whatever rules are declared after it and whatever rules
before it matched state and symbol without fitting the stack; the run goes on
with the remaining input from the configuration so reached, with no return to
another rule for this symbol. -/
theorem first_applicable_rule_wins (a : Automaton) (hall : allValidRules a = .ok true)
    (pre post : List Row) (rule : Row)
    (hrules : a.lookup "rules" = some (pre ++ rule :: post))
    (fuel : Nat) (value currState : String) (stack : List String)
    (hpre : ∀ r ∈ pre, applicable value currState stack r = false)
    (hrule : applicable value currState stack rule = true) (rest : List String) :
    inputLoop a fuel value (pre ++ rule :: post) currState stack =
      (match applyEpsilonTransitions a fuel (fire rule stack).1 (fire rule stack).2 with
        | .error e => .error e
        | .ok (_, currState2, stack2, out2) =>
            .ok (true, currState2, stack2,
              Out.transition (fire rule stack).1 (fire rule stack).2 :: out2)) ∧
    inputSymbols a fuel (value :: rest) currState stack =
      (match applyEpsilonTransitions a fuel (fire rule stack).1 (fire rule stack).2 with
        | .error e => .error e
        | .ok (_, currState2, stack2, out2) =>
            match inputSymbols a fuel rest currState2 stack2 with
            | .error e => .error e
            | .ok (finished, currState3, stack3, out3) =>
                .ok (finished, currState3, stack3,
                  Out.transition (fire rule stack).1 (fire rule stack).2 :: (out2 ++ out3))) := by
  obtain ⟨rules, hr, -, h5⟩ := allValidRules_true a hall
  rw [hrules] at hr
  simp only [Option.some.injEq] at hr
  subst hr
  constructor
  · rw [inputLoop_eq a fuel value _ h5, find?_first _ pre post rule hpre hrule]
  · rw [inputSymbols_cons a _ hrules h5, find?_first _ pre post rule hpre hrule]

/-- Witness of C1 (amended): in `twoRules`, at state `q0` with the empty stack
and symbol `a`, rule 1 is the first applicable rule. -/
theorem first_applicable_rule_wins_witness :
    allValidRules twoRules = .ok true ∧
    twoRules.lookup "rules" =
      some ([["q0", "a", "x", "e", "q1"]] ++ ["q0", "a", "e", "y", "q2"] :: []) ∧
    applicable "a" "q0" [] ["q0", "a", "x", "e", "q1"] = false ∧
    applicable "a" "q0" [] ["q0", "a", "e", "y", "q2"] = true ∧
    inputLoop twoRules 1 "a" ([["q0", "a", "x", "e", "q1"]] ++ ["q0", "a", "e", "y", "q2"] :: [])
        "q0" [] =
      (match applyEpsilonTransitions twoRules 1 (fire ["q0", "a", "e", "y", "q2"] []).1
          (fire ["q0", "a", "e", "y", "q2"] []).2 with
        | .error e => .error e
        | .ok (_, currState2, stack2, out2) =>
            .ok (true, currState2, stack2,
              Out.transition (fire ["q0", "a", "e", "y", "q2"] []).1
                (fire ["q0", "a", "e", "y", "q2"] []).2 :: out2)) :=
  ⟨by decide, by decide, by decide, by decide,
    (first_applicable_rule_wins twoRules (by decide) [["q0", "a", "x", "e", "q1"]] []
      ["q0", "a", "e", "y", "q2"] (by decide) 1 "a" "q0" [] (by decide) (by decide) []).1⟩

/-- C2 (the code at the failing input). In `twoFinals` the rows `q1 F` and
`q2 F` are both tagged `F`, and `q2` is the last one. The run on `a` consumes
the input reaching `q1`, the last closure leaves it in `q1`, and the verdict
printed is "accepted". -/
theorem earlier_final_state_accepts :
    isValidAutomaton twoFinals = true ∧ allValidRules twoFinals = .ok true ∧
    isValidFirstRule twoFinals = .ok true ∧ isValidInput twoFinals ["a"] = .ok true ∧
    sectionAt twoFinals "states" = .ok [["q0", "S"], ["q1", "F"], ["q2", "F"]] ∧
    lastTagged "F" [["q0", "S"], ["q1", "F"], ["q2", "F"]] = some "q2" ∧
    inputSymbols twoFinals 1 ["a"] "q0" [] = .ok (true, "q1", [], [Out.transition "q1" []]) ∧
    applyEpsilonTransitions twoFinals 1 "q1" [] = .ok (false, "q1", [], []) ∧
    startPDA twoFinals 1 ["a"] =
      .ok [Out.askInput, Out.start "q0", Out.transition "q1" [], Out.finalStack [],
        Out.accepted] := by
  refine ⟨by decide, by decide, by decide, by decide, by decide, by decide, by decide,
    by decide, by decide⟩

/-- C3. `applyRule` on a 5-token rule `[f, i, p, q, t]`: it fails exactly when
the pop-token `p` is not `e` and the stack is empty or its top differs from
`p`, and then state and stack are unchanged and nothing is printed; otherwise
the top is removed when `p` is not `e`, then `q` is appended when it is not
`e`, the state becomes `t` and exactly one transition event with the new
state and the new stack is printed. -/
theorem applyRule_spec (f i p q t currState : String) (stack : List String) :
    applyRule [f, i, p, q, t] currState stack =
      if p ≠ "e" ∧ (stack = [] ∨ stack.getLast? ≠ some p) then
        .ok (false, currState, stack, [])
      else
        .ok (true, t,
          (if p ≠ "e" then stack.dropLast else stack) ++ (if q ≠ "e" then [q] else []),
          [Out.transition t
            ((if p ≠ "e" then stack.dropLast else stack) ++ (if q ≠ "e" then [q] else []))]) := by
  rw [applyRule_eval]
  by_cases hp : p = "e" <;> by_cases hq : q = "e" <;> simp [fire, hp, hq]

/-- C4. In an automaton whose rules all have 5 tokens, `applyEpsilonTransitions`
returns `(flag, state, stack)` with trace `out` within the recursion budget
exactly when some number `n` of applications of the first applicable epsilon
rule (`chase`) leads from the start configuration to `(state, stack)` with the
transition events `out`, no epsilon rule is applicable at `(state, stack)`,
and `flag` tells whether `n` is positive. -/
theorem applyEpsilonTransitions_spec (a : Automaton) (rules : Section)
    (hrules : a.lookup "rules" = some rules) (h5 : ∀ r ∈ rules, r.length = 5)
    (fuel : Nat) (currState : String) (stack : List String)
    (flag : Bool) (currState1 : String) (stack1 : List String) (out : List Out) :
    applyEpsilonTransitions a fuel currState stack = .ok (flag, currState1, stack1, out) ↔
      ∃ n, n < fuel ∧ chase rules n currState stack = some (currState1, stack1, out) ∧
        rules.find? (applicable "e" currState1 stack1) = none ∧ flag = decide (0 < n) :=
  applyEpsilonTransitions_chase a rules hrules h5 fuel currState stack flag currState1 stack1 out

/-- Witness of C4: in `chain`, two applications of the first applicable
epsilon rule lead from `q0` with the empty stack to `q2` with the empty stack,
where no epsilon rule is applicable; so the closure returns that
configuration, the two transition events and `true`. -/
theorem applyEpsilonTransitions_spec_witness :
    chain.lookup "rules" = some [["q0", "e", "e", "x", "q1"], ["q1", "e", "x", "e", "q2"]] ∧
    (∀ r ∈ [["q0", "e", "e", "x", "q1"], ["q1", "e", "x", "e", "q2"]], r.length = 5) ∧
    chase [["q0", "e", "e", "x", "q1"], ["q1", "e", "x", "e", "q2"]] 2 "q0" [] =
      some ("q2", [], [Out.transition "q1" ["x"], Out.transition "q2" []]) ∧
    applyEpsilonTransitions chain 3 "q0" [] =
      .ok (true, "q2", [], [Out.transition "q1" ["x"], Out.transition "q2" []]) :=
  ⟨by decide, by decide, by decide,
    (applyEpsilonTransitions_spec chain
      [["q0", "e", "e", "x", "q1"], ["q1", "e", "x", "e", "q2"]] (by decide) (by decide) 3 "q0"
      [] true "q2" [] [Out.transition "q1" ["x"], Out.transition "q2" []]).2
      ⟨2, by decide, by decide, by decide, by decide⟩⟩

/-- C5. In a validated automaton whose initial closure terminates, let the
input symbols `pre` be consumed, reaching `(currState, stack)` with trace
`out`, and let no rule be applicable there for the next symbol `v`. Then for
every valid input that continues `pre ++ [v]` the run prints the same thing:
the trace so far, then "No valid transition" and "Input rejected!", and
nothing else; no later symbol is read, no final closure is run, no final
stack and no final-state verdict is printed. -/
theorem startPDA_rejects_at (a : Automaton) (states rules : Section)
    (hstates : a.lookup "states" = some states) (hrules : a.lookup "rules" = some rules)
    (hvalid : isValidAutomaton a = true) (hall : allValidRules a = .ok true)
    (hfirst : isValidFirstRule a = .ok true) (fuel : Nat)
    (flag0 : Bool) (currState0 : String) (stack0 : List String) (out0 : List Out)
    (hclosure : applyEpsilonTransitions a fuel (collectStates states "" []).1 [] =
      .ok (flag0, currState0, stack0, out0))
    (pre : List String) (currState : String) (stack : List String) (out : List Out)
    (hpre : inputSymbols a fuel pre currState0 stack0 = .ok (true, currState, stack, out))
    (v : String) (hnone : ∀ r ∈ rules, applicable v currState stack r = false)
    (rest : List String) (hinput : isValidInput a (pre ++ v :: rest) = .ok true) :
    startPDA a fuel (pre ++ v :: rest) =
      .ok ([Out.askInput, Out.start (collectStates states "" []).1] ++ out0 ++ out ++
        [Out.noTransition v currState, Out.inputRejected]) := by
  obtain ⟨rules1, hr, -, h5⟩ := allValidRules_true a hall
  rw [hrules] at hr
  simp only [Option.some.injEq] at hr
  subst hr
  rw [startPDA_eval a fuel _ states hstates hvalid hall hinput hfirst, hclosure]
  simp only []
  rw [inputSymbols_append a rules hrules h5 fuel (v :: rest) pre currState0 stack0 currState
    stack out hpre, inputSymbols_cons a rules hrules h5, find?_none_of_all _ _ hnone]
  simp

/-- Witness of C5: `chain` on the input `a a`; after the initial closure the
state is `q2`, where no rule reads `a`. -/
theorem startPDA_rejects_at_witness :
    chain.lookup "states" = some [["q0", "S"], ["q1", "0"], ["q2", "F"]] ∧
    isValidAutomaton chain = true ∧ allValidRules chain = .ok true ∧
    isValidFirstRule chain = .ok true ∧ isValidInput chain ([] ++ "a" :: ["a"]) = .ok true ∧
    startPDA chain 3 ([] ++ "a" :: ["a"]) =
      .ok ([Out.askInput, Out.start (collectStates [["q0", "S"], ["q1", "0"], ["q2", "F"]] "" []).1]
        ++ [Out.transition "q1" ["x"], Out.transition "q2" []] ++ [] ++
        [Out.noTransition "a" "q2", Out.inputRejected]) :=
  ⟨by decide, by decide, by decide, by decide, by decide,
    startPDA_rejects_at chain [["q0", "S"], ["q1", "0"], ["q2", "F"]]
      [["q0", "e", "e", "x", "q1"], ["q1", "e", "x", "e", "q2"]] (by decide) (by decide)
      (by decide) (by decide) (by decide) 3 true "q2" []
      [Out.transition "q1" ["x"], Out.transition "q2" []] (by decide) [] "q2" [] [] (by decide)
      "a" (by decide) ["a"] (by decide)⟩

end PushdownAutomaton

/-- C6. Validation gates execution in both executors. Whenever `startPDA`
prints anything from inside the simulation (start announcement, transition,
final stack or a verdict), the required sections are present, every rule is
well-formed, the first rule starts at the Start state and every input token
is declared in sigma; when a check fails `startPDA` prints only the
corresponding message, for every recursion budget. Whenever the tape `run`
prints anything after the prompt (a halting message or the result),
`isValidAutomaton` holds and every input token is one declared sigma
character; with an invalid automaton `run` prints nothing and with an invalid
input only the prompt, for every budget of steps, zero included. -/
theorem validation_gates_execution
    (a : PushdownAutomaton.Automaton) (fuel : Nat) (inputString : List String)
    (out : List PushdownAutomaton.Out)
    (tm : TuringMachine) (fuelT : Nat) (input_symbols : List String)
    (outT : List TuringMachine.Out) :
    (PushdownAutomaton.startPDA a fuel inputString = .ok out →
      (∃ e ∈ out, e.fromExecution = true) →
      PushdownAutomaton.isValidAutomaton a = true ∧
      PushdownAutomaton.allValidRules a = .ok true ∧
      (∃ rules, a.lookup "rules" = some rules ∧
        ∀ r ∈ rules, PushdownAutomaton.isValidRule a r = .ok true) ∧
      PushdownAutomaton.isValidFirstRule a = .ok true ∧
      PushdownAutomaton.isValidInput a inputString = .ok true ∧
      ∀ tok ∈ inputString, ∃ sigma, a.lookup "sigma" = some sigma ∧
        PushdownAutomaton.declaredIn sigma tok) ∧
    (PushdownAutomaton.isValidAutomaton a = false →
      PushdownAutomaton.startPDA a fuel inputString =
        .ok [PushdownAutomaton.Out.invalidAutomaton]) ∧
    (PushdownAutomaton.isValidAutomaton a = true →
      PushdownAutomaton.allValidRules a = .ok false →
      PushdownAutomaton.startPDA a fuel inputString =
        .ok [PushdownAutomaton.Out.invalidAutomaton]) ∧
    (PushdownAutomaton.isValidAutomaton a = true →
      PushdownAutomaton.allValidRules a = .ok true →
      PushdownAutomaton.isValidInput a inputString = .ok false →
      PushdownAutomaton.startPDA a fuel inputString =
        .ok [PushdownAutomaton.Out.askInput, PushdownAutomaton.Out.invalidInput]) ∧
    (PushdownAutomaton.isValidAutomaton a = true →
      PushdownAutomaton.allValidRules a = .ok true →
      PushdownAutomaton.isValidInput a inputString = .ok true →
      PushdownAutomaton.isValidFirstRule a = .ok false →
      PushdownAutomaton.startPDA a fuel inputString =
        .ok [PushdownAutomaton.Out.askInput, PushdownAutomaton.Out.invalidAutomaton]) ∧
    (TuringMachine.run tm fuelT input_symbols = .ok outT →
      (∃ e ∈ outT, e ≠ TuringMachine.Out.askInput) →
      TuringMachine.isValidAutomaton tm = .ok true ∧
      TuringMachine.isValidInput tm input_symbols = true ∧
      ∀ s ∈ input_symbols, s.length = 1 ∧ TuringMachine.char0 s ∈ tm.sigma_) ∧
    (TuringMachine.isValidAutomaton tm = .ok false →
      TuringMachine.run tm fuelT input_symbols = .ok []) ∧
    (TuringMachine.isValidAutomaton tm = .ok true →
      TuringMachine.isValidInput tm input_symbols = false →
      TuringMachine.run tm fuelT input_symbols = .ok [TuringMachine.Out.askInput]) := by
  refine ⟨?_, (PushdownAutomaton.startPDA_invalid a fuel inputString).1,
    (PushdownAutomaton.startPDA_invalid a fuel inputString).2.1,
    (PushdownAutomaton.startPDA_invalid a fuel inputString).2.2.1,
    (PushdownAutomaton.startPDA_invalid a fuel inputString).2.2.2, ?_,
    (TuringMachine.run_invalid tm fuelT input_symbols).1,
    (TuringMachine.run_invalid tm fuelT input_symbols).2⟩
  · intro h hev
    obtain ⟨hv, hall, hin, hfirst⟩ := PushdownAutomaton.startPDA_gate a fuel inputString out h hev
    obtain ⟨rules, hr, hvalid, -⟩ := PushdownAutomaton.allValidRules_true a hall
    refine ⟨hv, hall, ⟨rules, hr, hvalid⟩, hfirst, hin, ?_⟩
    intro tok htok
    exact PushdownAutomaton.isValidInput_declared a inputString hin tok htok
  · intro h hev
    obtain ⟨hv, hi⟩ := TuringMachine.run_gate tm fuelT input_symbols outT h hev
    exact ⟨hv, hi, (TuringMachine.isValidInput_iff tm input_symbols).1 hi⟩

/-- Witness of C6: `chain` on `a` and `flip` on `1` print from inside the
execution and pass every check. An automaton without sections prints only the
invalid-automaton message; `twoRules` prints "Input invalid!" on the
undeclared token `b`; the empty machine prints nothing; `flip` on the
undeclared symbol `2` prints only the prompt. -/
theorem validation_gates_execution_witness :
    (PushdownAutomaton.isValidAutomaton PushdownAutomaton.chain = true ∧
      PushdownAutomaton.allValidRules PushdownAutomaton.chain = .ok true ∧
      (∃ rules, PushdownAutomaton.chain.lookup "rules" = some rules ∧
        ∀ r ∈ rules, PushdownAutomaton.isValidRule PushdownAutomaton.chain r = .ok true) ∧
      PushdownAutomaton.isValidFirstRule PushdownAutomaton.chain = .ok true ∧
      PushdownAutomaton.isValidInput PushdownAutomaton.chain ["a"] = .ok true ∧
      ∀ tok ∈ ["a"], ∃ sigma, PushdownAutomaton.chain.lookup "sigma" = some sigma ∧
        PushdownAutomaton.declaredIn sigma tok) ∧
    PushdownAutomaton.startPDA [] 0 ["a"] = .ok [PushdownAutomaton.Out.invalidAutomaton] ∧
    PushdownAutomaton.startPDA PushdownAutomaton.twoRules 0 ["b"] =
      .ok [PushdownAutomaton.Out.askInput, PushdownAutomaton.Out.invalidInput] ∧
    (TuringMachine.isValidAutomaton TuringMachine.flip = .ok true ∧
      TuringMachine.isValidInput TuringMachine.flip ["1"] = true ∧
      ∀ s ∈ ["1"], s.length = 1 ∧ TuringMachine.char0 s ∈ TuringMachine.flip.sigma_) ∧
    TuringMachine.run TuringMachine.empty 0 ["1"] = .ok [] ∧
    TuringMachine.run TuringMachine.flip 0 ["2"] = .ok [TuringMachine.Out.askInput] :=
  ⟨(validation_gates_execution PushdownAutomaton.chain 3 ["a"]
      [PushdownAutomaton.Out.askInput, PushdownAutomaton.Out.start "q0",
        PushdownAutomaton.Out.transition "q1" ["x"], PushdownAutomaton.Out.transition "q2" [],
        PushdownAutomaton.Out.noTransition "a" "q2", PushdownAutomaton.Out.inputRejected]
      TuringMachine.flip 1 ["1"] [TuringMachine.Out.askInput, TuringMachine.Out.result ['0']]).1
      (by decide) ⟨PushdownAutomaton.Out.inputRejected, by decide, by decide⟩,
    (validation_gates_execution [] 0 ["a"] [] TuringMachine.flip 1 ["1"] []).2.1 (by decide),
    (validation_gates_execution PushdownAutomaton.twoRules 0 ["b"] []
      TuringMachine.flip 1 ["1"] []).2.2.2.1 (by decide) (by decide) (by decide),
    (validation_gates_execution PushdownAutomaton.chain 3 ["a"] []
      TuringMachine.flip 1 ["1"]
      [TuringMachine.Out.askInput, TuringMachine.Out.result ['0']]).2.2.2.2.2.1
      (by decide) ⟨TuringMachine.Out.result ['0'], by decide, by decide⟩,
    (validation_gates_execution PushdownAutomaton.chain 3 ["a"] []
      TuringMachine.empty 0 ["1"] []).2.2.2.2.2.2.1 (by decide),
    (validation_gates_execution PushdownAutomaton.chain 3 ["a"] []
      TuringMachine.flip 0 ["2"] []).2.2.2.2.2.2.2 (by decide) (by decide)⟩

namespace PushdownAutomaton

/-- C7. With both sections present and no stored row empty, `isValidRule`
returns, and it returns true exactly for a rule of 5 tokens whose tokens 0 and
4 are first tokens of states rows and whose tokens 1, 2 and 3 are first tokens
of sigma rows. The token `e` is treated like any other: when no sigma row
declares `e`, a 5-token rule with `e` in position 1, 2 or 3 is rejected. -/
theorem isValidRule_iff (a : Automaton) (states sigma : Section) (rule : Row)
    (hstates : a.lookup "states" = some states) (hsigma : a.lookup "sigma" = some sigma)
    (hrows : ∀ row ∈ states, row ≠ []) (hsyms : ∀ row ∈ sigma, row ≠ []) :
    (isValidRule a rule = .ok true ∨ isValidRule a rule = .ok false) ∧
    (isValidRule a rule = .ok true ↔
      ∃ r0 r1 r2 r3 r4, rule = [r0, r1, r2, r3, r4] ∧
        declaredIn states r0 ∧ declaredIn states r4 ∧
        declaredIn sigma r1 ∧ declaredIn sigma r2 ∧ declaredIn sigma r3) ∧
    (∀ r0 r1 r2 r3 r4, rule = [r0, r1, r2, r3, r4] → ¬ declaredIn sigma "e" →
      r1 = "e" ∨ r2 = "e" ∨ r3 = "e" → isValidRule a rule = .ok false) := by
  obtain ⟨sts, hsts, hmemS⟩ := firstTokens_ok states hrows
  obtain ⟨sgs, hsgs, hmemG⟩ := firstTokens_ok sigma hsyms
  have h5 : ∀ r0 r1 r2 r3 r4, isValidRule a [r0, r1, r2, r3, r4] =
      .ok (decide (r0 ∈ sts ∧ r4 ∈ sts ∧ r1 ∈ sgs ∧ r2 ∈ sgs ∧ r3 ∈ sgs)) := by
    intro r0 r1 r2 r3 r4
    simp [isValidRule, sectionAt, hstates, hsigma, hsts, hsgs, idx, bind, Except.bind, pure,
      Except.pure]
    split_ifs <;> simp_all
  have hne : ∀ r : Row, r.length ≠ 5 → isValidRule a r = .ok false := by
    intro r hr
    simp [isValidRule, sectionAt, hstates, hsigma, hsts, hsgs, bind, Except.bind, pure,
      Except.pure, hr]
  by_cases hlen : rule.length = 5
  · obtain ⟨r0, r1, r2, r3, r4, rfl⟩ : ∃ r0 r1 r2 r3 r4, rule = [r0, r1, r2, r3, r4] := by
      rcases rule with _ | ⟨r0, _ | ⟨r1, _ | ⟨r2, _ | ⟨r3, _ | ⟨r4, _ | ⟨r5, more⟩⟩⟩⟩⟩⟩ <;>
        simp at hlen
      exact ⟨r0, r1, r2, r3, r4, rfl⟩
    refine ⟨?_, ?_, ?_⟩
    · rw [h5]
      by_cases hc : r0 ∈ sts ∧ r4 ∈ sts ∧ r1 ∈ sgs ∧ r2 ∈ sgs ∧ r3 ∈ sgs <;> simp [hc]
    · rw [h5]
      simp only [← hmemS, ← hmemG]
      constructor
      · intro h
        have hc : r0 ∈ sts ∧ r4 ∈ sts ∧ r1 ∈ sgs ∧ r2 ∈ sgs ∧ r3 ∈ sgs := by simpa using h
        exact ⟨r0, r1, r2, r3, r4, rfl, hc⟩
      · rintro ⟨s0, s1, s2, s3, s4, heq, hc⟩
        simp only [List.cons.injEq, and_true] at heq
        obtain ⟨rfl, rfl, rfl, rfl, rfl⟩ := heq
        simp [hc]
    · intro s0 s1 s2 s3 s4 heq hno hor
      simp only [List.cons.injEq, and_true] at heq
      obtain ⟨rfl, rfl, rfl, rfl, rfl⟩ := heq
      rw [h5]
      have hno2 : "e" ∉ sgs := fun h => hno ((hmemG "e").1 h)
      rcases hor with rfl | rfl | rfl <;> simp [hno2]
  · refine ⟨Or.inr (hne rule hlen), ?_, ?_⟩
    · rw [hne rule hlen]
      constructor
      · intro h
        cases h
      · rintro ⟨s0, s1, s2, s3, s4, rfl, -⟩
        exact absurd rfl hlen
    · intro s0 s1 s2 s3 s4 heq
      subst heq
      exact absurd rfl hlen

/-- Witness of C7: the first rule of `twoRules`. -/
theorem isValidRule_iff_witness :
    twoRules.lookup "states" = some [["q0", "S"], ["q1", "0"], ["q2", "F"]] ∧
    twoRules.lookup "sigma" = some [["a"], ["x"], ["y"], ["e"]] ∧
    (∀ row ∈ [["q0", "S"], ["q1", "0"], ["q2", "F"]], row ≠ []) ∧
    (∀ row ∈ [["a"], ["x"], ["y"], ["e"]], row ≠ []) ∧
    (isValidRule twoRules ["q0", "a", "x", "e", "q1"] = .ok true ∨
      isValidRule twoRules ["q0", "a", "x", "e", "q1"] = .ok false) :=
  ⟨by decide, by decide, by decide, by decide,
    (isValidRule_iff twoRules [["q0", "S"], ["q1", "0"], ["q2", "F"]]
      [["a"], ["x"], ["y"], ["e"]] ["q0", "a", "x", "e", "q1"] (by decide) (by decide)
      (by decide) (by decide)).1⟩

/-- C8. With sections `rules` and `states` present, and the first stored rule
(if any) starting with a non-empty token, `isValidFirstRule` returns, and it
returns true exactly when `rules` is non-empty and token 0 of its first row
is the name of the last states row tagged `S`; with no row tagged `S` it
returns false. -/
theorem isValidFirstRule_iff (a : Automaton) (states rules : Section)
    (hstates : a.lookup "states" = some states) (hrules : a.lookup "rules" = some rules)
    (hfirst : ∀ row, rules.head? = some row → ∃ t, row.head? = some t ∧ t ≠ "") :
    (isValidFirstRule a = .ok true ∨ isValidFirstRule a = .ok false) ∧
    (isValidFirstRule a = .ok true ↔
      ∃ row t, rules.head? = some row ∧ row.head? = some t ∧ lastTagged "S" states = some t) ∧
    (lastTagged "S" states = none → isValidFirstRule a = .ok false) := by
  rcases rules with _ | ⟨rule0, more⟩
  · simp [isValidFirstRule, sectionAt, hrules, bind, Except.bind, pure, Except.pure]
  · obtain ⟨t, ht, hne⟩ := hfirst rule0 rfl
    rcases rule0 with _ | ⟨t0, toks⟩
    · simp at ht
    · simp only [List.head?_cons, Option.some.injEq] at ht
      subst ht
      have hval : isValidFirstRule a = .ok (t0 == (lastTagged "S" states).getD "") := by
        simp [isValidFirstRule, sectionAt, hrules, hstates, idx, bind, Except.bind, pure,
          Except.pure, findStartState_eq]
      rw [hval]
      cases hl : lastTagged "S" states with
      | none => simp [hne]
      | some n =>
          by_cases hn : t0 = n <;> simp [hn]

/-- Witness of C8: `twoRules`, whose first rule starts at `q0`. -/
theorem isValidFirstRule_iff_witness :
    twoRules.lookup "states" = some [["q0", "S"], ["q1", "0"], ["q2", "F"]] ∧
    twoRules.lookup "rules" =
      some [["q0", "a", "x", "e", "q1"], ["q0", "a", "e", "y", "q2"]] ∧
    (isValidFirstRule twoRules = .ok true ∨ isValidFirstRule twoRules = .ok false) :=
  ⟨by decide, by decide,
    (isValidFirstRule_iff twoRules [["q0", "S"], ["q1", "0"], ["q2", "F"]]
      [["q0", "a", "x", "e", "q1"], ["q0", "a", "e", "y", "q2"]] (by decide) (by decide)
      (by
        intro row hrow
        simp only [List.head?_cons, Option.some.injEq] at hrow
        subst hrow
        exact ⟨"q0", rfl, by decide⟩)).1⟩

end PushdownAutomaton

namespace TuringMachine

/-- C9. For a machine produced by `loadFromFile`, `isValidAutomaton` returns,
and it returns true exactly when `states_`, `sigma_` and `rules_` are all
non-empty, section `states` of the text has a last row tagged `S` and a last
row tagged `F` (their names are `start_state_` and `final_state_`), every rule
has 5 tokens with tokens 0 and 2 declared states, the first characters of
tokens 1 and 3 in sigma and token 4 equal to `L` or `R`, and token 0 of the
first rule is the Start state. -/
theorem isValidAutomaton_iff (lines : List String) (tm : TuringMachine)
    (hload : loadFromFile lines = some tm) :
    (isValidAutomaton tm = .ok true ∨ isValidAutomaton tm = .ok false) ∧
    (isValidAutomaton tm = .ok true ↔
      tm.states_ ≠ [] ∧ tm.sigma_ ≠ [] ∧ tm.rules_ ≠ [] ∧
      ∃ start final,
        lastTagged "S" (stateRows lines) = some start ∧
        lastTagged "F" (stateRows lines) = some final ∧
        tm.start_state_ = start ∧ tm.final_state_ = final ∧
        (∀ rule ∈ tm.rules_, ∃ r0 r1 r2 r3 r4, rule = [r0, r1, r2, r3, r4] ∧
          isValidState tm r0 = true ∧ isValidState tm r2 = true ∧
          isValidSymbol tm (char0 r1) = true ∧ isValidSymbol tm (char0 r3) = true ∧
          (r4 = "L" ∨ r4 = "R")) ∧
        ∃ rule, tm.rules_.head? = some rule ∧ rule.head? = some start) := by
  obtain ⟨hs, hf, htok, hrul⟩ := loadLines_inv lines empty "" tm hload
  have h5 : ∀ r ∈ tm.rules_, r.length = 5 := hrul (by simp [empty])
  have hs1 : tm.start_state_ = (lastTagged "S" (stateRows lines)).getD "" := hs
  have hf1 : tm.final_state_ = (lastTagged "F" (stateRows lines)).getD "" := hf
  have htok1 : ∀ row ∈ stateRows lines, ∀ t ∈ row, t ≠ "" := htok
  rw [isValidAutomaton_eq tm h5]
  refine ⟨?_, ?_⟩
  · cases (!tm.states_.isEmpty && !tm.sigma_.isEmpty && !tm.rules_.isEmpty &&
      tm.start_state_ != "" && tm.final_state_ != "" && tm.rules_.all (ruleOk tm) &&
      (tm.rules_.head?.bind List.head? == some tm.start_state_)) <;> simp
  · simp only [Except.ok.injEq, Bool.and_eq_true, Bool.not_eq_true', bne_iff_ne, ne_eq,
      List.all_eq_true, beq_iff_eq, List.isEmpty_eq_false]
    constructor
    · rintro ⟨⟨⟨⟨⟨⟨h1, h2⟩, h3⟩, h4⟩, h6⟩, h7⟩, h8⟩
      refine ⟨h1, h2, h3, ?_⟩
      cases hS : lastTagged "S" (stateRows lines) with
      | none => rw [hS] at hs1; exact absurd hs1 h4
      | some start =>
          cases hF : lastTagged "F" (stateRows lines) with
          | none => rw [hF] at hf1; exact absurd hf1 h6
          | some final =>
              rw [hS] at hs1
              rw [hF] at hf1
              refine ⟨start, final, rfl, rfl, hs1, hf1,
                fun rule hr => (ruleOk_iff tm rule).1 (h7 rule hr), ?_⟩
              rcases hr : tm.rules_ with _ | ⟨rule0, more⟩
              · exact absurd hr h3
              · rw [hr] at h8
                simp only [List.head?_cons, Option.bind_some] at h8
                have h9 : rule0.head? = some tm.start_state_ := h8
                exact ⟨rule0, rfl, by rw [h9, hs1]; rfl⟩
    · rintro ⟨h1, h2, h3, start, final, hS, hF, hst, hfi, hall, rule, hrule, hhead⟩
      refine ⟨⟨⟨⟨⟨⟨h1, h2⟩, h3⟩, ?_⟩, ?_⟩, fun r hr => (ruleOk_iff tm r).2 (hall r hr)⟩, ?_⟩
      · rw [hst]
        exact lastTagged_ne_empty "S" _ htok1 start hS
      · rw [hfi]
        exact lastTagged_ne_empty "F" _ htok1 final hF
      · rw [hrule, hst]
        simpa using hhead

/-- Witness of C9: the machine loaded from `flipText`. -/
theorem isValidAutomaton_iff_witness :
    loadFromFile flipText = some flip ∧
    (isValidAutomaton flip = .ok true ∨ isValidAutomaton flip = .ok false) ∧
    (isValidAutomaton flip = .ok true ↔
      flip.states_ ≠ [] ∧ flip.sigma_ ≠ [] ∧ flip.rules_ ≠ [] ∧
      ∃ start final,
        lastTagged "S" (stateRows flipText) = some start ∧
        lastTagged "F" (stateRows flipText) = some final ∧
        flip.start_state_ = start ∧ flip.final_state_ = final ∧
        (∀ rule ∈ flip.rules_, ∃ r0 r1 r2 r3 r4, rule = [r0, r1, r2, r3, r4] ∧
          isValidState flip r0 = true ∧ isValidState flip r2 = true ∧
          isValidSymbol flip (char0 r1) = true ∧ isValidSymbol flip (char0 r3) = true ∧
          (r4 = "L" ∨ r4 = "R")) ∧
        ∃ rule, flip.rules_.head? = some rule ∧ rule.head? = some start) :=
  ⟨by decide, isValidAutomaton_iff flipText flip (by decide)⟩

/-- Counterexample to C10 as stated: on a tape of `2^31` cells with the head
on the last cell, position `2^31 - 1`, the state is not Final, the head is
inside the tape and the rule of `rightMover` matches and moves right, yet the
32-bit increment leaves the head at `-2^31`, not at `2^31`. -/
theorem head_wraps_at_int_max :
    (∀ r ∈ rightMover.rules_, r.length = 5) ∧ "q0" ≠ rightMover.final_state_ ∧
    (0 : Int) ≤ 2147483647 ∧ (2147483647 : Int) < hugeTape.length ∧
    matchesCell ⟨"q0", hugeTape, 2147483647⟩ ["q0", "*", "q0", "*", "R"] = true ∧
    ∃ c1, step rightMover ⟨"q0", hugeTape, 2147483647⟩ = .ok (Pass.next, c1, []) ∧
      c1.head_position = -2147483648 ∧ c1.head_position ≠ 2147483647 + 1 := by
  have hlen : (2147483647 : Int) < hugeTape.length := by
    rw [hugeTape_length]
    decide
  have hmatch : matchesCell ⟨"q0", hugeTape, 2147483647⟩ ["q0", "*", "q0", "*", "R"] = true := by
    simp only [matchesCell, hugeTape_last]
    decide
  refine ⟨by decide, by decide, by decide, hlen, hmatch, ?_⟩
  obtain ⟨cell, -, hstep⟩ := step_eval rightMover ⟨"q0", hugeTape, 2147483647⟩ (by decide)
    (by decide) (by decide) hlen
  have hfind : rightMover.rules_.find? (matchesCell ⟨"q0", hugeTape, 2147483647⟩) =
      some ["q0", "*", "q0", "*", "R"] := by
    show List.find? _ [["q0", "*", "q0", "*", "R"]] = _
    rw [List.find?_cons, hmatch]
  rw [hfind] at hstep
  have hhead : (writeMove ["q0", "*", "q0", "*", "R"]
      ⟨"q0", hugeTape, 2147483647⟩).head_position = -2147483648 := by
    have hw : ∀ c : Config, (writeMove ["q0", "*", "q0", "*", "R"] c).head_position =
        toInt32 (c.head_position + 1) := by
      intro c
      simp [writeMove]
    rw [hw]
    show toInt32 (2147483647 + 1) = -2147483648
    unfold toInt32
    norm_num
  exact ⟨_, hstep, hhead, by rw [hhead]; decide⟩

/-- C10, amended. One pass of the tape loop from a configuration whose state
is not Final and whose head is inside the tape, on a tape of fewer than `2^31`
cells and in a machine whose rules all have 5 tokens. If `[f, rd, t, w, d]` is
the first rule in declaration order that matches (from-state the current
state, read character the cell under the head), the pass applies it: the cell
under the head becomes the write character, every other cell and the tape
length are unchanged, the state becomes `t`, and the head moves by +1 for `R`
and by -1 for `L`. If no rule matches, the pass ends with `noApplicableRule`,
the variables are unchanged, and the whole loop halts there for every budget
of steps. -/
theorem step_spec (tm : TuringMachine) (c : Config)
    (h5 : ∀ r ∈ tm.rules_, r.length = 5) (hstate : c.current_state ≠ tm.final_state_)
    (hlo : 0 ≤ c.head_position) (hhi : c.head_position < c.bandwidth.length)
    (hsize : c.bandwidth.length < 2147483648) :
    (∀ pre post f rd t w d, tm.rules_ = pre ++ [f, rd, t, w, d] :: post →
      (∀ r ∈ pre, matchesCell c r = false) → matchesCell c [f, rd, t, w, d] = true →
      ∃ c1, step tm c = .ok (Pass.next, c1, []) ∧
        c1.current_state = t ∧
        c1.bandwidth = c.bandwidth.set c.head_position.toNat (char0 w) ∧
        c1.bandwidth.length = c.bandwidth.length ∧
        c1.bandwidth[c.head_position.toNat]? = some (char0 w) ∧
        (∀ i, i ≠ c.head_position.toNat → c1.bandwidth[i]? = c.bandwidth[i]?) ∧
        (d = "R" → c1.head_position = c.head_position + 1) ∧
        (d = "L" → c1.head_position = c.head_position - 1)) ∧
    ((∀ r ∈ tm.rules_, matchesCell c r = false) →
      ∃ cell, c.bandwidth[c.head_position.toNat]? = some cell ∧
        step tm c = .ok (Pass.noApplicableRule, c, [Out.noRule c.current_state cell]) ∧
        ∀ fuel, runLoop tm fuel c =
          .ok (Pass.noApplicableRule, c, [Out.noRule c.current_state cell])) := by
  obtain ⟨cell, hcell, hstep⟩ := step_eval tm c h5 hstate hlo hhi
  have hlt : c.head_position.toNat < c.bandwidth.length := by omega
  constructor
  · intro pre post f rd t w d hsplit hpre hrule
    rw [hsplit, find?_first _ pre post _ hpre hrule] at hstep
    refine ⟨writeMove [f, rd, t, w, d] c, hstep, rfl, rfl, ?_, ?_, ?_, ?_, ?_⟩
    · simp [writeMove]
    · simp [writeMove, hlt]
    · intro i hi
      simp only [writeMove]
      rw [List.getElem?_set_ne (Ne.symm hi)]
    · intro hd
      simp only [writeMove, hd, if_true]
      exact toInt32_eq _ (by omega) (by omega)
    · intro hd
      subst hd
      simp only [writeMove]
      rw [if_neg (by decide)]
      exact toInt32_eq _ (by omega) (by omega)
  · intro hnone
    rw [find?_none_of_all _ _ hnone] at hstep
    refine ⟨cell, hcell, hstep, ?_⟩
    intro fuel
    cases fuel with
    | zero => simp [runLoop, hstep, bind, Except.bind, pure, Except.pure]
    | succ n => simp [runLoop, hstep, bind, Except.bind, pure, Except.pure]

/-- Witness of C10: `flip` in state `q0` with the head on the cell `1`. -/
theorem step_spec_witness :
    (∀ r ∈ flip.rules_, r.length = 5) ∧ "q0" ≠ flip.final_state_ ∧
    (0 : Int) ≤ 0 ∧ (0 : Int) < (['1', '*'] : List Char).length ∧
    (['1', '*'] : List Char).length < 2147483648 ∧
    ∃ c1, step flip ⟨"q0", ['1', '*'], 0⟩ = .ok (Pass.next, c1, []) ∧
      c1.current_state = "q1" ∧
      c1.bandwidth = (['1', '*'] : List Char).set (0 : Int).toNat (char0 "0") ∧
      c1.bandwidth.length = (['1', '*'] : List Char).length ∧
      c1.bandwidth[(0 : Int).toNat]? = some (char0 "0") ∧
      (∀ i, i ≠ (0 : Int).toNat → c1.bandwidth[i]? = (['1', '*'] : List Char)[i]?) ∧
      ("R" = "R" → c1.head_position = 0 + 1) ∧
      ("R" = "L" → c1.head_position = 0 - 1) :=
  ⟨by decide, by decide, by decide, by decide, by decide,
    (step_spec flip ⟨"q0", ['1', '*'], 0⟩ (by decide) (by decide) (by decide) (by decide)
      (by decide)).1 [] [] "q0" "1" "q1" "0" "R" rfl (by decide) (by decide)⟩

end TuringMachine

namespace TuringMachine

/-- Counterexample to C11 as stated: for the tape `a` followed by `2^31` cells
`*`, `int end = bandwidth.size() - 1` is `-2^31`, neither loop is entered and
nothing is printed, although the tape cut after its last cell that is not `*`
is `a`: the tape is not the printed result followed by `*` cells. -/
theorem huge_tape_prints_nothing :
    markedTape.length = 2147483649 ∧ resultEnd markedTape = -2147483648 ∧
    printResult markedTape = .ok [] ∧ resultCells markedTape = ['a'] ∧
    ∀ k, markedTape ≠ [] ++ List.replicate k '*' := by
  have h0 : toInt32 ((2147483649 : Nat) - 1 : Int) = -2147483648 := by
    unfold toInt32
    norm_num
  have hend : resultEnd markedTape = -2147483648 := by
    unfold resultEnd
    simp only [markedTape_length, h0]
    rw [if_pos (by norm_num)]
  refine ⟨markedTape_length, hend, ?_, resultCells_marked, ?_⟩
  · exact printResult_neg markedTape (by rw [hend]; norm_num)
  · intro k h
    rw [List.nil_append] at h
    have hmem : 'a' ∈ List.replicate k '*' := by
      rw [← h, markedTape]
      exact List.mem_cons_self _ _
    exact absurd (List.mem_replicate.1 hmem).2 (by decide)

/-- C11, amended. When the loop of a tape run on a valid automaton and a valid
input ends with a tape `c.bandwidth` of fewer than `2^31` cells, `run` prints
the prompt, the halting message if any, and as result that tape cut after its
last cell that is not `*`. For every tape `t` of fewer than `2^31` cells the
printed result is `resultCells t`: it is a prefix of `t`, `t` is the result
followed only by `*` cells, the result does not end in `*`, and it is empty
when every cell of `t` is `*`. -/
theorem result_strips_trailing_blanks (tm : TuringMachine) (fuel : Nat)
    (input_symbols : List String) (pass : Pass) (c : Config) (out : List Out)
    (t : List Char)
    (hvalid : isValidAutomaton tm = .ok true) (hinput : isValidInput tm input_symbols = true)
    (hloop : runLoop tm fuel
      { current_state := tm.start_state_,
        bandwidth := input_symbols.map char0 ++ List.replicate 100 '*',
        head_position := 0 } = .ok (pass, c, out))
    (hsize : c.bandwidth.length < 2147483648) (ht : t.length < 2147483648) :
    run tm fuel input_symbols =
      .ok ([Out.askInput] ++ out ++ [Out.result (resultCells c.bandwidth)]) ∧
    printResult t = .ok (resultCells t) ∧
    resultCells t <+: t ∧
    t = resultCells t ++ List.replicate (t.length - (resultCells t).length) '*' ∧
    (resultCells t).getLast? ≠ some '*' ∧
    ((∀ x ∈ t, x = '*') → resultCells t = []) := by
  refine ⟨?_, printResult_eq t ht, List.take_prefix _ _, resultCells_append_stars t,
    resultCells_getLast t, ?_⟩
  · rw [run_eval tm fuel input_symbols hvalid hinput, hloop]
    simp only [printResult_eq c.bandwidth hsize]
  · intro hall
    unfold resultCells
    rw [resultLength_all_stars _ hall _ (le_refl _)]
    rfl

/-- Witness of C11: `flip` on the input `1`, whose final tape is `0` followed
by 100 cells `*`. -/
theorem result_strips_trailing_blanks_witness :
    isValidAutomaton flip = .ok true ∧ isValidInput flip ["1"] = true ∧
    runLoop flip 1
      { current_state := flip.start_state_,
        bandwidth := ["1"].map char0 ++ List.replicate 100 '*',
        head_position := 0 } =
      .ok (Pass.atFinal, ⟨"q1", '0' :: List.replicate 100 '*', 1⟩, []) ∧
    ('0' :: List.replicate 100 '*').length < 2147483648 ∧
    run flip 1 ["1"] =
      .ok ([Out.askInput] ++ [] ++ [Out.result (resultCells ('0' :: List.replicate 100 '*'))]) ∧
    printResult ('0' :: List.replicate 100 '*') =
      .ok (resultCells ('0' :: List.replicate 100 '*')) ∧
    resultCells ('0' :: List.replicate 100 '*') = ['0'] :=
  ⟨by decide, by decide, by decide, by decide,
    (result_strips_trailing_blanks flip 1 ["1"] Pass.atFinal
      ⟨"q1", '0' :: List.replicate 100 '*', 1⟩ [] ('0' :: List.replicate 100 '*')
      (by decide) (by decide) (by decide) (by decide) (by decide)).1,
    (result_strips_trailing_blanks flip 1 ["1"] Pass.atFinal
      ⟨"q1", '0' :: List.replicate 100 '*', 1⟩ [] ('0' :: List.replicate 100 '*')
      (by decide) (by decide) (by decide) (by decide) (by decide)).2.1,
    by decide⟩

end TuringMachine

namespace PushdownAutomaton

/-- C13. For every definition text and every section `name` that the
pushdown parser stores, the stored rows hold no row twice, and they are the
first-occurrence deduplication of the rows that the text contributes to the
section after its last header: the same rows, each kept once, in the order of
first occurrence. The guarded `push_back` behind this appends a row to a
section exactly when no equal row is stored there. -/
theorem sections_deduplicated (lines : List String) (name : String) (rows : Section)
    (a : Automaton) (key : String) (row : Row)
    (hstored : (loadAutomaton lines).lookup name = some rows) :
    rows.Nodup ∧
    rows = keepFirst (contributedRows name lines "" []) ∧
    (∀ r, r ∈ rows ↔ r ∈ contributedRows name lines "" []) ∧
    rowsOf (addRow a key row) key =
      (if row ∈ rowsOf a key then rowsOf a key else rowsOf a key ++ [row]) := by
  have hrows : rowsOf (loadAutomaton lines) name = rows := by
    simp [rowsOf, hstored]
  have hkeep : rows = keepFirst (contributedRows name lines "" []) := by
    rw [← hrows]
    exact loadAutomatonLines_rows name lines [] "" [] (by simp [rowsOf, keepFirst])
  refine ⟨?_, hkeep, ?_, ?_⟩
  · rw [hkeep]
    exact keepFirst_nodup _
  · intro r
    rw [hkeep]
    exact keepFirst_mem _ r
  · rw [rowsOf_addRow]
    simp

/-- Witness of C13: section `states` of `repeatsText`, where `q0 S` occurs
twice. -/
theorem sections_deduplicated_witness :
    (loadAutomaton repeatsText).lookup "states" = some [["q0", "S"], ["q1", "F"]] ∧
    contributedRows "states" repeatsText "" [] = [["q0", "S"], ["q1", "F"], ["q0", "S"]] ∧
    ([["q0", "S"], ["q1", "F"]] : Section).Nodup ∧
    ([["q0", "S"], ["q1", "F"]] : Section) =
      keepFirst (contributedRows "states" repeatsText "" []) :=
  ⟨by decide, by decide,
    (sections_deduplicated repeatsText "states" [["q0", "S"], ["q1", "F"]] [] "states"
      ["q0", "S"] (by decide)).1,
    (sections_deduplicated repeatsText "states" [["q0", "S"], ["q1", "F"]] [] "states"
      ["q0", "S"] (by decide)).2.1⟩

end PushdownAutomaton

namespace TuringMachine

/-- C14 (counterexample). The text `twiceText` holds the rule row
`q0 1 q1 0 R` twice in section `rules`; the load succeeds and the row is
stored twice in `rules_`. -/
theorem twice_rule_kept_twice :
    loadFromFile twiceText =
      some ⟨[("q0", "S"), ("q1", "F")], ['0', '1'],
        [["q0", "1", "q1", "0", "R"], ["q0", "1", "q1", "0", "R"]], "q0", "q1"⟩ ∧
    ([["q0", "1", "q1", "0", "R"], ["q0", "1", "q1", "0", "R"]] : List (List String)).count
      ["q0", "1", "q1", "0", "R"] = 2 := by
  refine ⟨by decide, by decide⟩

/-- C14 (amended). When the tape-model parser succeeds, `rules_` is the list
of the token rows of all processed lines of section `rules`, in file order
and with every occurrence kept: a rule row appears in the model as many times
as it occurs in the text. -/
theorem rules_keep_every_occurrence (lines : List String) (tm : TuringMachine)
    (row : List String) (hload : loadFromFile lines = some tm) :
    tm.rules_ = ruleRowsFrom lines "" ∧
    tm.rules_.count row = (ruleRowsFrom lines "").count row := by
  have h := loadLines_rules lines empty "" tm hload
  have h1 : tm.rules_ = ruleRowsFrom lines "" := by
    rw [h]
    simp [empty]
  exact ⟨h1, by rw [h1]⟩

/-- Witness of C14 (amended): `twiceText`, whose rule row occurs twice. -/
theorem rules_keep_every_occurrence_witness :
    loadFromFile twiceText =
      some ⟨[("q0", "S"), ("q1", "F")], ['0', '1'],
        [["q0", "1", "q1", "0", "R"], ["q0", "1", "q1", "0", "R"]], "q0", "q1"⟩ ∧
    ruleRowsFrom twiceText "" = [["q0", "1", "q1", "0", "R"], ["q0", "1", "q1", "0", "R"]] ∧
    ([["q0", "1", "q1", "0", "R"], ["q0", "1", "q1", "0", "R"]] : List (List String)) =
      ruleRowsFrom twiceText "" :=
  ⟨by decide, by decide,
    (rules_keep_every_occurrence twiceText
      ⟨[("q0", "S"), ("q1", "F")], ['0', '1'],
        [["q0", "1", "q1", "0", "R"], ["q0", "1", "q1", "0", "R"]], "q0", "q1"⟩
      ["q0", "1", "q1", "0", "R"] (by decide)).1⟩

/-- C15 (the code at the failing input). `trim` gives back a line of one space
unchanged, so that line is not skipped. `spaceInStatesText` is `plainText`
with such a line inserted after the `[states]` header: `plainText` loads to
`flip`, `spaceInStatesText` fails to load. `spaceInSigmaText` has the line
after the `[sigma]` header: it loads, with the space as an extra sigma
symbol. An empty line, inserted at any position of any text, changes
nothing. -/
theorem space_line_changes_load (pre post : List String) :
    trim " " = " " ∧ isSkipped " " = false ∧
    loadFromFile plainText = some flip ∧
    spaceInStatesText = plainText.take 1 ++ [" "] ++ plainText.drop 1 ∧
    loadFromFile spaceInStatesText = none ∧
    spaceInSigmaText = plainText.take 4 ++ [" "] ++ plainText.drop 4 ∧
    loadFromFile spaceInSigmaText =
      some ⟨[("q0", "S"), ("q1", "F")], [' ', '0', '1'], [["q0", "1", "q1", "0", "R"]],
        "q0", "q1"⟩ ∧
    loadFromFile (pre ++ "" :: post) = loadFromFile (pre ++ post) := by
  refine ⟨by decide, by decide, by decide, by decide, by decide, by decide, by decide, ?_⟩
  exact loadLines_empty_line pre post empty ""

/-- C16. The tape-model parser fails the load exactly when some processed
line (neither skipped nor a section header) lies in section `states` and does
not split into 2 tokens, or lies in section `rules` and does not split into 5
tokens, or lies in section `sigma` and is not one character long. A line read
while the current section is none of these three, the time before the first
header included, never makes the load fail. -/
theorem load_fails_iff_arity (lines : List String) (tm : TuringMachine) (sec raw : String) :
    (loadFromFile lines = none ↔
      ∃ p ∈ processedFrom lines "",
        (p.1 = "states" ∧ (split p.2).length ≠ 2) ∨
        (p.1 = "rules" ∧ (split p.2).length ≠ 5) ∨
        (p.1 = "sigma" ∧ p.2.length ≠ 1)) ∧
    (loadLine tm sec raw = none → sec = "states" ∨ sec = "rules" ∨ sec = "sigma") := by
  refine ⟨loadLines_none_iff lines empty "", ?_⟩
  intro hnone
  cases hk : (isSkipped raw || isHeader (trim raw)) with
  | true =>
      rw [loadLine_skip tm sec raw hk] at hnone
      cases hnone
  | false =>
      rcases (loadLine_processed tm sec raw hk).1.1 hnone with h | h | h
      · exact Or.inl h.1
      · exact Or.inr (Or.inl h.1)
      · exact Or.inr (Or.inr h.1)

/-- Witness of C16: a states line with one token. -/
theorem load_fails_iff_arity_witness :
    loadLine empty "states" "q0" = none ∧
    (loadFromFile ["[states]", "q0"] = none ↔
      ∃ p ∈ processedFrom ["[states]", "q0"] "",
        (p.1 = "states" ∧ (split p.2).length ≠ 2) ∨
        (p.1 = "rules" ∧ (split p.2).length ≠ 5) ∨
        (p.1 = "sigma" ∧ p.2.length ≠ 1)) ∧
    ("states" = "states" ∨ "states" = "rules" ∨ "states" = "sigma") :=
  ⟨by decide, (load_fails_iff_arity ["[states]", "q0"] empty "states" "q0").1,
    (load_fails_iff_arity ["[states]", "q0"] empty "states" "q0").2 (by decide)⟩

end TuringMachine

namespace PushdownAutomaton

/-- C17. In an automaton that passes validation, whose only rule is
`[s, e, e, e, f]` from the Start state `s` to the Final state `f` (the last
states row tagged `F`), with `s` and `f` distinct, the run on the empty input
announces `s`, applies the rule in the initial epsilon closure (one
transition to `f` with the empty stack), prints the empty final stack and
accepts; a recursion budget of 2 is enough. -/
theorem single_epsilon_rule_accepts (a : Automaton) (states : Section) (s f : String)
    (fuel : Nat)
    (hstates : a.lookup "states" = some states)
    (hrules : a.lookup "rules" = some [[s, "e", "e", "e", f]])
    (hvalid : isValidAutomaton a = true) (hall : allValidRules a = .ok true)
    (hfirst : isValidFirstRule a = .ok true)
    (hfinal : lastTagged "F" states = some f) (hne : s ≠ f) :
    applyEpsilonTransitions a (fuel + 2) s [] = .ok (true, f, [], [Out.transition f []]) ∧
    startPDA a (fuel + 2) [] =
      .ok [Out.askInput, Out.start s, Out.transition f [], Out.finalStack [], Out.accepted] := by
  have h5 : ∀ r ∈ [[s, "e", "e", "e", f]], r.length = 5 := by simp
  obtain ⟨rule0, more, from0, toks, hlist, hrule0, hstart⟩ :=
    isValidFirstRule_start a states _ hstates hrules hfirst
  simp only [List.cons.injEq] at hlist
  obtain ⟨hlist, -⟩ := hlist
  rw [← hlist] at hrule0
  simp only [List.cons.injEq] at hrule0
  obtain ⟨hs, -⟩ := hrule0
  rw [← hs] at hstart
  have hcur : (collectStates states "" []).1 = s := by rw [collectStates_fst, ← hstart]
  have hfin : (collectStates states "" []).2.contains f = true := by
    obtain ⟨row, hrow, hname⟩ := lastTagged_mem "F" states f hfinal
    simpa using collectStates_tagged states "" [] row f hrow hname
  have hcl1 : applyEpsilonTransitions a (fuel + 2) s [] =
      .ok (true, f, [], [Out.transition f []]) := by
    rw [applyEpsilonTransitions_chase a _ hrules h5]
    refine ⟨1, by omega, ?_, ?_, rfl⟩
    · simp [chase, applicable, fire]
    · simp [applicable, hne]
  have hcl2 : applyEpsilonTransitions a (fuel + 2) f [] = .ok (false, f, [], []) := by
    rw [applyEpsilonTransitions_chase a _ hrules h5]
    refine ⟨0, by omega, rfl, ?_, rfl⟩
    simp [applicable, hne]
  refine ⟨hcl1, ?_⟩
  rw [startPDA_eval a (fuel + 2) [] states hstates hvalid hall (by simp [isValidInput, pure,
    Except.pure]) hfirst, hcur, hcl1]
  simp only [inputSymbols, hcl2, hfin]
  rfl

/-- Witness of C17: `oneEpsilon`, states `q0 S` and `q1 F`, rule
`q0 e e e q1`. -/
theorem single_epsilon_rule_accepts_witness :
    oneEpsilon.lookup "states" = some [["q0", "S"], ["q1", "F"]] ∧
    oneEpsilon.lookup "rules" = some [["q0", "e", "e", "e", "q1"]] ∧
    isValidAutomaton oneEpsilon = true ∧ allValidRules oneEpsilon = .ok true ∧
    isValidFirstRule oneEpsilon = .ok true ∧
    lastTagged "F" [["q0", "S"], ["q1", "F"]] = some "q1" ∧ "q0" ≠ "q1" ∧
    applyEpsilonTransitions oneEpsilon (0 + 2) "q0" [] =
      .ok (true, "q1", [], [Out.transition "q1" []]) ∧
    startPDA oneEpsilon (0 + 2) [] =
      .ok [Out.askInput, Out.start "q0", Out.transition "q1" [], Out.finalStack [],
        Out.accepted] :=
  ⟨by decide, by decide, by decide, by decide, by decide, by decide, by decide,
    single_epsilon_rule_accepts oneEpsilon [["q0", "S"], ["q1", "F"]] "q0" "q1" 0 (by decide)
      (by decide) (by decide) (by decide) (by decide) (by decide) (by decide)⟩

end PushdownAutomaton

namespace TuringMachine

/-- C18. The machine with states `q0 S`, `q1 F`, sigma `0`, `1` and the single
rule `q0 1 q1 0 R` is `flip`. On the input `1` the first pass writes `0` into
cell 0 and then moves the head to cell 1, entering `q1`; the next evaluation of
the loop condition finds the Final state. So no run completes without a rule
application, every budget of at least one application ends at Final after
exactly that one, and the result printed is `0`, the 100 trailing blanks
being stripped. -/
theorem flip_on_one (fuel : Nat) :
    loadFromFile ["[states]", "q0 S", "q1 F", "[sigma]", "0", "1", "[rules]", "q0 1 q1 0 R"] =
      some flip ∧
    isValidAutomaton flip = .ok true ∧ isValidInput flip ["1"] = true ∧
    step flip ⟨"q0", '1' :: List.replicate 100 '*', 0⟩ =
      .ok (Pass.next, ⟨"q1", '0' :: List.replicate 100 '*', 1⟩, []) ∧
    step flip ⟨"q1", '0' :: List.replicate 100 '*', 1⟩ =
      .ok (Pass.atFinal, ⟨"q1", '0' :: List.replicate 100 '*', 1⟩, []) ∧
    runLoop flip 0 ⟨"q0", '1' :: List.replicate 100 '*', 0⟩ = .error Fault.outOfFuel ∧
    runLoop flip (fuel + 1) ⟨"q0", '1' :: List.replicate 100 '*', 0⟩ =
      .ok (Pass.atFinal, ⟨"q1", '0' :: List.replicate 100 '*', 1⟩, []) ∧
    run flip (fuel + 1) ["1"] = .ok [Out.askInput, Out.result ['0']] := by
  have h1 : step flip ⟨"q0", '1' :: List.replicate 100 '*', 0⟩ =
      .ok (Pass.next, ⟨"q1", '0' :: List.replicate 100 '*', 1⟩, []) := by decide
  have h2 : step flip ⟨"q1", '0' :: List.replicate 100 '*', 1⟩ =
      .ok (Pass.atFinal, ⟨"q1", '0' :: List.replicate 100 '*', 1⟩, []) := by decide
  have hloop : runLoop flip (fuel + 1) ⟨"q0", '1' :: List.replicate 100 '*', 0⟩ =
      .ok (Pass.atFinal, ⟨"q1", '0' :: List.replicate 100 '*', 1⟩, []) := by
    rw [runLoop]
    simp only [h1, bind, Except.bind]
    cases fuel with
    | zero =>
        rw [runLoop]
        simp only [h2, bind, Except.bind, pure, Except.pure]
    | succ n =>
        rw [runLoop]
        simp only [h2, bind, Except.bind, pure, Except.pure]
  have hvalid : isValidAutomaton flip = .ok true := by decide
  have hinput : isValidInput flip ["1"] = true := by decide
  refine ⟨by decide, hvalid, hinput, h1, h2, by decide, hloop, ?_⟩
  rw [run_eval flip (fuel + 1) ["1"] hvalid hinput]
  have hstart : (⟨flip.start_state_, ["1"].map char0 ++ List.replicate 100 '*', 0⟩ : Config) =
      ⟨"q0", '1' :: List.replicate 100 '*', 0⟩ := by decide
  rw [hstart, hloop]
  have hres : printResult ('0' :: List.replicate 100 '*') = .ok ['0'] := by decide
  simp only [hres]
  rfl

end TuringMachine

namespace PushdownAutomaton

/-- C19. In an automaton whose rules all have 5 tokens, let the first
applicable epsilon rule at `(currState, stack)` go back to its own from-state
with push-token equal to pop-token. Applying it leaves state and stack as
they were, so `applyEpsilonTransitions` exhausts every recursion budget: for
no `fuel` does it return. -/
theorem epsilon_self_loop_diverges (a : Automaton) (rules : Section)
    (hrules : a.lookup "rules" = some rules) (h5 : ∀ r ∈ rules, r.length = 5)
    (currState : String) (stack : List String) (i p : String)
    (hfirst : rules.find? (applicable "e" currState stack) =
      some [currState, i, p, p, currState])
    (fuel : Nat) :
    fire [currState, i, p, p, currState] stack = (currState, stack) ∧
    applyEpsilonTransitions a fuel currState stack = .error Fault.outOfFuel ∧
    ∀ r, applyEpsilonTransitions a fuel currState stack ≠ .ok r := by
  have happ : applicable "e" currState stack [currState, i, p, p, currState] = true := by
    have := List.find?_some hfirst
    simpa using this
  have hfire : fire [currState, i, p, p, currState] stack = (currState, stack) := by
    have h2 := fire_same currState i p currState stack happ
    have h1 : (fire [currState, i, p, p, currState] stack).1 = currState := by simp [fire]
    exact Prod.ext h1 h2
  have hdiv : applyEpsilonTransitions a fuel currState stack = .error Fault.outOfFuel := by
    induction fuel with
    | zero => rfl
    | succ n ih =>
        rw [applyEpsilonTransitions]
        simp only [sectionAt, hrules, bind, Except.bind]
        rw [epsilonLoop_eq _ _ h5, hfirst]
        simp only [hfire, ih]
  refine ⟨hfire, hdiv, ?_⟩
  intro r hr
  rw [hdiv] at hr
  cases hr

/-- Witness of C19: `selfLoop` in state `q` with `x` on the stack, where the
only rule pops `x`, pushes `x` and stays in `q`. -/
theorem epsilon_self_loop_diverges_witness :
    selfLoop.lookup "rules" = some [["q", "e", "x", "x", "q"]] ∧
    (∀ r ∈ [["q", "e", "x", "x", "q"]], r.length = 5) ∧
    [["q", "e", "x", "x", "q"]].find? (applicable "e" "q" ["x"]) =
      some ["q", "e", "x", "x", "q"] ∧
    applyEpsilonTransitions selfLoop 1000 "q" ["x"] = .error Fault.outOfFuel :=
  ⟨by decide, by decide, by decide,
    (epsilon_self_loop_diverges selfLoop [["q", "e", "x", "x", "q"]] (by decide) (by decide)
      "q" ["x"] "e" "x" (by decide) 1000).2.1⟩

/-- C20. In a validated automaton whose sigma declares `e`, an input with the
token `e` (all its tokens declared) passes `isValidInput`. If the initial
closure terminates and the symbols `pre` before that token are consumed (every
closure terminating), then at the configuration reached no rule with
input-token `e` is applicable, because the last closure stopped only when no
epsilon rule was applicable; the run prints "No valid transition" for `e` and
"Input rejected!" and reads nothing after it. -/
theorem epsilon_token_rejected (a : Automaton) (states sigma rules : Section)
    (hstates : a.lookup "states" = some states) (hsigma : a.lookup "sigma" = some sigma)
    (hrules : a.lookup "rules" = some rules)
    (hvalid : isValidAutomaton a = true) (hall : allValidRules a = .ok true)
    (hfirst : isValidFirstRule a = .ok true) (he : declaredIn sigma "e")
    (fuel : Nat) (flag0 : Bool) (currState0 : String) (stack0 : List String) (out0 : List Out)
    (hclosure : applyEpsilonTransitions a fuel (collectStates states "" []).1 [] =
      .ok (flag0, currState0, stack0, out0))
    (pre : List String) (currState : String) (stack : List String) (out : List Out)
    (hpre : inputSymbols a fuel pre currState0 stack0 = .ok (true, currState, stack, out))
    (rest : List String) (hdecl : ∀ tok ∈ pre ++ rest, declaredIn sigma tok) :
    isValidInput a (pre ++ "e" :: rest) = .ok true ∧
    (∀ r ∈ rules, applicable "e" currState stack r = false) ∧
    startPDA a fuel (pre ++ "e" :: rest) =
      .ok ([Out.askInput, Out.start (collectStates states "" []).1] ++ out0 ++ out ++
        [Out.noTransition "e" currState, Out.inputRejected]) := by
  obtain ⟨rules1, hr, hok, h5⟩ := allValidRules_true a hall
  rw [hrules] at hr
  simp only [Option.some.injEq] at hr
  subst hr
  obtain ⟨rule0, more, from0, toks, hlist, -, -⟩ :=
    isValidFirstRule_start a states rules hstates hrules hfirst
  obtain ⟨ts, hts⟩ := isValidRule_sigma a sigma rule0 hsigma
    (hok rule0 (by rw [hlist]; exact List.mem_cons_self _ _))
  have hinput : isValidInput a (pre ++ "e" :: rest) = .ok true := by
    apply isValidInput_of_declared a sigma ts hsigma hts
    intro tok htok
    simp only [List.mem_append, List.mem_cons] at htok
    rcases htok with h | rfl | h
    · exact hdecl tok (List.mem_append_left _ h)
    · exact he
    · exact hdecl tok (List.mem_append_right _ h)
  obtain ⟨n, -, -, hnone0, -⟩ :=
    (applyEpsilonTransitions_chase a rules hrules h5 fuel _ _ flag0 currState0 stack0 out0).1
      hclosure
  have hnone := inputSymbols_closed a rules hrules h5 fuel pre currState0 stack0 currState stack
    out hnone0 hpre
  have hall0 : ∀ r ∈ rules, applicable "e" currState stack r = false := by
    intro r hrmem
    have := (List.find?_eq_none.1 hnone) r hrmem
    simpa using this
  refine ⟨hinput, hall0, ?_⟩
  rw [startPDA_eval a fuel _ states hstates hvalid hall hinput hfirst, hclosure]
  simp only []
  rw [inputSymbols_append a rules hrules h5 fuel ("e" :: rest) pre currState0 stack0 currState
    stack out hpre, inputSymbols_cons a rules hrules h5, hnone]
  simp

/-- Witness of C20: `chain` declares `e`; on the input `e a` the closure ends
in `q2` with the empty stack, where the token `e` finds no rule. -/
theorem epsilon_token_rejected_witness :
    chain.lookup "states" = some [["q0", "S"], ["q1", "0"], ["q2", "F"]] ∧
    chain.lookup "sigma" = some [["a"], ["x"], ["e"]] ∧
    isValidAutomaton chain = true ∧ allValidRules chain = .ok true ∧
    isValidFirstRule chain = .ok true ∧
    isValidInput chain ([] ++ "e" :: ["a"]) = .ok true ∧
    startPDA chain 3 ([] ++ "e" :: ["a"]) =
      .ok ([Out.askInput, Out.start (collectStates [["q0", "S"], ["q1", "0"], ["q2", "F"]] "" []).1]
        ++ [Out.transition "q1" ["x"], Out.transition "q2" []] ++ [] ++
        [Out.noTransition "e" "q2", Out.inputRejected]) :=
  ⟨by decide, by decide, by decide, by decide, by decide,
    (epsilon_token_rejected chain [["q0", "S"], ["q1", "0"], ["q2", "F"]]
      [["a"], ["x"], ["e"]] [["q0", "e", "e", "x", "q1"], ["q1", "e", "x", "e", "q2"]]
      (by decide) (by decide) (by decide) (by decide) (by decide) (by decide)
      ⟨["e"], by decide, rfl⟩ 3 true "q2" []
      [Out.transition "q1" ["x"], Out.transition "q2" []] (by decide) [] "q2" [] [] (by decide)
      ["a"] (by
        intro tok htok
        simp only [List.nil_append, List.mem_singleton] at htok
        subst htok
        exact ⟨["a"], by decide, rfl⟩)).1,
    (epsilon_token_rejected chain [["q0", "S"], ["q1", "0"], ["q2", "F"]]
      [["a"], ["x"], ["e"]] [["q0", "e", "e", "x", "q1"], ["q1", "e", "x", "e", "q2"]]
      (by decide) (by decide) (by decide) (by decide) (by decide) (by decide)
      ⟨["e"], by decide, rfl⟩ 3 true "q2" []
      [Out.transition "q1" ["x"], Out.transition "q2" []] (by decide) [] "q2" [] [] (by decide)
      ["a"] (by
        intro tok htok
        simp only [List.nil_append, List.mem_singleton] at htok
        subst htok
        exact ⟨["a"], by decide, rfl⟩)).2.2⟩

end PushdownAutomaton

namespace PushdownAutomaton

/-- C21. Not every row that the pushdown parser stores has a token. A line
that holds only a vertical tab is not stripped by `trim`, so it is not skipped
as empty, and `splitString` finds no token in it: under `[states]` the parser
stores the empty row, and the access `state[0]` of `isValidRule` is then out of
bounds, so that `startPDA` faults on every input; with an empty line in that
place the same text is loaded and run. Rows of `sigma` always hold exactly one
token, and in a text without vertical tab and form feed every stored row has a
token. -/
theorem vertical_tab_line_stores_empty_row (lines : List String) :
    (loadAutomaton vtabText).lookup "states" = some [["q0", "S"], [], ["q1", "F"]] ∧
    isValidAutomaton (loadAutomaton vtabText) = true ∧
    isValidRule (loadAutomaton vtabText) ["q0", "a", "e", "e", "q1"] =
      .error Fault.badIndex ∧
    (∀ fuel input, startPDA (loadAutomaton vtabText) fuel input = .error Fault.badIndex) ∧
    isValidFirstRule
      (loadAutomaton ["[states]", "q0 S", "[sigma]", "a", "[rules]", String.mk [Char.ofNat 11]]) =
      .error Fault.badIndex ∧
    (loadAutomaton emptyLineText).lookup "states" = some [["q0", "S"], ["q1", "F"]] ∧
    startPDA (loadAutomaton emptyLineText) 2 ["a"] =
      .ok [Out.askInput, Out.start "q0", Out.transition "q1" [], Out.finalStack [],
        Out.accepted] ∧
    (∀ row ∈ rowsOf (loadAutomaton lines) "sigma", row.length = 1) ∧
    ((∀ raw ∈ lines, ∀ c ∈ raw.toList, c ≠ Char.ofNat 11 ∧ c ≠ Char.ofNat 12) →
      ∀ name, ∀ row ∈ rowsOf (loadAutomaton lines) name, row ≠ []) := by
  refine ⟨by decide, by decide, by decide, ?_, by decide, by decide, by decide,
    sigma_rows_single lines, fun hplain name => rows_ne_nil lines hplain name⟩
  intro fuel input
  have hv : isValidAutomaton (loadAutomaton vtabText) = true := by decide
  have ha : allValidRules (loadAutomaton vtabText) = .error Fault.badIndex := by decide
  unfold startPDA
  simp [hv, ha, bind, Except.bind, pure, Except.pure]

end PushdownAutomaton

namespace PushdownAutomaton

/-- Counterexample to C22 as stated: the header `[]`, whose name is empty,
occurs twice, and the line `q1 F` follows its last occurrence, yet the parsed
section of that name is present and holds no row. -/
theorem empty_name_section_stays_empty :
    isHeader (trim "[]") = true ∧ headerName (trim "[]") = "" ∧
    rowsFollowing "" ["q1 F"] = [["q1", "F"]] ∧
    (loadAutomaton ["[]", "q0 S", "[]", "q1 F"]).lookup "" = some [] ∧
    ¬ (loadAutomaton (["[]", "q0 S"] ++ "[]" :: ["q1 F"])).lookup "" =
      some (keepFirst (rowsFollowing "" ["q1 F"])) := by
  refine ⟨by decide, by decide, by decide, by decide, by decide⟩

/-- C22, amended. Let `hdr` be a header line and let no header of the same
name occur among the lines `post` after it. Whatever lines `pre` come before
it, the section of that name is present in the parsed automaton and holds
nothing that `pre` contributed: for a non-empty name it is the first-occurrence
deduplication of the rows of the non-skipped lines between `hdr` and the next
header, and for the empty name it is empty. It is the section that the text
without `pre` yields, and when `hdr` is the last line it is present and
empty. -/
theorem repeated_header_discards_rows (pre post : List String) (hdr : String)
    (hhdr : isHeader (trim hdr) = true)
    (hlast : ∀ raw ∈ post, isHeader (trim raw) = true →
      headerName (trim raw) ≠ headerName (trim hdr)) :
    (loadAutomaton (pre ++ hdr :: post)).lookup (headerName (trim hdr)) =
      some (if headerName (trim hdr) = "" then []
        else keepFirst (rowsFollowing (headerName (trim hdr)) post)) ∧
    (loadAutomaton (pre ++ hdr :: post)).lookup (headerName (trim hdr)) =
      (loadAutomaton (hdr :: post)).lookup (headerName (trim hdr)) ∧
    (loadAutomaton (pre ++ [hdr])).lookup (headerName (trim hdr)) = some [] := by
  have key : ∀ (pre post : List String),
      (∀ raw ∈ post, isHeader (trim raw) = true →
        headerName (trim raw) ≠ headerName (trim hdr)) →
      (loadAutomaton (pre ++ hdr :: post)).lookup (headerName (trim hdr)) =
        some (if headerName (trim hdr) = "" then []
          else keepFirst (rowsFollowing (headerName (trim hdr)) post)) := by
    intro pre post hlast
    have hsome := loadAutomatonLines_header_isSome pre post hdr hhdr [] ""
    have hrows := loadAutomaton_rows (pre ++ hdr :: post) (headerName (trim hdr))
    rw [contributedRows_reset _ pre post hdr hhdr rfl] at hrows
    have hval : rowsOf (loadAutomaton (pre ++ hdr :: post)) (headerName (trim hdr)) =
        (if headerName (trim hdr) = "" then []
          else keepFirst (rowsFollowing (headerName (trim hdr)) post)) := by
      rw [hrows]
      by_cases hname : headerName (trim hdr) = ""
      · rw [if_pos hname, contributedRows_other _ post hlast _ _ (Or.inr hname)]
        rfl
      · rw [if_neg hname, contributedRows_following _ hname post hlast, List.nil_append]
    rw [← hval]
    unfold rowsOf
    unfold loadAutomaton at hsome ⊢
    cases hl : (loadAutomatonLines (pre ++ hdr :: post) [] "").lookup (headerName (trim hdr)) with
    | none => simp [hl] at hsome
    | some rows => rfl
  refine ⟨key pre post hlast, ?_, ?_⟩
  · rw [key pre post hlast]
    exact (key [] post hlast).symm
  · rw [key pre [] (by simp)]
    by_cases hname : headerName (trim hdr) = ""
    · rw [if_pos hname]
    · rw [if_neg hname]
      rfl

/-- Witness of C22: the second `[states]` header of `reopenedText` discards the
two rows under the first one; what is stored is `q2 S`, once, and `q3 F`. -/
theorem repeated_header_discards_rows_witness :
    isHeader (trim "[states]") = true ∧
    (∀ raw ∈ ["q2 S", "# again", "q2 S", "q3 F", "[rules]", "q2 a e e q3"],
      isHeader (trim raw) = true → headerName (trim raw) ≠ headerName (trim "[states]")) ∧
    (loadAutomaton reopenedText).lookup "states" = some [["q2", "S"], ["q3", "F"]] ∧
    ((loadAutomaton (["[states]", "q0 S", "q1 F", "[sigma]", "a"] ++
        "[states]" :: ["q2 S", "# again", "q2 S", "q3 F", "[rules]", "q2 a e e q3"])).lookup
        (headerName (trim "[states]")) =
      some (if headerName (trim "[states]") = "" then []
        else keepFirst (rowsFollowing (headerName (trim "[states]"))
          ["q2 S", "# again", "q2 S", "q3 F", "[rules]", "q2 a e e q3"])) ∧
    (loadAutomaton (["[states]", "q0 S", "q1 F", "[sigma]", "a"] ++
        "[states]" :: ["q2 S", "# again", "q2 S", "q3 F", "[rules]", "q2 a e e q3"])).lookup
        (headerName (trim "[states]")) =
      (loadAutomaton ("[states]" ::
        ["q2 S", "# again", "q2 S", "q3 F", "[rules]", "q2 a e e q3"])).lookup
        (headerName (trim "[states]")) ∧
    (loadAutomaton (["[states]", "q0 S", "q1 F", "[sigma]", "a"] ++ ["[states]"])).lookup
        (headerName (trim "[states]")) = some []) :=
  ⟨by decide, by decide, by decide,
    repeated_header_discards_rows ["[states]", "q0 S", "q1 F", "[sigma]", "a"]
      ["q2 S", "# again", "q2 S", "q3 F", "[rules]", "q2 a e e q3"] "[states]"
      (by decide) (by decide)⟩

end PushdownAutomaton

namespace PancakeSorting

/-- Counterexample to C23 as stated: the size `2^31` of `hugeArray` becomes the
negative `n = -2^31` in `int n = arr.size()`, the loop of `pancakeSort` is not
entered, and the array is left as it is, with `1` before `0`. -/
theorem huge_array_left_unsorted :
    hugeArray.length = 2147483648 ∧ toInt hugeArray.length = -2147483648 ∧
    pancakeSort hugeArray = .ok (hugeArray, []) ∧ ¬ hugeArray.Sorted (· ≤ ·) := by
  have hn : toInt 2147483648 = -2147483648 := by decide
  have h0 : (-2147483648 : Int).toNat = 0 := by decide
  refine ⟨hugeArray_length, by rw [hugeArray_length]; exact hn, ?_, ?_⟩
  · unfold pancakeSort
    rw [hugeArray_length, hn, h0, pancakeLoop]
  · intro h
    have h1 : (List.replicate 2147483646 (0 : Int) ++ [1, 0]).Pairwise (· ≤ ·) := h
    have h2 : ([1, 0] : List Int).Pairwise (· ≤ ·) := (List.pairwise_append.1 h1).2.1
    exact absurd (List.rel_of_pairwise_cons h2 (List.mem_singleton_self 0)) (by decide)

/-- C23, amended. For every integer array of fewer than `2^31` elements,
the empty and the one-element array included, `pancakeSort` returns: it leaves
the array sorted in non-decreasing order and a permutation of its input, every
call `flip(arr, i)` it makes has `0 ≤ i < length`, and the array it leaves is
the input after exactly these prefix reversals, in call order. -/
theorem pancakeSort_sorts (arr : List Int) (hsize : arr.length < 2147483648) :
    ∃ out flips, pancakeSort arr = .ok (out, flips) ∧ out.Sorted (· ≤ ·) ∧ out.Perm arr ∧
      (∀ i ∈ flips, 0 ≤ i ∧ i < (arr.length : Int)) ∧ out = applyFlips flips arr := by
  obtain ⟨out, more, hrun, hsorted, hperm, hrange, hout⟩ :=
    pancakeLoop_spec arr.length arr [] [] rfl List.sorted_nil (by simp)
  refine ⟨out, more, ?_, hsorted, by simpa using hperm, by simpa using hrange,
    by simpa using hout⟩
  unfold pancakeSort
  rw [toInt_eq _ hsize, Int.toNat_ofNat]
  simpa using hrun

/-- Witness of C23: a seven-element array with repeated elements, sorted by
nine flips; the empty and the one-element array are returned without a flip. -/
theorem pancakeSort_sorts_witness :
    ([2, 2, 1, 3, 0, -4, 3] : List Int).length < 2147483648 ∧
    pancakeSort [2, 2, 1, 3, 0, -4, 3] =
      .ok ([-4, 0, 1, 2, 2, 3, 3], [3, 6, 5, 1, 4, 2, 3, 2, 1]) ∧
    pancakeSort [] = .ok ([], []) ∧ pancakeSort [5] = .ok ([5], []) ∧
    ∃ out flips, pancakeSort [2, 2, 1, 3, 0, -4, 3] = .ok (out, flips) ∧
      out.Sorted (· ≤ ·) ∧ out.Perm [2, 2, 1, 3, 0, -4, 3] ∧
      (∀ i ∈ flips, 0 ≤ i ∧ i < (([2, 2, 1, 3, 0, -4, 3] : List Int).length : Int)) ∧
      out = applyFlips flips [2, 2, 1, 3, 0, -4, 3] :=
  ⟨by decide, by decide, by decide, by decide,
    pancakeSort_sorts [2, 2, 1, 3, 0, -4, 3] (by decide)⟩

end PancakeSorting

namespace PushdownAutomaton

/-- C24. Let the rules of an automaton all be valid. Starting from the empty
stack, after any sequence of rules of the automaton that `applyRule` applies,
every stack element is the push-token of a rule, is declared in `sigma` and is
not the epsilon token `e`. A rule that `applyRule` applies changes the length
of the stack by -1, 0 or +1. Every stack that a run of `startPDA` shows, in a
transition line or as the final stack, satisfies the same invariant. -/
theorem stack_holds_push_tokens (a : Automaton) (rules sigma : Section)
    (hrules : a.lookup "rules" = some rules) (hsigma : a.lookup "sigma" = some sigma)
    (hall : allValidRules a = .ok true) :
    (∀ applied : List Row, (∀ r ∈ applied, r ∈ rules) →
      ∀ currState currState1 stack1, applyRules applied currState [] = some (currState1, stack1) →
        stackOk rules sigma stack1) ∧
    (∀ rule ∈ rules, ∀ currState stack currState1 stack1 out,
      applyRule rule currState stack = .ok (true, currState1, stack1, out) →
        stack1.length + 1 = stack.length ∨ stack1.length = stack.length ∨
          stack1.length = stack.length + 1) ∧
    (∀ fuel input out, startPDA a fuel input = .ok out →
      ∀ e ∈ out, ∀ stack, e.stack? = some stack → stackOk rules sigma stack) := by
  have hshape := valid_rules_shape a rules sigma hrules hsigma hall
  refine ⟨?_, ?_, ?_⟩
  · intro applied happlied currState currState1 stack1 hrun
    exact applyRules_stackOk rules sigma hshape applied happlied currState [] currState1 stack1
      hrun (stackOk_nil rules sigma)
  · intro rule hrule currState stack currState1 stack1 out hrun
    obtain ⟨f, i, p, q, t, rfl, -⟩ := hshape rule hrule
    rw [applyRule_eval] at hrun
    by_cases hc : p ≠ "e" ∧ (stack = [] ∨ stack.getLast? ≠ some p)
    · rw [if_pos hc] at hrun
      simp at hrun
    · rw [if_neg hc] at hrun
      simp only [Except.ok.injEq, Prod.mk.injEq, true_and] at hrun
      rw [← hrun.2.1]
      exact fire_length f i p q t stack hc
  · intro fuel input out hrun
    exact startPDA_stackOk a rules sigma hrules hshape fuel input out hrun

/-- Witness of C24: the automaton `pushPop`, whose run on `a a b` shows the
stacks `x`, `x x`, `x` and ends with `x` left on the stack. -/
theorem stack_holds_push_tokens_witness :
    pushPop.lookup "rules" = some [["q0", "a", "e", "x", "q0"], ["q0", "b", "x", "e", "q1"],
      ["q1", "b", "x", "e", "q1"]] ∧
    pushPop.lookup "sigma" = some [["a"], ["b"], ["x"], ["e"]] ∧
    allValidRules pushPop = .ok true ∧
    applyRules [["q0", "a", "e", "x", "q0"], ["q0", "a", "e", "x", "q0"],
      ["q0", "b", "x", "e", "q1"]] "q0" [] = some ("q1", ["x"]) ∧
    startPDA pushPop 2 ["a", "a", "b"] =
      .ok [Out.askInput, Out.start "q0", Out.transition "q0" ["x"],
        Out.transition "q0" ["x", "x"], Out.transition "q1" ["x"], Out.finalStack ["x"],
        Out.accepted] ∧
    ((∀ applied : List Row,
        (∀ r ∈ applied, r ∈ [["q0", "a", "e", "x", "q0"], ["q0", "b", "x", "e", "q1"],
          ["q1", "b", "x", "e", "q1"]]) →
        ∀ currState currState1 stack1,
          applyRules applied currState [] = some (currState1, stack1) →
          stackOk [["q0", "a", "e", "x", "q0"], ["q0", "b", "x", "e", "q1"],
            ["q1", "b", "x", "e", "q1"]] [["a"], ["b"], ["x"], ["e"]] stack1) ∧
      (∀ rule ∈ [["q0", "a", "e", "x", "q0"], ["q0", "b", "x", "e", "q1"],
          ["q1", "b", "x", "e", "q1"]],
        ∀ currState stack currState1 stack1 out,
          applyRule rule currState stack = .ok (true, currState1, stack1, out) →
          stack1.length + 1 = stack.length ∨ stack1.length = stack.length ∨
            stack1.length = stack.length + 1) ∧
      (∀ fuel input out, startPDA pushPop fuel input = .ok out →
        ∀ e ∈ out, ∀ stack, e.stack? = some stack →
          stackOk [["q0", "a", "e", "x", "q0"], ["q0", "b", "x", "e", "q1"],
            ["q1", "b", "x", "e", "q1"]] [["a"], ["b"], ["x"], ["e"]] stack)) :=
  ⟨rfl, rfl, by decide, by decide, by decide,
    stack_holds_push_tokens pushPop
      [["q0", "a", "e", "x", "q0"], ["q0", "b", "x", "e", "q1"], ["q1", "b", "x", "e", "q1"]]
      [["a"], ["b"], ["x"], ["e"]] rfl rfl (by decide)⟩

end PushdownAutomaton

end LfaLab
